import Mathlib

/-!
# Hebbian-SNN-JS: a shallow embedding of the simulation core

Three classes of networks are embedded.

* `src/testPhys/snn.js`: the layered network (`Neuron`, `Synapse`, `SNN`) with
  adaptive-threshold leaky integrate-and-fire neurons, delayed transmission and
  spike-timing-dependent plasticity.  Definitions live in the namespace `Layered`.
* `src/Website/JavaScript/HebbianSNN.js`: the typed-array engine
  (`OptimizedNetwork`).  Definitions live in the namespace `Dense`.
* `src/Website/JavaScript/HebbianSNN.js`: the object-graph Hebbian network
  (`Neuron`, `Synapse`, `Network`).  Definitions live in the namespace `Graph`.

Modelling conventions.

* JavaScript numbers are exact rationals (`ℚ`).  The only non-finite number the
  source writes itself, the initial `lastSpikeTime = -Infinity`, is kept
  explicit (`SpikeTime.negInf`), together with the IEEE results of subtracting
  such values (`TimeDiff`).
* The functions named after the source (`Synapse.stdpUpdate`,
  `OptimizedNetwork.step`, ...) compute in exact arithmetic.  Where a property
  depends on the rounding of IEEE arithmetic, the functions with the suffix
  `Float64` or `Float32` are used instead: they are the same code with every
  arithmetic result rounded to a double (`Rounding.toFloat64`) and every store
  into a `Float32Array` rounded to single precision (`Rounding.storeFloat32`).
* Object references (`syn.pre`, `syn.post`, `neuron.outgoing`, ...) are indices
  into the owning network's `neurons` / `synapses` lists.  A read through an
  index that points outside the list (which no JavaScript reference can do)
  yields `Neuron.blank`; a write through it does nothing.
* `Math.exp` is a parameter `exp : ℚ → ℚ`; `Math.random` is a parameter
  `rand : ℕ → ℚ` giving the value of the k-th call.
-/

namespace Layered

/-- The value of `lastSpikeTime`: `-Infinity` until the neuron first fires, then the
`currentTime` of the last firing tick. -/
inductive SpikeTime where
  | negInf : SpikeTime
  | fin (t : ℚ) : SpikeTime
  deriving DecidableEq, Repr

/-- The result of `post.lastSpikeTime - pre.lastSpikeTime` in IEEE arithmetic. -/
inductive TimeDiff where
  | nan : TimeDiff
  | negInf : TimeDiff
  | posInf : TimeDiff
  | fin (d : ℚ) : TimeDiff
  deriving DecidableEq, Repr

/-- Subtraction `a - b` of two spike times: `-Infinity - (-Infinity)` is `NaN`. -/
def SpikeTime.sub : SpikeTime → SpikeTime → TimeDiff
  | .fin a, .fin b => .fin (a - b)
  | .fin _, .negInf => .posInf
  | .negInf, .fin _ => .negInf
  | .negInf, .negInf => .nan

/-- The test `delta_t > 0` (false on `NaN`). -/
def TimeDiff.isPos : TimeDiff → Bool
  | .fin d => decide (0 < d)
  | .posInf => true
  | _ => false

/-- The test `delta_t < 0` (false on `NaN`). -/
def TimeDiff.isNeg : TimeDiff → Bool
  | .fin d => decide (d < 0)
  | .negInf => true
  | _ => false

/-- The value `-delta_t`. -/
def TimeDiff.neg : TimeDiff → TimeDiff
  | .fin d => .fin (-d)
  | .posInf => .negInf
  | .negInf => .posInf
  | .nan => .nan

/-- The value `Math.exp(x / tau)` for an extended `x` and a time constant `tau`.
For finite `x` this is `exp (x / tau)`; for `x = -Infinity` it is
`Math.exp(-Infinity) = 0`.  Both are the JavaScript values for `tau > 0`, which is what
the `Synapse` constructor sets (0.02) and nothing in the repository changes; for
`tau ≤ 0` JavaScript can produce non-finite values, which are outside this model.
`stdpUpdate` only evaluates the function at `x < 0`, so the last two cases are never
reached from it. -/
def expDiv (exp : ℚ → ℚ) (x : TimeDiff) (tau : ℚ) : ℚ :=
  match x with
  | .fin d => exp (d / tau)
  | .negInf => 0
  | .posInf => 0
  | .nan => 0

/-- The fields of `class Neuron` of `snn.js`. -/
structure Neuron where
  id : String
  baseThreshold : ℚ
  threshold : ℚ
  leak : ℚ
  potential : ℚ
  spiked : Bool
  outgoing : List ℕ
  incoming : List ℕ
  lastSpikeTime : SpikeTime
  isInhibitory : Bool
  firingRate : ℚ
  deriving DecidableEq, Repr

/-- The constructor `new Neuron(id, threshold, leak, isInhibitory)`. -/
def Neuron.new (id : String) (threshold : ℚ) (leak : ℚ) (isInhibitory : Bool) : Neuron :=
  { id := id
    baseThreshold := threshold
    threshold := threshold
    leak := leak
    potential := 0
    spiked := false
    outgoing := []
    incoming := []
    lastSpikeTime := .negInf
    isInhibitory := isInhibitory
    firingRate := 0 }

/-- The constructor call `new Neuron(id)` with the default arguments
`threshold = 1.0`, `leak = 0.9`, `isInhibitory = false`. -/
def Neuron.newDefault (id : String) : Neuron :=
  Neuron.new id 1 (9 / 10) false

/-- The neuron read through an index that points outside the neuron list. -/
def Neuron.blank : Neuron :=
  Neuron.newDefault ""

/-- The method `Neuron.receiveSpike(weight, currentTime)`; `currentTime` is not used by
the body (and is `undefined` before the first `SNN.update`). -/
def Neuron.receiveSpike (n : Neuron) (weight : ℚ) (_currentTime : Option ℚ) : Neuron :=
  let effect := if n.isInhibitory then -weight else weight
  { n with potential := n.potential + effect }

/-- The adapted and clamped threshold computed by lines 30-31 of `Neuron.update`. -/
def Neuron.adaptedThreshold (n : Neuron) : ℚ :=
  let threshold := n.threshold + (if n.spiked then 1 / 100 else -(1 / 1000))
  max (n.baseThreshold * (1 / 2)) (min threshold (n.baseThreshold * (3 / 2)))

/-- The method `Neuron.update(currentTime, dt)`: the neuron afterwards and the returned
`spiked` flag. -/
def Neuron.update (n : Neuron) (currentTime _dt : ℚ) : Neuron × Bool :=
  let potential := n.potential * n.leak
  let threshold := n.adaptedThreshold
  if potential ≥ threshold then
    ({ n with
        threshold := threshold
        spiked := true
        potential := 0
        lastSpikeTime := .fin currentTime
        firingRate := (n.firingRate + 1) * (99 / 100) }, true)
  else
    ({ n with
        threshold := threshold
        spiked := false
        potential := potential
        firingRate := n.firingRate * (99 / 100) }, false)

/-- The method `Neuron.reset()`: only `spiked` is cleared. -/
def Neuron.reset (n : Neuron) : Neuron :=
  { n with spiked := false }

/-- The fields of `class Synapse` of `snn.js`; `pre` and `post` are neuron indices and
`spikeQueue` holds the `time` of each queued spike. -/
structure Synapse where
  pre : ℕ
  post : ℕ
  weight : ℚ
  delay : ℚ
  spikeQueue : List ℚ
  maxWeight : ℚ
  minWeight : ℚ
  A_plus : ℚ
  A_minus : ℚ
  tau_plus : ℚ
  tau_minus : ℚ
  deriving DecidableEq, Repr

/-- The constructor `new Synapse(pre, post, weight, delay)`. -/
def Synapse.new (pre post : ℕ) (weight : ℚ) (delay : ℚ) : Synapse :=
  { pre := pre
    post := post
    weight := weight
    delay := delay
    spikeQueue := []
    maxWeight := 1
    minWeight := -1
    A_plus := 1 / 100
    A_minus := 12 / 1000
    tau_plus := 20 / 1000
    tau_minus := 20 / 1000 }

/-- The constructor call `new Synapse(pre, post)`: the default weight is
`Math.random() * 0.1 - 0.05` (with `r` the value of `Math.random()`) and the default
delay is 0. -/
def Synapse.newDefault (pre post : ℕ) (r : ℚ) : Synapse :=
  Synapse.new pre post (r * (1 / 10) - 5 / 100) 0

/-- The neuron a reference (index) `i` denotes. -/
def neuronAt (neurons : List Neuron) (i : ℕ) : Neuron :=
  neurons.getD i Neuron.blank

/-- The callback of `this.spikeQueue.filter(...)` in `transmitSpike` for one queued
spike, on the pair (spikes kept so far, neurons): a spike that is due is delivered to the
post neuron with the synapse weight and dropped, any other spike is kept. -/
def Synapse.drain (syn : Synapse) (currentTime : ℚ) (acc : List ℚ × List Neuron)
    (spikeTime : ℚ) : List ℚ × List Neuron :=
  if currentTime ≥ spikeTime + syn.delay then
    (acc.1, acc.2.modify (fun n => n.receiveSpike syn.weight (some currentTime)) syn.post)
  else
    (acc.1 ++ [spikeTime], acc.2)

/-- The method `Synapse.transmitSpike(currentTime, dt)`.  The `filter` callback runs over
the queue in order.  Then, if the pre neuron has `spiked` set, a spike stamped
`currentTime` is queued. -/
def Synapse.transmitSpike (syn : Synapse) (neurons : List Neuron) (currentTime _dt : ℚ) :
    Synapse × List Neuron :=
  let r := syn.spikeQueue.foldl (syn.drain currentTime) ([], neurons)
  let queue := if (neuronAt r.2 syn.pre).spiked then r.1 ++ [currentTime] else r.1
  ({ syn with spikeQueue := queue }, r.2)

/-- The method `Synapse.stdpUpdate(currentTime, dt)`, given the pre and the post neuron. -/
def Synapse.stdpUpdate (exp : ℚ → ℚ) (syn : Synapse) (pre post : Neuron)
    (_currentTime _dt : ℚ) : Synapse :=
  let w1 :=
    if pre.spiked then
      let delta_t := post.lastSpikeTime.sub pre.lastSpikeTime
      if delta_t.isPos then
        let deltaW := syn.A_plus * expDiv exp delta_t.neg syn.tau_plus
        syn.weight + deltaW
      else syn.weight
    else syn.weight
  let w2 :=
    if post.spiked then
      let delta_t := post.lastSpikeTime.sub pre.lastSpikeTime
      if delta_t.isNeg then
        let deltaW := -syn.A_minus * expDiv exp delta_t syn.tau_minus
        w1 + deltaW
      else w1
    else w1
  { syn with weight := max (min w2 syn.maxWeight) syn.minWeight }

/-- The fields of `class SNN`; `currentTime` is `undefined` (`none`) until the first
`update`. -/
structure SNN where
  numInputs : ℕ
  numHiddenExcitatory : ℕ
  numHiddenInhibitory : ℕ
  numOutputs : ℕ
  neurons : List Neuron
  synapses : List Synapse
  currentTime : Option ℚ
  deriving DecidableEq, Repr

/-- The string method `s.startsWith(p)`. -/
def startsWith (s p : String) : Bool :=
  p.data.isPrefixOf s.data

/-- The neurons pushed by the four creation loops of the `SNN` constructor. -/
def initialNeurons (numInputs numHiddenExcitatory numHiddenInhibitory numOutputs : ℕ) :
    List Neuron :=
  (List.range numInputs).map (fun i => Neuron.newDefault ("Input_" ++ toString i))
    ++ (List.range numHiddenExcitatory).map
        (fun i => Neuron.newDefault ("HiddenExc_" ++ toString i))
    ++ (List.range numHiddenInhibitory).map
        (fun i => Neuron.new ("HiddenInh_" ++ toString i) 1 (9 / 10) true)
    ++ (List.range numOutputs).map (fun i => Neuron.newDefault ("Output_" ++ toString i))

/-- The effect of `preNeuron.outgoing.push(syn)` for the synapse of index `k`. -/
def Neuron.addOutgoing (k : ℕ) (n : Neuron) : Neuron :=
  { n with outgoing := n.outgoing ++ [k] }

/-- The effect of `postNeuron.incoming.push(syn)` for the synapse of index `k`. -/
def Neuron.addIncoming (k : ℕ) (n : Neuron) : Neuron :=
  { n with incoming := n.incoming ++ [k] }

/-- The body of the inner connection loop of the `SNN` constructor for the pair
`(i, j)`.  The new synapse gets the index `synapses.length`, and its weight is drawn by
the next call of `Math.random`. -/
def connect (rand : ℕ → ℚ) (i j : ℕ) (st : List Neuron × List Synapse) :
    List Neuron × List Synapse :=
  if i ≠ j then
    let preNeuron := neuronAt st.1 i
    let postNeuron := neuronAt st.1 j
    if startsWith preNeuron.id "Output" then st
    else if startsWith postNeuron.id "Input" then st
    else
      let k := st.2.length
      let syn := Synapse.newDefault i j (rand k)
      let neurons := st.1.modify (Neuron.addOutgoing k) i
      let neurons := neurons.modify (Neuron.addIncoming k) j
      (neurons, st.2 ++ [syn])
  else st

/-- The two nested connection loops of the `SNN` constructor. -/
def connectAll (rand : ℕ → ℚ) (neurons : List Neuron) : List Neuron × List Synapse :=
  let totalNeurons := neurons.length
  (List.range totalNeurons).foldl
    (fun st i => (List.range totalNeurons).foldl (fun st j => connect rand i j st) st)
    (neurons, [])

/-- The constructor `new SNN(numInputs, numHiddenExcitatory, numHiddenInhibitory,
numOutputs)`. -/
def SNN.new (rand : ℕ → ℚ)
    (numInputs numHiddenExcitatory numHiddenInhibitory numOutputs : ℕ) : SNN :=
  let st := connectAll rand
    (initialNeurons numInputs numHiddenExcitatory numHiddenInhibitory numOutputs)
  { numInputs := numInputs
    numHiddenExcitatory := numHiddenExcitatory
    numHiddenInhibitory := numHiddenInhibitory
    numOutputs := numOutputs
    neurons := st.1
    synapses := st.2
    currentTime := none }

/-- The test `input > 0.5` on `input = inputValues[i]`; a missing entry is `undefined`,
for which the comparison is false. -/
def inputAbove (inputValues : List ℚ) (i : ℕ) : Bool :=
  match inputValues[i]? with
  | some input => decide (input > 1 / 2)
  | none => false

/-- The body of the loop of `SNN.injectInputs` for the index `i`.  Calling
`receiveSpike` on a missing `this.neurons[i]` throws a `TypeError`, modelled by `none`. -/
def SNN.injectOne (inputValues : List ℚ) (s : SNN) (i : ℕ) : Option SNN :=
  if inputAbove inputValues i then
    if i < s.neurons.length then
      some { s with neurons := s.neurons.modify (fun n => n.receiveSpike 1 s.currentTime) i }
    else none
  else some s

/-- The method `SNN.injectInputs(inputValues)`. -/
def SNN.injectInputs (s : SNN) (inputValues : List ℚ) : Option SNN :=
  (List.range s.numInputs).foldlM (SNN.injectOne inputValues) s

/-- The first phase of `SNN.update`: `transmitSpike` on every synapse, in order. -/
def transmitAll (currentTime dt : ℚ) :
    List Synapse → List Neuron → List Synapse × List Neuron
  | [], neurons => ([], neurons)
  | syn :: rest, neurons =>
    let r := syn.transmitSpike neurons currentTime dt
    let r2 := transmitAll currentTime dt rest r.2
    (r.1 :: r2.1, r2.2)

/-- The indices of the neurons whose `spiked` flag is set, in order. -/
def spikedIndices (neurons : List Neuron) : List ℕ :=
  (List.range neurons.length).filter (fun i => (neuronAt neurons i).spiked)

/-- The method `SNN.update(currentTime, dt)`: the network afterwards and the returned
list `spikedNeurons` (as neuron indices). -/
def SNN.update (exp : ℚ → ℚ) (s : SNN) (currentTime dt : ℚ) : SNN × List ℕ :=
  let r := transmitAll currentTime dt s.synapses s.neurons
  let neurons := r.2.map (fun n => (n.update currentTime dt).1)
  let synapses := r.1.map
    (fun syn => syn.stdpUpdate exp (neuronAt neurons syn.pre) (neuronAt neurons syn.post)
      currentTime dt)
  ({ s with currentTime := some currentTime, neurons := neurons, synapses := synapses },
    spikedIndices neurons)

/-- The method `SNN.reset()`. -/
def SNN.reset (s : SNN) : SNN :=
  { s with neurons := s.neurons.map Neuron.reset }

end Layered

namespace Dense

/-- The fields of `class OptimizedNetwork` of `HebbianSNN.js`.  Typed arrays are lists;
a read outside a typed array is `undefined`, a write outside it is ignored. -/
structure OptimizedNetwork where
  numNeurons : ℕ
  numSynapses : ℕ
  eta : ℚ
  potentials : List ℚ
  spikes : List ℕ
  refractoryTimers : List ℕ
  threshold : ℚ
  refractoryPeriod : ℕ
  pre : List ℕ
  post : List ℕ
  weights : List ℚ
  deriving DecidableEq, Repr

/-- The truth value of `this.spikes[idx]`, where `idx` itself may be `undefined`. -/
def spikeSet (spikes : List ℕ) (idx : Option ℕ) : Bool :=
  match idx with
  | some k => decide (spikes.getD k 0 ≠ 0)
  | none => false

/-- The value stored by `this.pre[i] = x` for an integral number `x`: the conversion to
an unsigned 32-bit integer. -/
def toUint32 (x : ℤ) : ℕ :=
  (x % 2 ^ 32).toNat

/-- The rejection loop `do { ... } while (preIdx === postIdx)` of the constructor, run
for at most `fuel` rounds from the k-th call of `Math.random`: the accepted pair and the
index of the next unused call, or `none` when the fuel runs out. -/
def drawPair (rand : ℕ → ℚ) (numNeurons : ℕ) : ℕ → ℕ → Option (ℕ × ℕ × ℕ)
  | 0, _ => none
  | fuel + 1, k =>
    let preIdx := ⌊rand k * numNeurons⌋
    let postIdx := ⌊rand (k + 1) * numNeurons⌋
    if preIdx = postIdx then drawPair rand numNeurons fuel (k + 2)
    else some (toUint32 preIdx, toUint32 postIdx, k + 2)

/-- The synapse initialisation loop of the constructor for `n` more synapses, with `k`
the index of the next call of `Math.random`: the arrays `pre`, `post` and `weights`. -/
def drawSynapses (rand : ℕ → ℚ) (numNeurons fuel : ℕ) :
    ℕ → ℕ → Option (List ℕ × List ℕ × List ℚ)
  | 0, _ => some ([], [], [])
  | n + 1, k =>
    match drawPair rand numNeurons fuel k with
    | none => none
    | some (preIdx, postIdx, k1) =>
      match drawSynapses rand numNeurons fuel n (k1 + 1) with
      | none => none
      | some (pre, post, weights) => some (preIdx :: pre, postIdx :: post, rand k1 :: weights)

/-- The constructor `new OptimizedNetwork(numNeurons, numSynapses, eta)`; `none` when a
rejection loop does not finish within `fuel` rounds. -/
def OptimizedNetwork.new (rand : ℕ → ℚ) (fuel : ℕ) (numNeurons numSynapses : ℕ) (eta : ℚ) :
    Option OptimizedNetwork :=
  match drawSynapses rand numNeurons fuel numSynapses 0 with
  | none => none
  | some (pre, post, weights) =>
    some
      { numNeurons := numNeurons
        numSynapses := numSynapses
        eta := eta
        potentials := List.replicate numNeurons 0
        spikes := List.replicate numNeurons 0
        refractoryTimers := List.replicate numNeurons 0
        threshold := 1
        refractoryPeriod := 5
        pre := pre
        post := post
        weights := weights }

/-- The injection loop of `step`: `this.potentials[idx] += this.threshold` for every
listed index. -/
def inject (net : OptimizedNetwork) (inputNeurons : List ℕ) : List ℚ :=
  inputNeurons.foldl (fun p idx => p.modify (fun v => v + net.threshold) idx) net.potentials

/-- The transmission loop of `step`, run on the potentials left by the injection. -/
def transmit (net : OptimizedNetwork) (potentials : List ℚ) : List ℚ :=
  (List.range net.numSynapses).foldl
    (fun p i =>
      if spikeSet net.spikes net.pre[i]? then
        match net.post[i]?, net.weights[i]? with
        | some postIdx, some w => p.modify (fun v => v + w) postIdx
        | _, _ => p
      else p)
    potentials

/-- The body of the neuron loop of `step` for neuron `i`, on the triple
`(potentials, spikes, refractoryTimers)`. -/
def neuronStep (net : OptimizedNetwork) (st : List ℚ × List ℕ × List ℕ) (i : ℕ) :
    List ℚ × List ℕ × List ℕ :=
  if st.2.2.getD i 0 > 0 then
    (st.1, st.2.1, st.2.2.set i (st.2.2.getD i 0 - 1))
  else
    match st.1[i]? with
    | some v =>
      if v ≥ net.threshold then
        (st.1.set i 0, st.2.1.set i 1, st.2.2.set i (net.refractoryPeriod % 256))
      else st
    | none => st

/-- The neuron phase of `step`: `this.spikes.fill(0)` and then the neuron loop. -/
def neuronPhase (net : OptimizedNetwork) (potentials : List ℚ) : List ℚ × List ℕ × List ℕ :=
  (List.range net.numNeurons).foldl (neuronStep net)
    (potentials, List.replicate net.spikes.length 0, net.refractoryTimers)

/-- The update `weights[i] += eta; if (weights[i] > 1.0) weights[i] = 1.0`. -/
def bump (eta w : ℚ) : ℚ :=
  let w1 := w + eta
  if w1 > 1 then 1 else w1

/-- The Hebbian loop of `step`, reading the spikes set by the neuron phase. -/
def hebbian (net : OptimizedNetwork) (spikes : List ℕ) : List ℚ :=
  (List.range net.numSynapses).foldl
    (fun w i =>
      if spikeSet spikes net.pre[i]? && spikeSet spikes net.post[i]? then
        w.modify (bump net.eta) i
      else w)
    net.weights

/-- The method `OptimizedNetwork.step(inputNeurons)`. -/
def OptimizedNetwork.step (net : OptimizedNetwork) (inputNeurons : List ℕ) :
    OptimizedNetwork :=
  let r := neuronPhase net (transmit net (inject net inputNeurons))
  { net with
    potentials := r.1
    spikes := r.2.1
    refractoryTimers := r.2.2
    weights := hebbian net r.2.1 }

/-- The network after one `step` call for each input list, in order. -/
def OptimizedNetwork.run (net : OptimizedNetwork) (inputs : List (List ℕ)) :
    OptimizedNetwork :=
  inputs.foldl OptimizedNetwork.step net

end Dense

/-! ## Reachable states of the layered network -/

namespace Layered

/-- The states of the layered network a caller can reach: a freshly constructed network,
followed by any sequence of `injectInputs` calls that return, `update` calls and `reset`
calls. -/
inductive Reachable (exp : ℚ → ℚ) : SNN → Prop where
  | new (rand : ℕ → ℚ) (a b c d : ℕ) : Reachable exp (SNN.new rand a b c d)
  | injectInputs (s s1 : SNN) (inputValues : List ℚ) :
      Reachable exp s → s.injectInputs inputValues = some s1 → Reachable exp s1
  | update (s : SNN) (currentTime dt : ℚ) :
      Reachable exp s → Reachable exp (s.update exp currentTime dt).1
  | reset (s : SNN) : Reachable exp s → Reachable exp s.reset

/-- The neuron state with the potential blanked out: all that `receiveSpike` leaves
alone. -/
def Neuron.withoutPotential (n : Neuron) : Neuron :=
  { n with potential := 0 }

end Layered

/-! ## Auxiliary definitions -/

namespace Layered

/-- The neuron state with both adjacency lists emptied: all that the connection loops of
the constructor leave alone. -/
def Neuron.withoutLinks (n : Neuron) : Neuron :=
  { n with outgoing := [], incoming := [] }

/-- The neuron list after the loop of `injectInputs`, as a plain fold. -/
def injectedNeurons (s : SNN) (inputValues : List ℚ) : List Neuron :=
  (List.range s.numInputs).foldl
    (fun ns i =>
      if inputAbove inputValues i = true then
        ns.modify (fun n => n.receiveSpike 1 s.currentTime) i
      else ns)
    s.neurons

/-- The input layer is in place: there are at least `numInputs` neurons and none of the
first `numInputs` is inhibitory. -/
def SNN.InputsWired (s : SNN) : Prop :=
  s.numInputs ≤ s.neurons.length ∧
    ∀ i, i < s.numInputs → (neuronAt s.neurons i).isInhibitory = false

/-- A network at rest: every neuron has potential 0, `spiked` clear and a positive
`baseThreshold`, and every spike queue is empty. -/
def SNN.Quiet (s : SNN) : Prop :=
  (∀ n ∈ s.neurons, n.potential = 0 ∧ n.spiked = false ∧ 0 < n.baseThreshold) ∧
    ∀ syn ∈ s.synapses, syn.spikeQueue = []

/-- The network after one `update` call per `(currentTime, dt)` pair, with no
`injectInputs` call in between, and the list returned by each call. -/
def SNN.updates (exp : ℚ → ℚ) : SNN → List (ℚ × ℚ) → SNN × List (List ℕ)
  | s, [] => (s, [])
  | s, tick :: rest =>
    let r := s.update exp tick.1 tick.2
    let r2 := SNN.updates exp r.1 rest
    (r2.1, r.2 :: r2.2)

/-- The three tests of the inner connection loop that decide whether the pair `(i, j)`
gets a synapse. -/
def allowed (neurons : List Neuron) (i j : ℕ) : Bool :=
  decide (i ≠ j) && !(startsWith (neuronAt neurons i).id "Output")
    && !(startsWith (neuronAt neurons j).id "Input")

end Layered

/-! ## Sample states -/

namespace Layered

/-- A neuron that has `spiked` set and last fired at time `t`. -/
def firedAt (t : ℚ) : Neuron :=
  { Neuron.newDefault "Input_0" with spiked := true, lastSpikeTime := .fin t }

/-- A neuron that has `spiked` set while `lastSpikeTime` is still `-Infinity`. -/
def firedNever : Neuron :=
  { Neuron.newDefault "Input_0" with spiked := true }

/-- A neuron that has `spiked` clear and last fired at time `t`. -/
def silentAt (t : ℚ) : Neuron :=
  { Neuron.newDefault "Output_0" with spiked := false, lastSpikeTime := .fin t }

/-- A two-neuron network with one synapse, as built by `new SNN(1, 0, 0, 1)` when
`Math.random` returns one half. -/
def sampleNet : SNN :=
  { numInputs := 1
    numHiddenExcitatory := 0
    numHiddenInhibitory := 0
    numOutputs := 1
    neurons :=
      [{ Neuron.newDefault "Input_0" with outgoing := [0] },
       { Neuron.newDefault "Output_0" with incoming := [0] }]
    synapses := [Synapse.newDefault 0 1 (1 / 2)]
    currentTime := none }

end Layered

namespace Dense

/-- A dense-engine state with one synapse 0 → 1 whose weight is already 1, no spike set
and learning rate one tenth. -/
def saturatedNet : OptimizedNetwork :=
  { numNeurons := 2
    numSynapses := 1
    eta := 1 / 10
    potentials := [0, 0]
    spikes := [0, 0]
    refractoryTimers := [0, 0]
    threshold := 1
    refractoryPeriod := 5
    pre := [0]
    post := [1]
    weights := [1] }

/-- The network built by `new OptimizedNetwork(2, 1, 0.1)` when `Math.random` behaves as
`sampleRand`: one synapse 0 → 1 of weight 0. -/
def drawnNet : OptimizedNetwork :=
  { numNeurons := 2
    numSynapses := 1
    eta := 1 / 10
    potentials := [0, 0]
    spikes := [0, 0]
    refractoryTimers := [0, 0]
    threshold := 1
    refractoryPeriod := 5
    pre := [0]
    post := [1]
    weights := [0] }

/-- A source of random numbers in `[0, 1)`: the call number 1 returns one half, every
other call returns 0. -/
def sampleRand (k : ℕ) : ℚ :=
  if k = 1 then 1 / 2 else 0

end Dense

/-! ## Auxiliary definitions for runs of the dense engine -/

namespace Dense

/-- Whether synapse `i` sees a coincidence in the step from `net` with the given inputs:
both `spikes[pre[i]]` and `spikes[post[i]]` are set by that step's neuron phase. -/
def coincides (net : OptimizedNetwork) (inputNeurons : List ℕ) (i : ℕ) : Bool :=
  spikeSet (net.step inputNeurons).spikes net.pre[i]?
    && spikeSet (net.step inputNeurons).spikes net.post[i]?

/-- The number of ticks of a run in which synapse `i` sees a coincidence. -/
def coincidences (i : ℕ) : OptimizedNetwork → List (List ℕ) → ℕ
  | _, [] => 0
  | net, x :: xs => (if coincides net x i then 1 else 0) + coincidences i (net.step x) xs

end Dense

namespace Dense

/-- The potential of one neuron after the neuron loop of `step`, from its potential and
refractory timer before the loop (`none` for an index outside the array). -/
def cellPotential (threshold : ℚ) (p : Option ℚ) (r : Option ℕ) : Option ℚ :=
  if r.getD 0 > 0 then p else p.map (fun v => if v ≥ threshold then 0 else v)

/-- The spike entry of one neuron after the neuron loop of `step`, from its potential,
its spike entry and its refractory timer before the loop. -/
def cellSpike (threshold : ℚ) (p : Option ℚ) (s r : Option ℕ) : Option ℕ :=
  if r.getD 0 > 0 then s
  else
    match p with
    | some v => if v ≥ threshold then s.map (fun _ => 1) else s
    | none => s

/-- The refractory timer of one neuron after the neuron loop of `step`, from its
potential and its refractory timer before the loop. -/
def cellTimer (threshold : ℚ) (period : ℕ) (p : Option ℚ) (r : Option ℕ) : Option ℕ :=
  if r.getD 0 > 0 then r.map (fun x => x - 1)
  else
    match p with
    | some v => if v ≥ threshold then r.map (fun _ => period % 256) else r
    | none => r

/-- What the transmission loop of `step` adds for synapse `j`: the target index and the
weight when `spikes[pre[j]]` is set, nothing otherwise. -/
def pulse (net : OptimizedNetwork) (j : ℕ) : Option (ℕ × ℚ) :=
  if spikeSet net.spikes net.pre[j]? then
    match net.post[j]?, net.weights[j]? with
    | some postIdx, some w => some (postIdx, w)
    | _, _ => none
  else none

/-- A dense-engine state in which neuron 0 is refractory. -/
def refractoryNet : OptimizedNetwork :=
  { numNeurons := 2
    numSynapses := 1
    eta := 1 / 10
    potentials := [0, 0]
    spikes := [0, 0]
    refractoryTimers := [5, 0]
    threshold := 1
    refractoryPeriod := 5
    pre := [0]
    post := [1]
    weights := [1 / 2] }

end Dense

/-! ## Reference definitions -/

namespace Layered

/-- The clamp of `x` to `[lo, hi]`. -/
def clamp (x lo hi : ℚ) : ℚ :=
  max lo (min x hi)

/-- The reference for `Neuron.update(time, dt)` written from the specification: leak
the potential, adapt the threshold from the `spiked` flag on entry and clamp it, fire
iff the leaked potential reaches the new threshold, then set every field from that
decision. -/
def Neuron.updateReference (n : Neuron) (time _dt : ℚ) : Neuron × Bool :=
  let p1 := n.leak * n.potential
  let th1 := clamp (n.threshold + (if n.spiked then 1 / 100 else -(1 / 1000)))
    (1 / 2 * n.baseThreshold) (3 / 2 * n.baseThreshold)
  let fired := decide (p1 ≥ th1)
  ({ n with
      threshold := th1
      spiked := fired
      potential := if fired then 0 else p1
      lastSpikeTime := if fired then .fin time else n.lastSpikeTime
      firingRate := 99 / 100 * (n.firingRate + (if fired then 1 else 0)) },
    fired)

/-- Whether `stdpUpdate` takes its potentiation branch: `pre.spiked` and `delta_t > 0`. -/
def potentiates (pre post : Neuron) : Bool :=
  pre.spiked && (post.lastSpikeTime.sub pre.lastSpikeTime).isPos

/-- Whether `stdpUpdate` takes its depression branch: `post.spiked` and `delta_t < 0`. -/
def depresses (pre post : Neuron) : Bool :=
  post.spiked && (post.lastSpikeTime.sub pre.lastSpikeTime).isNeg

end Layered

/-! ## Auxiliary definitions for spike delivery in the layered network -/

namespace Layered

/-- The test of the `filter` callback of `transmitSpike`: the queued spike stamped `x` is
due at `currentTime`. -/
def Synapse.due (syn : Synapse) (currentTime x : ℚ) : Bool :=
  decide (currentTime ≥ x + syn.delay)

/-- The number of queued spikes `transmitSpike` delivers at `currentTime`. -/
def Synapse.dueCount (syn : Synapse) (currentTime : ℚ) : ℕ :=
  (syn.spikeQueue.filter (syn.due currentTime)).length

/-- The queued spikes `transmitSpike` keeps at `currentTime`. -/
def Synapse.pending (syn : Synapse) (currentTime : ℚ) : List ℚ :=
  syn.spikeQueue.filter (fun x => !syn.due currentTime x)

/-- The queue after `transmitSpike` at `currentTime`: the kept spikes, then a new spike
stamped `currentTime` when the pre neuron has `spiked` set. -/
def Synapse.queueAfter (syn : Synapse) (preSpiked : Bool) (currentTime : ℚ) : List ℚ :=
  syn.pending currentTime ++ (if preSpiked then [currentTime] else [])

/-- The effect on the potential of a received weight `w`: `-w` for an inhibitory
neuron. -/
def Neuron.signed (n : Neuron) (w : ℚ) : ℚ :=
  if n.isInhibitory then -w else w

/-- The total weight delivered to neuron `p` by the transmission phase at `currentTime`:
for every synapse into `p`, its weight once per due spike. -/
def delivered (syns : List Synapse) (currentTime : ℚ) (p : ℕ) : ℚ :=
  (syns.map (fun syn =>
    if syn.post = p then (syn.dueCount currentTime : ℚ) * syn.weight else 0)).sum

/-- A two-neuron network input 0 → output 1 with synapse weight one quarter and delay 0,
in which the input neuron has been injected twice (potential 2). -/
def relayNet : SNN :=
  { numInputs := 1
    numHiddenExcitatory := 0
    numHiddenInhibitory := 0
    numOutputs := 1
    neurons :=
      [{ Neuron.newDefault "Input_0" with outgoing := [0], potential := 2 },
       { Neuron.newDefault "Output_0" with incoming := [0] }]
    synapses := [Synapse.new 0 1 (1 / 4) 0]
    currentTime := none }

end Layered

namespace Layered

/-- The neuron after receiving the total weight `w`: its potential grows by `w`, or
shrinks by `w` for an inhibitory neuron. -/
def Neuron.charge (n : Neuron) (w : ℚ) : Neuron :=
  { n with potential := n.potential + n.signed w }

end Layered

namespace Layered

/-- The state of `relayNet` after `update(0, 1)`: the input neuron has fired. -/
def relayNet1 : SNN :=
  { numInputs := 1
    numHiddenExcitatory := 0
    numHiddenInhibitory := 0
    numOutputs := 1
    neurons :=
      [{ Neuron.newDefault "Input_0" with
          outgoing := [0], potential := 0, threshold := 999 / 1000, spiked := true,
          lastSpikeTime := .fin 0, firingRate := 99 / 100 },
       { Neuron.newDefault "Output_0" with incoming := [0], threshold := 999 / 1000 }]
    synapses := [Synapse.new 0 1 (1 / 4) 0]
    currentTime := some 0 }

/-- The state of `relayNet` after `update(0, 1)` and `update(1, 1)`: the spike of the
input neuron is in the queue of the synapse. -/
def relayNet2 : SNN :=
  { numInputs := 1
    numHiddenExcitatory := 0
    numHiddenInhibitory := 0
    numOutputs := 1
    neurons :=
      [{ Neuron.newDefault "Input_0" with
          outgoing := [0], potential := 0, threshold := 1009 / 1000, spiked := false,
          lastSpikeTime := .fin 0, firingRate := 9801 / 10000 },
       { Neuron.newDefault "Output_0" with incoming := [0], threshold := 998 / 1000 }]
    synapses := [{ Synapse.new 0 1 (1 / 4) 0 with spikeQueue := [1] }]
    currentTime := some 1 }

end Layered

/-! ## Runs of the layered network with non-decreasing time -/

namespace Layered

/-- The states reached from `new SNN(a, b, c, d)` by `injectInputs` calls that return,
`reset` calls and `update` calls whose `currentTime` is finite and not smaller than the
`currentTime` of the previous `update`. -/
inductive MonotoneRun (exp : ℚ → ℚ) (rand : ℕ → ℚ) (a b c d : ℕ) : SNN → Prop where
  | new : MonotoneRun exp rand a b c d (SNN.new rand a b c d)
  | injectInputs (s s1 : SNN) (inputValues : List ℚ) :
      MonotoneRun exp rand a b c d s → s.injectInputs inputValues = some s1 →
      MonotoneRun exp rand a b c d s1
  | reset (s : SNN) : MonotoneRun exp rand a b c d s → MonotoneRun exp rand a b c d s.reset
  | update (s : SNN) (currentTime dt : ℚ) :
      MonotoneRun exp rand a b c d s → (∀ T, s.currentTime = some T → T ≤ currentTime) →
      MonotoneRun exp rand a b c d (s.update exp currentTime dt).1

/-- The spike record of a neuron is consistent with the time `cur` of the last `update`
(`none` before the first one): a neuron with `spiked` set last fired exactly then, and
no neuron last fired later than that. -/
def Neuron.TimedBy (cur : Option ℚ) (n : Neuron) : Prop :=
  (n.spiked = true → ∃ T, cur = some T ∧ n.lastSpikeTime = .fin T) ∧
    ∀ x, n.lastSpikeTime = .fin x → ∃ T, cur = some T ∧ x ≤ T

/-- What holds along every run with non-decreasing time: every neuron's spike record is
consistent with `currentTime`, and every weight is within its clamp bounds. -/
def SNN.Settled (s : SNN) : Prop :=
  (∀ n ∈ s.neurons, n.TimedBy s.currentTime) ∧
    ∀ syn ∈ s.synapses, syn.minWeight ≤ syn.weight ∧ syn.weight ≤ syn.maxWeight

end Layered

/-! ## The object-graph Hebbian network of `HebbianSNN.js` -/

namespace Graph

/-- The fields of `class Neuron` of `HebbianSNN.js`. -/
structure Neuron where
  potential : ℚ
  threshold : ℚ
  refractory : ℕ
  refractoryTimer : ℕ
  spike : Bool
  deriving DecidableEq, Repr

/-- The constructor `new Neuron()`. -/
def Neuron.new : Neuron :=
  { potential := 0
    threshold := 1
    refractory := 5
    refractoryTimer := 0
    spike := false }

/-- The method `Neuron.update(inputs)`: the neuron afterwards and the returned flag. -/
def Neuron.update (n : Neuron) (inputs : ℚ) : Neuron × Bool :=
  if n.refractoryTimer > 0 then
    ({ n with refractoryTimer := n.refractoryTimer - 1, spike := false }, false)
  else
    let potential := n.potential + inputs
    if potential ≥ n.threshold then
      ({ n with spike := true, potential := 0, refractoryTimer := n.refractory }, true)
    else
      ({ n with potential := potential, spike := false }, false)

/-- The method `Neuron.reset()`. -/
def Neuron.reset (n : Neuron) : Neuron :=
  { n with potential := 0, spike := false, refractoryTimer := 0 }

/-- The fields of `class Synapse` of `HebbianSNN.js`; the two neuron references are
indices into the neuron list of the network. -/
structure Synapse where
  preNeuron : ℕ
  postNeuron : ℕ
  weight : ℚ
  deriving DecidableEq, Repr

/-- The `spike` flag of the neuron a reference denotes (false for an index outside the
list, which no reference can be). -/
def spikeAt (neurons : List Neuron) (i : ℕ) : Bool :=
  match neurons[i]? with
  | some n => n.spike
  | none => false

/-- The statement `postNeuron.potential += weight`. -/
def Neuron.addPotential (w : ℚ) (n : Neuron) : Neuron :=
  { n with potential := n.potential + w }

/-- The method `Synapse.transmit()`: the neuron list afterwards and the returned value. -/
def Synapse.transmit (syn : Synapse) (neurons : List Neuron) : List Neuron × ℚ :=
  if spikeAt neurons syn.preNeuron then
    (neurons.modify (Neuron.addPotential syn.weight) syn.postNeuron, syn.weight)
  else (neurons, 0)

/-- The method `Synapse.hebbianUpdate(eta)`; there is no clamp. -/
def Synapse.hebbianUpdate (syn : Synapse) (neurons : List Neuron) (eta : ℚ) : Synapse :=
  if spikeAt neurons syn.preNeuron && spikeAt neurons syn.postNeuron then
    { syn with weight := syn.weight + eta }
  else syn

/-- The fields of `class Network`. -/
structure Network where
  neurons : List Neuron
  synapses : List Synapse
  eta : ℚ
  deriving DecidableEq, Repr

/-- The statement `this.neurons[idx].potential += this.neurons[idx].threshold`. -/
def Neuron.addThreshold (n : Neuron) : Neuron :=
  { n with potential := n.potential + n.threshold }

/-- The callback of the injection loop of `Network.step`: when `this.neurons[idx]`
exists, its potential grows by its own threshold. -/
def injectOne (neurons : List Neuron) (idx : ℕ) : List Neuron :=
  if idx < neurons.length then neurons.modify Neuron.addThreshold idx
  else neurons

/-- The method `Network.step(inputNeurons)`. -/
def Network.step (net : Network) (inputNeurons : List ℕ) : Network :=
  let injected := inputNeurons.foldl injectOne net.neurons
  let transmitted := net.synapses.foldl (fun ns syn => (syn.transmit ns).1) injected
  let neurons := transmitted.map (fun n => (n.update 0).1)
  let synapses := net.synapses.map (fun syn => syn.hebbianUpdate neurons net.eta)
  { net with neurons := neurons, synapses := synapses }

/-- The method `Network.reset()`. -/
def Network.reset (net : Network) : Network :=
  { net with neurons := net.neurons.map Neuron.reset }

/-- The object-graph network and the typed-array network are in the same state: same
neuron count, same synapse list (pre index, post index, weight), same `eta`, and the
same potential, spike flag and refractory timer for every neuron; both use the same
threshold and refractory period (the constructors set 1 and 5). -/
def Agree (g : Network) (d : Dense.OptimizedNetwork) : Prop :=
  d.numNeurons = g.neurons.length ∧
  d.potentials = g.neurons.map Neuron.potential ∧
  d.spikes.length = g.neurons.length ∧
  (∀ i, Dense.spikeSet d.spikes (some i) = spikeAt g.neurons i) ∧
  d.refractoryTimers = g.neurons.map Neuron.refractoryTimer ∧
  d.numSynapses = g.synapses.length ∧
  d.pre = g.synapses.map Synapse.preNeuron ∧
  d.post = g.synapses.map Synapse.postNeuron ∧
  d.weights = g.synapses.map Synapse.weight ∧
  d.eta = g.eta ∧
  d.refractoryPeriod < 256 ∧
  ∀ n ∈ g.neurons, n.threshold = d.threshold ∧ n.refractory = d.refractoryPeriod

/-- The part of a neuron that injection and transmission leave alone. -/
def Neuron.frame (n : Neuron) : ℚ × ℕ × ℕ × Bool :=
  (n.threshold, n.refractory, n.refractoryTimer, n.spike)

/-- An object-graph network of two neurons with one synapse 0 → 1 of weight one half. -/
def sampleGraph : Network :=
  { neurons := [Neuron.new, Neuron.new]
    synapses := [{ preNeuron := 0, postNeuron := 1, weight := 1 / 2 }]
    eta := 1 / 10 }

/-- The typed-array network in the same state as `sampleGraph`. -/
def sampleDense : Dense.OptimizedNetwork :=
  { numNeurons := 2
    numSynapses := 1
    eta := 1 / 10
    potentials := [0, 0]
    spikes := [0, 0]
    refractoryTimers := [0, 0]
    threshold := 1
    refractoryPeriod := 5
    pre := [0]
    post := [1]
    weights := [1 / 2] }

end Graph

/-! ## Binary floating-point rounding

The arithmetic of JavaScript numbers rounds every result to the nearest double, and a
store into a `Float32Array` rounds the stored double to the nearest single-precision
value, ties going to the even significand in both cases.  The functions below compute
these roundings on exact rationals.  Results beyond the largest finite value of the
format, which JavaScript turns into an infinity, and `NaN` are outside the model. -/

namespace Rounding

/-- The integer nearest to `m`, the even one of the two when `m` lies half-way. -/
def roundHalfEven (m : ℚ) : ℤ :=
  let f := ⌊m⌋
  let r := m - f
  if r < 1 / 2 then f
  else if 1 / 2 < r then f + 1
  else if f % 2 = 0 then f else f + 1

/-- The binary exponent at which `x` is rounded: `⌊log₂ |x|⌋`, but not below the
exponent `emin` of the smallest normal number (below it the format is subnormal). -/
def exponent (emin : ℤ) (x : ℚ) : ℤ :=
  max (Int.log 2 |x|) emin

/-- The spacing of the values of a format with `p` significant bits around `x`. -/
def quantum (p : ℕ) (emin : ℤ) (x : ℚ) : ℚ :=
  (2 : ℚ) ^ (exponent emin x - ((p : ℤ) - 1))

/-- Rounding to the nearest value of the binary format with `p` significant bits and
smallest normal exponent `emin`, ties to even. -/
def roundBinary (p : ℕ) (emin : ℤ) (x : ℚ) : ℚ :=
  (roundHalfEven (x / quantum p emin x) : ℚ) * quantum p emin x

/-- The double nearest to `x`: the result of a JavaScript arithmetic operation whose
exact result is `x`. -/
def toFloat64 (x : ℚ) : ℚ :=
  roundBinary 53 (-1022) x

/-- The single-precision value nearest to `x` (`Math.fround`). -/
def toFloat32 (x : ℚ) : ℚ :=
  roundBinary 24 (-126) x

/-- The value held by a `Float32Array` element after `a[i] = e` or `a[i] += e`, where `x`
is the exact value of the right-hand side: the operation is carried out in doubles and
the double is then rounded to single precision. -/
def storeFloat32 (x : ℚ) : ℚ :=
  toFloat32 (toFloat64 x)

/-- The values of the binary format with `p` significant bits and smallest normal
exponent `emin`: the integer multiples `n · 2^j` with `|n| < 2^p` of a power of two
that is not below the subnormal spacing. -/
def Representable (p : ℕ) (emin : ℤ) (v : ℚ) : Prop :=
  ∃ n j : ℤ, v = (n : ℚ) * (2 : ℚ) ^ j ∧ |n| < 2 ^ p ∧ emin - ((p : ℤ) - 1) ≤ j

end Rounding

/-! ## The STDP update in double arithmetic -/

namespace Layered

/-- The double `post.lastSpikeTime - pre.lastSpikeTime`: the difference of two finite
times is rounded. -/
def SpikeTime.subFloat64 : SpikeTime → SpikeTime → TimeDiff
  | .fin a, .fin b => .fin (Rounding.toFloat64 (a - b))
  | .fin _, .negInf => .posInf
  | .negInf, .fin _ => .negInf
  | .negInf, .negInf => .nan

/-- The double `Math.exp(x / tau)`: the quotient is rounded before `Math.exp` is applied
to it, and `exp` gives the double that `Math.exp` returns.  The non-finite cases are as
in `expDiv`. -/
def expDivFloat64 (exp : ℚ → ℚ) (x : TimeDiff) (tau : ℚ) : ℚ :=
  match x with
  | .fin d => exp (Rounding.toFloat64 (d / tau))
  | .negInf => 0
  | .posInf => 0
  | .nan => 0

/-- The method `Synapse.stdpUpdate(currentTime, dt)` with every arithmetic result rounded
to a double: the difference of the spike times, the quotient by the time constant, the
product with `A_plus` (or `-A_minus`) and the sum `this.weight += deltaW`. -/
def Synapse.stdpUpdateFloat64 (exp : ℚ → ℚ) (syn : Synapse) (pre post : Neuron)
    (_currentTime _dt : ℚ) : Synapse :=
  let w1 :=
    if pre.spiked then
      let delta_t := post.lastSpikeTime.subFloat64 pre.lastSpikeTime
      if delta_t.isPos then
        let deltaW :=
          Rounding.toFloat64 (syn.A_plus * expDivFloat64 exp delta_t.neg syn.tau_plus)
        Rounding.toFloat64 (syn.weight + deltaW)
      else syn.weight
    else syn.weight
  let w2 :=
    if post.spiked then
      let delta_t := post.lastSpikeTime.subFloat64 pre.lastSpikeTime
      if delta_t.isNeg then
        let deltaW :=
          Rounding.toFloat64 (-syn.A_minus * expDivFloat64 exp delta_t syn.tau_minus)
        Rounding.toFloat64 (w1 + deltaW)
      else w1
    else w1
  { syn with weight := max (min w2 syn.maxWeight) syn.minWeight }

end Layered

/-! ## The dense engine with single-precision stores

`potentials` and `weights` are `Float32Array`s: every `+=` on one of their elements
stores the rounded sum.  The functions below are the phases of `step` with that rounding;
the neuron phase only compares and stores 0, so it is `neuronPhase` unchanged. -/

namespace Dense

/-- The injection loop of `step`: `this.potentials[idx] += this.threshold` for every
listed index, each sum rounded by the store. -/
def injectFloat32 (net : OptimizedNetwork) (inputNeurons : List ℕ) : List ℚ :=
  inputNeurons.foldl
    (fun p idx => p.modify (fun v => Rounding.storeFloat32 (v + net.threshold)) idx)
    net.potentials

/-- The transmission loop of `step`, run on the potentials left by the injection, each
sum rounded by the store. -/
def transmitFloat32 (net : OptimizedNetwork) (potentials : List ℚ) : List ℚ :=
  (List.range net.numSynapses).foldl
    (fun p i =>
      if spikeSet net.spikes net.pre[i]? then
        match net.post[i]?, net.weights[i]? with
        | some postIdx, some w => p.modify (fun v => Rounding.storeFloat32 (v + w)) postIdx
        | _, _ => p
      else p)
    potentials

/-- The update `weights[i] += eta; if (weights[i] > 1.0) weights[i] = 1.0`, the sum
rounded by the store. -/
def bumpFloat32 (eta w : ℚ) : ℚ :=
  let w1 := Rounding.storeFloat32 (w + eta)
  if w1 > 1 then 1 else w1

/-- The Hebbian loop of `step`, reading the spikes set by the neuron phase. -/
def hebbianFloat32 (net : OptimizedNetwork) (spikes : List ℕ) : List ℚ :=
  (List.range net.numSynapses).foldl
    (fun w i =>
      if spikeSet spikes net.pre[i]? && spikeSet spikes net.post[i]? then
        w.modify (bumpFloat32 net.eta) i
      else w)
    net.weights

/-- The method `OptimizedNetwork.step(inputNeurons)` with single-precision stores. -/
def OptimizedNetwork.stepFloat32 (net : OptimizedNetwork) (inputNeurons : List ℕ) :
    OptimizedNetwork :=
  let r := neuronPhase net (transmitFloat32 net (injectFloat32 net inputNeurons))
  { net with
    potentials := r.1
    spikes := r.2.1
    refractoryTimers := r.2.2
    weights := hebbianFloat32 net r.2.1 }

/-- The network after one `step` call, with single-precision stores, for each input list,
in order. -/
def OptimizedNetwork.runFloat32 (net : OptimizedNetwork) (inputs : List (List ℕ)) :
    OptimizedNetwork :=
  inputs.foldl OptimizedNetwork.stepFloat32 net

/-- Whether synapse `i` sees a coincidence in the step from `net` with the given inputs:
both `spikes[pre[i]]` and `spikes[post[i]]` are set by that step's neuron phase. -/
def coincidesFloat32 (net : OptimizedNetwork) (inputNeurons : List ℕ) (i : ℕ) : Bool :=
  spikeSet (net.stepFloat32 inputNeurons).spikes net.pre[i]?
    && spikeSet (net.stepFloat32 inputNeurons).spikes net.post[i]?

/-- The number of ticks of a run in which synapse `i` sees a coincidence. -/
def coincidencesFloat32 (i : ℕ) : OptimizedNetwork → List (List ℕ) → ℕ
  | _, [] => 0
  | net, x :: xs =>
    (if coincidesFloat32 net x i then 1 else 0) + coincidencesFloat32 i (net.stepFloat32 x) xs

/-- The amounts that a list of additions `(index, amount)` adds to `potentials[i]`, in
the order of the additions. -/
def amountsInto (i : ℕ) (adds : List (Option (ℕ × ℚ))) : List ℚ :=
  adds.filterMap (fun a =>
    match a with
    | some (q, w) => if q = i then some w else none
    | none => none)

/-- The amounts injected into `potentials[i]` by `step(inputNeurons)`: `threshold` once
for every occurrence of `i` in `inputNeurons`. -/
def injectedAmounts (net : OptimizedNetwork) (inputNeurons : List ℕ) (i : ℕ) : List ℚ :=
  amountsInto i (inputNeurons.map (fun idx => some (idx, net.threshold)))

/-- The amounts transmitted into `potentials[i]` by the transmission loop of `step`: the
weight of every synapse into `i` whose pre neuron has its spike set, in synapse order. -/
def transmittedAmounts (net : OptimizedNetwork) (i : ℕ) : List ℚ :=
  amountsInto i ((List.range net.numSynapses).map (pulse net))

/-- The value of a `Float32Array` element that starts at `v` after `+=` of each of the
amounts in turn. -/
def accumulateFloat32 (v : ℚ) (amounts : List ℚ) : ℚ :=
  amounts.foldl (fun acc a => Rounding.storeFloat32 (acc + a)) v

/-- A dense-engine state with one synapse 0 → 1 of weight one half and learning rate
`2^-26`, smaller than half the spacing `2^-24` of the single-precision values around one
half. -/
def absorbingNet : OptimizedNetwork :=
  { numNeurons := 2
    numSynapses := 1
    eta := 1 / 67108864
    potentials := [0, 0]
    spikes := [0, 0]
    refractoryTimers := [0, 0]
    threshold := 1
    refractoryPeriod := 5
    pre := [0]
    post := [1]
    weights := [1 / 2] }

end Dense

namespace Dense

/-- The network built by `new OptimizedNetwork(2, 1, 0.1)` when `Math.random` behaves as
`sampleRand`, with `eta` the double written `0.1`, which is
`3602879701896397 / 2^55`: one synapse 0 → 1 of weight 0. -/
def tenthNet : OptimizedNetwork :=
  { numNeurons := 2
    numSynapses := 1
    eta := 3602879701896397 / 36028797018963968
    potentials := [0, 0]
    spikes := [0, 0]
    refractoryTimers := [0, 0]
    threshold := 1
    refractoryPeriod := 5
    pre := [0]
    post := [1]
    weights := [0] }

end Dense

namespace Layered

/-- The double `this.weight + deltaW` of the potentiation branch of `stdpUpdate` for
finite spike times `t0` (pre) and `t1` (post), before the clamp. -/
def Synapse.potentiatedSum (exp : ℚ → ℚ) (syn : Synapse) (t0 t1 : ℚ) : ℚ :=
  Rounding.toFloat64 (syn.weight + Rounding.toFloat64
    (syn.A_plus * exp (Rounding.toFloat64 (-Rounding.toFloat64 (t1 - t0) / syn.tau_plus))))

/-- The double `this.weight + deltaW` of the depression branch of `stdpUpdate` for finite
spike times `t0` (pre) and `t1` (post), before the clamp. -/
def Synapse.depressedSum (exp : ℚ → ℚ) (syn : Synapse) (t0 t1 : ℚ) : ℚ :=
  Rounding.toFloat64 (syn.weight + Rounding.toFloat64
    (-syn.A_minus * exp (Rounding.toFloat64 (Rounding.toFloat64 (t1 - t0) / syn.tau_minus))))

end Layered

namespace Dense

/-- The network built by `new OptimizedNetwork(2, 1, 0.1)` when `Math.random` draws the
synapse 0 → 1 and the weight 0.1, which the `Float32Array` holds as `13421773 / 2^27`;
`eta` is the double written `0.1`. -/
def seedNet : OptimizedNetwork :=
  { numNeurons := 2
    numSynapses := 1
    eta := 3602879701896397 / 36028797018963968
    potentials := [0, 0]
    spikes := [0, 0]
    refractoryTimers := [0, 0]
    threshold := 1
    refractoryPeriod := 5
    pre := [0]
    post := [1]
    weights := [13421773 / 134217728] }

/-- The state of `seedNet` after `step([0, 1])`: both neurons have fired and are
refractory, and the weight has grown to `13421773 / 2^26` (0.20000000298023224). -/
def chargedNet : OptimizedNetwork :=
  { numNeurons := 2
    numSynapses := 1
    eta := 3602879701896397 / 36028797018963968
    potentials := [0, 0]
    spikes := [1, 1]
    refractoryTimers := [5, 5]
    threshold := 1
    refractoryPeriod := 5
    pre := [0]
    post := [1]
    weights := [13421773 / 67108864] }

end Dense

/-! ## The layered network: weight clamp and reset -/

namespace Layered

theorem stdpUpdate_minWeight (exp : ℚ → ℚ) (syn : Synapse) (pre post : Neuron) (t dt : ℚ) :
    (syn.stdpUpdate exp pre post t dt).minWeight = syn.minWeight := rfl

theorem stdpUpdate_maxWeight (exp : ℚ → ℚ) (syn : Synapse) (pre post : Neuron) (t dt : ℚ) :
    (syn.stdpUpdate exp pre post t dt).maxWeight = syn.maxWeight := rfl

theorem stdpUpdate_bounds (exp : ℚ → ℚ) (syn : Synapse) (pre post : Neuron) (t dt : ℚ)
    (h : syn.minWeight ≤ syn.maxWeight) :
    syn.minWeight ≤ (syn.stdpUpdate exp pre post t dt).weight ∧
      (syn.stdpUpdate exp pre post t dt).weight ≤ syn.maxWeight := by
  unfold Synapse.stdpUpdate
  exact ⟨le_max_right _ _, max_le (min_le_right _ _) h⟩

theorem transmitSpike_minWeight (syn : Synapse) (ns : List Neuron) (t dt : ℚ) :
    (syn.transmitSpike ns t dt).1.minWeight = syn.minWeight := rfl

theorem transmitSpike_maxWeight (syn : Synapse) (ns : List Neuron) (t dt : ℚ) :
    (syn.transmitSpike ns t dt).1.maxWeight = syn.maxWeight := rfl

theorem transmitSpike_weight (syn : Synapse) (ns : List Neuron) (t dt : ℚ) :
    (syn.transmitSpike ns t dt).1.weight = syn.weight := rfl

/-- Every synapse left by the transmission phase is `transmitSpike` of a synapse that
was there before, on some neuron list. -/
theorem mem_transmitAll (t dt : ℚ) (syns : List Synapse) :
    ∀ (ns : List Neuron) (x : Synapse), x ∈ (transmitAll t dt syns ns).1 →
      ∃ syn ∈ syns, ∃ ns0 : List Neuron, x = (syn.transmitSpike ns0 t dt).1 := by
  induction syns with
  | nil => intro ns x hx; simp [transmitAll] at hx
  | cons syn rest ih =>
    intro ns x hx
    simp only [transmitAll, List.mem_cons] at hx
    rcases hx with hx | hx
    · exact ⟨syn, List.mem_cons_self _ _, ns, hx⟩
    · obtain ⟨y, hy, ns0, hxy⟩ := ih _ x hx
      exact ⟨y, List.mem_cons_of_mem _ hy, ns0, hxy⟩

/-- C1: for every synapse state with `minWeight ≤ maxWeight` (any weight, any pre and
post neuron state) the weight after `Synapse.stdpUpdate` lies in
`[minWeight, maxWeight]`, and the bounds themselves are untouched; consequently, in a
network whose synapses all have `minWeight ≤ maxWeight`, every synapse after
`SNN.update` has its weight in `[minWeight, maxWeight]` (and still
`minWeight ≤ maxWeight`, so this holds after every later update too). -/
theorem C1_stdp_weight_clamped (exp : ℚ → ℚ) (syn : Synapse) (pre post : Neuron)
    (s : SNN) (t dt : ℚ)
    (hsyn : syn.minWeight ≤ syn.maxWeight)
    (hs : ∀ x ∈ s.synapses, x.minWeight ≤ x.maxWeight) :
    ((syn.stdpUpdate exp pre post t dt).minWeight = syn.minWeight ∧
      (syn.stdpUpdate exp pre post t dt).maxWeight = syn.maxWeight ∧
      syn.minWeight ≤ (syn.stdpUpdate exp pre post t dt).weight ∧
      (syn.stdpUpdate exp pre post t dt).weight ≤ syn.maxWeight) ∧
    (∀ x ∈ (s.update exp t dt).1.synapses,
      x.minWeight ≤ x.weight ∧ x.weight ≤ x.maxWeight ∧ x.minWeight ≤ x.maxWeight) := by
  refine ⟨⟨rfl, rfl, stdpUpdate_bounds exp syn pre post t dt hsyn⟩, ?_⟩
  intro x hx
  simp only [SNN.update, List.mem_map] at hx
  obtain ⟨y, hy, rfl⟩ := hx
  obtain ⟨z, hz, ns0, rfl⟩ := mem_transmitAll t dt s.synapses s.neurons y hy
  have hz2 : (z.transmitSpike ns0 t dt).1.minWeight ≤ (z.transmitSpike ns0 t dt).1.maxWeight :=
    hs z hz
  have hb := stdpUpdate_bounds exp (z.transmitSpike ns0 t dt).1
    (neuronAt (List.map (fun n => (n.update t dt).1) (transmitAll t dt s.synapses s.neurons).2)
      (z.transmitSpike ns0 t dt).1.pre)
    (neuronAt (List.map (fun n => (n.update t dt).1) (transmitAll t dt s.synapses s.neurons).2)
      (z.transmitSpike ns0 t dt).1.post) t dt hz2
  exact ⟨hb.1, hb.2, hz2⟩

/-- C2: evaluation of `SNN.reset` on the network `new SNN(1, 0, 0, 0)` after
`injectInputs([1])`: the input neuron has `spiked = false` after the reset, but its
potential is still the injected 1, not 0. -/
theorem C2_reset_keeps_potential :
    ((SNN.new (fun _ => 0) 1 0 0 0).injectInputs [1]).map
        (fun s => s.reset.neurons.map (fun n => (n.spiked, n.potential)))
      = some [(false, 1)] := by
  have h : SNN.new (fun _ => 0) 1 0 0 0 =
      { numInputs := 1, numHiddenExcitatory := 0, numHiddenInhibitory := 0, numOutputs := 0,
        neurons := [Neuron.newDefault "Input_0"], synapses := [], currentTime := none } := rfl
  have h2 : SNN.injectInputs
      { numInputs := 1, numHiddenExcitatory := 0, numHiddenInhibitory := 0, numOutputs := 0,
        neurons := [Neuron.newDefault "Input_0"], synapses := [], currentTime := none } [1] =
      some { numInputs := 1, numHiddenExcitatory := 0, numHiddenInhibitory := 0,
             numOutputs := 0,
             neurons := [{ Neuron.newDefault "Input_0" with potential := 1 }],
             synapses := [], currentTime := none } := by
    norm_num [SNN.injectInputs, SNN.injectOne, inputAbove, List.range, List.range.loop,
      Neuron.receiveSpike, Neuron.newDefault, Neuron.new, List.modify]
  rw [h, h2]
  rfl

/-- C3: `SNN.reset` leaves the synapse list (hence every weight) as it was, and every
neuron keeps its `threshold` and its `baseThreshold`; the neuron list keeps its
length. -/
theorem C3_reset_frame (s : SNN) :
    s.reset.synapses = s.synapses ∧
      s.reset.neurons.length = s.neurons.length ∧
      s.reset.neurons.map (fun n => n.threshold) = s.neurons.map (fun n => n.threshold) ∧
      s.reset.neurons.map (fun n => n.baseThreshold)
        = s.neurons.map (fun n => n.baseThreshold) := by
  refine ⟨rfl, ?_, ?_, ?_⟩
  · simp [SNN.reset]
  · simp only [SNN.reset, List.map_map]
    rfl
  · simp only [SNN.reset, List.map_map]
    rfl

/-- Witness of C1 on the two-neuron sample network and its synapse. -/
theorem C1_stdp_weight_clamped_witness :
    (Synapse.newDefault 0 1 (1 / 2)).minWeight ≤ (Synapse.newDefault 0 1 (1 / 2)).maxWeight ∧
    (∀ x ∈ sampleNet.synapses, x.minWeight ≤ x.maxWeight) ∧
    (∀ x ∈ (sampleNet.update (fun _ => 1) 0 1).1.synapses,
      x.minWeight ≤ x.weight ∧ x.weight ≤ x.maxWeight ∧ x.minWeight ≤ x.maxWeight) :=
  have h1 : (Synapse.newDefault 0 1 (1 / 2)).minWeight
      ≤ (Synapse.newDefault 0 1 (1 / 2)).maxWeight := by
    norm_num [Synapse.newDefault, Synapse.new]
  have h2 : ∀ x ∈ sampleNet.synapses, x.minWeight ≤ x.maxWeight := by
    intro x hx
    simp only [sampleNet, List.mem_singleton] at hx
    subst hx
    exact h1
  ⟨h1, h2,
    (C1_stdp_weight_clamped (fun _ => 1) (Synapse.newDefault 0 1 (1 / 2)) Neuron.blank
      Neuron.blank sampleNet 0 1 h1 h2).2⟩

/-! ## The constructor of the layered network -/

theorem neuronAt_modify_id (f : Neuron → Neuron) (hf : ∀ n, (f n).id = n.id)
    (ns : List Neuron) (k i : ℕ) :
    (neuronAt (ns.modify f k) i).id = (neuronAt ns i).id := by
  simp only [neuronAt, List.getD_eq_getElem?_getD, List.getElem?_modify]
  cases h : ns[i]? with
  | none => simp
  | some n =>
    by_cases hk : k = i
    · simp [hk, hf]
    · simp [hk]

theorem allowed_congr (ns ns1 : List Neuron)
    (h : ∀ k, (neuronAt ns1 k).id = (neuronAt ns k).id) (i j : ℕ) :
    allowed ns1 i j = allowed ns i j := by
  simp only [allowed, h]

theorem connect_eq (rand : ℕ → ℚ) (i j : ℕ) (st : List Neuron × List Synapse) :
    connect rand i j st =
      if allowed st.1 i j = true then
        ((st.1.modify (Neuron.addOutgoing st.2.length) i).modify
            (Neuron.addIncoming st.2.length) j,
          st.2 ++ [Synapse.newDefault i j (rand st.2.length)])
      else st := by
  unfold connect allowed
  by_cases h1 : i ≠ j
  · by_cases h2 : startsWith (neuronAt st.1 i).id "Output" = true
    · simp [h1, h2]
    · by_cases h3 : startsWith (neuronAt st.1 j).id "Input" = true
      · simp [h1, h2, h3]
      · simp [h1, h2, h3]
  · simp [h1]

theorem connect_ids (rand : ℕ → ℚ) (i j : ℕ) (st : List Neuron × List Synapse) (k : ℕ) :
    (neuronAt (connect rand i j st).1 k).id = (neuronAt st.1 k).id := by
  rw [connect_eq]
  split_ifs
  · show (neuronAt ((st.1.modify (Neuron.addOutgoing st.2.length) i).modify
        (Neuron.addIncoming st.2.length) j) k).id = _
    rw [neuronAt_modify_id (Neuron.addIncoming st.2.length) (fun _ => rfl),
      neuronAt_modify_id (Neuron.addOutgoing st.2.length) (fun _ => rfl)]
  · rfl

theorem connect_synapses (rand : ℕ → ℚ) (i j : ℕ) (st : List Neuron × List Synapse) :
    (connect rand i j st).2 =
      if allowed st.1 i j then st.2 ++ [Synapse.newDefault i j (rand st.2.length)]
      else st.2 := by
  rw [connect_eq]
  split_ifs <;> rfl

/-- The inner connection loop over the targets `js` keeps every neuron id and adds, for
the pair `(a, b)`, one synapse per allowed target equal to `b` when the source is `a`. -/
theorem inner_loop_count (rand : ℕ → ℚ) (i a b : ℕ) (js : List ℕ) :
    ∀ st : List Neuron × List Synapse,
      (∀ k, (neuronAt (js.foldl (fun st j => connect rand i j st) st).1 k).id
          = (neuronAt st.1 k).id) ∧
      (js.foldl (fun st j => connect rand i j st) st).2.countP
          (fun syn => decide (syn.pre = a ∧ syn.post = b))
        = st.2.countP (fun syn => decide (syn.pre = a ∧ syn.post = b))
          + js.countP (fun j => allowed st.1 i j && decide (i = a ∧ j = b)) := by
  induction js with
  | nil => intro st; simp
  | cons j js ih =>
    intro st
    obtain ⟨h1, h2⟩ := ih (connect rand i j st)
    simp only [List.foldl_cons]
    refine ⟨fun k => by rw [h1 k, connect_ids], ?_⟩
    rw [h2, connect_synapses]
    have hc : ∀ x, allowed (connect rand i j st).1 i x = allowed st.1 i x :=
      fun x => allowed_congr _ _ (connect_ids rand i j st) i x
    simp only [hc, List.countP_cons]
    by_cases hal : allowed st.1 i j = true
    · rw [if_pos hal, List.countP_append]
      have hone : List.countP (fun syn => decide (syn.pre = a ∧ syn.post = b))
          [Synapse.newDefault i j (rand st.2.length)] = if i = a ∧ j = b then 1 else 0 := by
        simp [List.countP_cons, Synapse.newDefault, Synapse.new]
      rw [hone]
      by_cases hab : i = a ∧ j = b
      · have hq : (allowed st.1 i j && decide (i = a ∧ j = b)) = true := by
          rw [hal, decide_eq_true hab]
          rfl
        rw [if_pos hq, if_pos hab]
        omega
      · have hq : ¬ (allowed st.1 i j && decide (i = a ∧ j = b)) = true := by
          rw [hal, decide_eq_false hab]
          simp
        rw [if_neg hq, if_neg hab]
        omega
    · rw [if_neg hal]
      have hq : ¬ (allowed st.1 i j && decide (i = a ∧ j = b)) = true := by
        simp [hal]
      rw [if_neg hq]
      omega

/-- The outer connection loop over the sources `is`, each with the targets `js`. -/
theorem outer_loop_count (rand : ℕ → ℚ) (a b : ℕ) (js : List ℕ) (is : List ℕ) :
    ∀ st : List Neuron × List Synapse,
      (∀ k, (neuronAt (is.foldl
          (fun st i => js.foldl (fun st j => connect rand i j st) st) st).1 k).id
          = (neuronAt st.1 k).id) ∧
      (is.foldl (fun st i => js.foldl (fun st j => connect rand i j st) st) st).2.countP
          (fun syn => decide (syn.pre = a ∧ syn.post = b))
        = st.2.countP (fun syn => decide (syn.pre = a ∧ syn.post = b))
          + (is.map (fun i =>
              js.countP (fun j => allowed st.1 i j && decide (i = a ∧ j = b)))).sum := by
  induction is with
  | nil => intro st; simp
  | cons i is ih =>
    intro st
    obtain ⟨h1, h2⟩ := ih (js.foldl (fun st j => connect rand i j st) st)
    obtain ⟨g1, g2⟩ := inner_loop_count rand i a b js st
    simp only [List.foldl_cons]
    refine ⟨fun k => by rw [h1 k, g1 k], ?_⟩
    rw [h2, g2]
    have hc : ∀ x y, allowed (js.foldl (fun st j => connect rand i j st) st).1 x y
        = allowed st.1 x y := fun x y => allowed_congr _ _ g1 x y
    simp only [hc, List.map_cons, List.sum_cons]
    omega

theorem countP_range_eq (q : ℕ → Bool) (b N : ℕ) :
    (List.range N).countP (fun j => q j && decide (j = b))
      = if b < N ∧ q b = true then 1 else 0 := by
  induction N with
  | zero => simp
  | succ n ih =>
    rw [List.range_succ, List.countP_append, ih]
    by_cases hb : b = n
    · subst hb
      by_cases hq : q b = true
      · simp [hq]
      · simp [hq]
    · have h1 : ¬ n = b := fun h => hb h.symm
      by_cases hlt : b < n
      · have : b < n + 1 := by omega
        simp [h1, hlt, this]
      · have : ¬ b < n + 1 := by omega
        simp [h1, hlt, this]

theorem sum_indicator (p : ℕ → Bool) (l : List ℕ) :
    (l.map (fun x => if p x = true then 1 else 0)).sum = l.countP p := by
  induction l with
  | nil => rfl
  | cons x xs ih =>
    simp only [List.map_cons, List.sum_cons, List.countP_cons, ih]
    omega

theorem startsWith_input_label (x : String) :
    startsWith ("Input_" ++ x) "Input" = true ∧ startsWith ("Input_" ++ x) "Output" = false := by
  constructor <;> simp [startsWith, List.isPrefixOf]

theorem startsWith_hiddenExc_label (x : String) :
    startsWith ("HiddenExc_" ++ x) "Input" = false ∧
      startsWith ("HiddenExc_" ++ x) "Output" = false := by
  constructor <;> simp [startsWith, List.isPrefixOf]

theorem startsWith_hiddenInh_label (x : String) :
    startsWith ("HiddenInh_" ++ x) "Input" = false ∧
      startsWith ("HiddenInh_" ++ x) "Output" = false := by
  constructor <;> simp [startsWith, List.isPrefixOf]

theorem startsWith_output_label (x : String) :
    startsWith ("Output_" ++ x) "Input" = false ∧
      startsWith ("Output_" ++ x) "Output" = true := by
  constructor <;> simp [startsWith, List.isPrefixOf]

theorem startsWith_empty_label :
    startsWith "" "Input" = false ∧ startsWith "" "Output" = false := by
  constructor <;> simp [startsWith, List.isPrefixOf]

/-- The id of the i-th neuron pushed by the four creation loops. -/
theorem neuronAt_initial_id (a b c d i : ℕ) :
    (neuronAt (initialNeurons a b c d) i).id =
      if i < a then "Input_" ++ toString i
      else if i < a + b then "HiddenExc_" ++ toString (i - a)
      else if i < a + b + c then "HiddenInh_" ++ toString (i - a - b)
      else if i < a + b + c + d then "Output_" ++ toString (i - a - b - c)
      else "" := by
  simp only [neuronAt, initialNeurons, List.getD_eq_getElem?_getD, List.getElem?_append,
    List.length_append, List.length_map, List.length_range, List.getElem?_map]
  split_ifs
  all_goals first
    | omega
    | (rw [List.getElem?_range (by omega)]; rfl)
    | (rw [List.getElem?_range (by omega)]; simp [Neuron.newDefault, Neuron.new, Nat.sub_sub])
    | (rw [List.getElem?_eq_none (by simp; omega)]; rfl)

theorem initial_id_input (a b c d i : ℕ) :
    startsWith (neuronAt (initialNeurons a b c d) i).id "Input" = decide (i < a) := by
  rw [neuronAt_initial_id]
  split_ifs with h1 h2 h3 h4
  · simp [h1, (startsWith_input_label _).1]
  · simp [h1, (startsWith_hiddenExc_label _).1]
  · simp [h1, (startsWith_hiddenInh_label _).1]
  · simp [h1, (startsWith_output_label _).1]
  · simp [h1, startsWith_empty_label.1]

theorem initial_id_output (a b c d i : ℕ) (hi : i < a + b + c + d) :
    startsWith (neuronAt (initialNeurons a b c d) i).id "Output" = decide (a + b + c ≤ i) := by
  rw [neuronAt_initial_id]
  split_ifs with h1 h2 h3
  · rw [(startsWith_input_label _).2]; symm; simp; omega
  · rw [(startsWith_hiddenExc_label _).2]; symm; simp; omega
  · rw [(startsWith_hiddenInh_label _).2]; symm; simp; omega
  · rw [(startsWith_output_label _).2]; symm; simp; omega

theorem initialNeurons_length (a b c d : ℕ) :
    (initialNeurons a b c d).length = a + b + c + d := by
  simp only [initialNeurons, List.length_append, List.length_map, List.length_range]

theorem connect_length (rand : ℕ → ℚ) (i j : ℕ) (st : List Neuron × List Synapse) :
    (connect rand i j st).1.length = st.1.length := by
  rw [connect_eq]
  split_ifs
  · simp
  · rfl

theorem inner_loop_length (rand : ℕ → ℚ) (i : ℕ) (js : List ℕ) :
    ∀ st : List Neuron × List Synapse,
      (js.foldl (fun st j => connect rand i j st) st).1.length = st.1.length := by
  induction js with
  | nil => intro st; rfl
  | cons j js ih => intro st; rw [List.foldl_cons, ih, connect_length]

theorem outer_loop_length (rand : ℕ → ℚ) (js is : List ℕ) :
    ∀ st : List Neuron × List Synapse,
      (is.foldl (fun st i => js.foldl (fun st j => connect rand i j st) st) st).1.length
        = st.1.length := by
  induction is with
  | nil => intro st; rfl
  | cons i is ih => intro st; rw [List.foldl_cons, ih, inner_loop_length]

/-- C4: in the network built by `new SNN(a, b, c, d)` the neuron list has
`a + b + c + d` entries, and for all neuron indices `i`, `j` the number of synapses with
`pre = neurons[i]` and `post = neurons[j]` is 1 when `i ≠ j`, neuron `i` is not an
output neuron (`i < a + b + c`) and neuron `j` is not an input neuron (`a ≤ j`), and 0
otherwise. -/
theorem C4_constructor_connectivity (rand : ℕ → ℚ) (a b c d i j : ℕ)
    (hi : i < a + b + c + d) (hj : j < a + b + c + d) :
    (SNN.new rand a b c d).neurons.length = a + b + c + d ∧
    (SNN.new rand a b c d).synapses.countP (fun syn => decide (syn.pre = i ∧ syn.post = j))
      = if i ≠ j ∧ i < a + b + c ∧ a ≤ j then 1 else 0 := by
  constructor
  · simp only [SNN.new, connectAll]
    rw [outer_loop_length, initialNeurons_length]
  · simp only [SNN.new, connectAll, initialNeurons_length]
    rw [(outer_loop_count rand i j (List.range (a + b + c + d)) (List.range (a + b + c + d))
      (initialNeurons a b c d, [])).2]
    have hinner : ∀ x, (List.range (a + b + c + d)).countP
          (fun y => allowed (initialNeurons a b c d) x y && decide (x = i ∧ y = j))
        = if (allowed (initialNeurons a b c d) x j && decide (x = i)) = true then 1 else 0 := by
      intro x
      have hfun : (fun y => allowed (initialNeurons a b c d) x y && decide (x = i ∧ y = j))
          = (fun y => (allowed (initialNeurons a b c d) x y && decide (x = i))
              && decide (y = j)) := by
        funext y
        by_cases h1 : x = i <;> by_cases h2 : y = j <;> simp [h1, h2]
      rw [hfun, countP_range_eq (fun y => allowed (initialNeurons a b c d) x y && decide (x = i))]
      simp [hj]
    simp only [hinner, List.countP_nil, Nat.zero_add]
    rw [sum_indicator (fun x => allowed (initialNeurons a b c d) x j && decide (x = i)),
      countP_range_eq (fun x => allowed (initialNeurons a b c d) x j)]
    simp only [hi, true_and, allowed, initial_id_input, initial_id_output a b c d i hi]
    apply if_congr _ rfl rfl
    simp only [Bool.and_eq_true, decide_eq_true_eq, Bool.not_eq_true', decide_eq_false_iff_not,
      and_assoc]
    omega

/-- Witness of C4 on `new SNN(1, 0, 0, 1)`, for the pair input 0, output 1. -/
theorem C4_constructor_connectivity_witness :
    (0 < 1 + 0 + 0 + 1 ∧ 1 < 1 + 0 + 0 + 1) ∧
    (SNN.new (fun _ => 1 / 2) 1 0 0 1).neurons.length = 1 + 0 + 0 + 1 ∧
    (SNN.new (fun _ => 1 / 2) 1 0 0 1).synapses.countP
        (fun syn => decide (syn.pre = 0 ∧ syn.post = 1))
      = if 0 ≠ 1 ∧ 0 < 1 + 0 + 0 ∧ 1 ≤ 1 then 1 else 0 :=
  ⟨⟨by decide, by decide⟩,
    C4_constructor_connectivity (fun _ => 1 / 2) 1 0 0 1 0 1 (by decide) (by decide)⟩

end Layered

/-! ## List facts used by both engines -/

theorem map_modify_of_invariant {α β : Type} (g : α → β) (f : α → α)
    (h : ∀ x, g (f x) = g x) (l : List α) (k : ℕ) :
    (l.modify f k).map g = l.map g := by
  induction l generalizing k with
  | nil => simp
  | cons a l ih =>
    cases k with
    | zero => simp [h]
    | succ k => simp [ih]

theorem forall_mem_modify {α : Type} (P : α → Prop) (f : α → α)
    (h : ∀ x, P x → P (f x)) (l : List α) (k : ℕ) (hl : ∀ x ∈ l, P x) :
    ∀ x ∈ l.modify f k, P x := by
  induction l generalizing k with
  | nil => simp
  | cons a l ih =>
    cases k with
    | zero =>
      intro x hx
      simp only [List.modify_zero_cons, List.mem_cons] at hx
      rcases hx with rfl | hx
      · exact h a (hl a (List.mem_cons_self _ _))
      · exact hl x (List.mem_cons_of_mem _ hx)
    | succ k =>
      intro x hx
      simp only [List.modify_succ_cons, List.mem_cons] at hx
      rcases hx with rfl | hx
      · exact hl x (List.mem_cons_self _ _)
      · exact ih k (fun y hy => hl y (List.mem_cons_of_mem _ hy)) x hx

/-! ## Binary floating-point rounding: monotonicity and fixed points -/

namespace Rounding

theorem roundHalfEven_intCast (n : ℤ) : roundHalfEven (n : ℚ) = n := by
  simp [roundHalfEven]

theorem floor_le_roundHalfEven (m : ℚ) : ⌊m⌋ ≤ roundHalfEven m := by
  simp only [roundHalfEven]
  split_ifs <;> omega

theorem roundHalfEven_le_floor_add_one (m : ℚ) : roundHalfEven m ≤ ⌊m⌋ + 1 := by
  simp only [roundHalfEven]
  split_ifs <;> omega

theorem roundHalfEven_mono {a b : ℚ} (h : a ≤ b) : roundHalfEven a ≤ roundHalfEven b := by
  have hf : ⌊a⌋ ≤ ⌊b⌋ := Int.floor_mono h
  rcases lt_or_eq_of_le hf with hlt | heq
  · calc roundHalfEven a ≤ ⌊a⌋ + 1 := roundHalfEven_le_floor_add_one a
      _ ≤ ⌊b⌋ := hlt
      _ ≤ roundHalfEven b := floor_le_roundHalfEven b
  · simp only [roundHalfEven]
    rw [heq]
    have hab : a - (⌊b⌋ : ℚ) ≤ b - (⌊b⌋ : ℚ) := by linarith
    split_ifs <;> first | omega | (exfalso; linarith)

theorem le_roundHalfEven {n : ℤ} {m : ℚ} (h : (n : ℚ) ≤ m) : n ≤ roundHalfEven m := by
  have := roundHalfEven_mono h
  rwa [roundHalfEven_intCast] at this

theorem roundHalfEven_le {n : ℤ} {m : ℚ} (h : m ≤ (n : ℚ)) : roundHalfEven m ≤ n := by
  have := roundHalfEven_mono h
  rwa [roundHalfEven_intCast] at this

/-- A rational closer than one half to an integer rounds to that integer. -/
theorem roundHalfEven_of_abs_sub_lt (m : ℚ) (n : ℤ) (h : |m - n| < 1 / 2) :
    roundHalfEven m = n := by
  rw [abs_lt] at h
  obtain ⟨h1, h2⟩ := h
  rcases le_or_lt (n : ℚ) m with hle | hlt
  · have hfl : ⌊m⌋ = n := by
      rw [Int.floor_eq_iff]
      constructor
      · exact hle
      · linarith
    simp only [roundHalfEven, hfl]
    rw [if_pos (by linarith)]
  · have hfl : ⌊m⌋ = n - 1 := by
      rw [Int.floor_eq_iff]
      push_cast
      constructor
      · linarith
      · linarith
    simp only [roundHalfEven, hfl]
    push_cast
    rw [if_neg (by linarith), if_pos (by linarith)]
    ring

theorem quantum_pos (p : ℕ) (emin : ℤ) (x : ℚ) : 0 < quantum p emin x :=
  zpow_pos (by norm_num) _

theorem roundBinary_zero (p : ℕ) (emin : ℤ) : roundBinary p emin 0 = 0 := by
  simp [roundBinary, roundHalfEven]

theorem emin_le_exponent (emin : ℤ) (x : ℚ) : emin ≤ exponent emin x :=
  le_max_right _ _

theorem abs_lt_zpow_exponent (emin : ℤ) (x : ℚ) : |x| < (2 : ℚ) ^ (exponent emin x + 1) := by
  have h1 : |x| < ((2 : ℕ) : ℚ) ^ (Int.log 2 |x| + 1) :=
    Int.lt_zpow_succ_log_self (by norm_num) |x|
  have h2 : ((2 : ℕ) : ℚ) ^ (Int.log 2 |x| + 1) ≤ (2 : ℚ) ^ (exponent emin x + 1) := by
    rw [Nat.cast_ofNat]
    have hmax := le_max_left (Int.log 2 |x|) emin
    exact zpow_le_zpow_right₀ (by norm_num) (by unfold exponent; omega)
  exact lt_of_lt_of_le h1 h2

theorem zpow_exponent_le_abs (emin : ℤ) (x : ℚ) (hx : x ≠ 0)
    (he : exponent emin x = Int.log 2 |x|) : (2 : ℚ) ^ exponent emin x ≤ |x| := by
  rw [he]
  have h := Int.zpow_log_le_self (b := 2) (r := |x|) (by norm_num) (abs_pos.mpr hx)
  rwa [Nat.cast_ofNat] at h

theorem exponent_eq_log_of_lt {emin : ℤ} {x : ℚ} {e : ℤ} (h : e < exponent emin x)
    (he : emin ≤ e) : exponent emin x = Int.log 2 |x| := by
  unfold exponent at *
  rcases max_cases (Int.log 2 |x|) emin with ⟨h1, _⟩ | ⟨h1, _⟩
  · exact h1
  · rw [h1] at h
    omega

theorem zpow_succ_exponent (p : ℕ) (emin : ℤ) (x : ℚ) :
    (2 : ℚ) ^ (exponent emin x + 1) = (2 : ℚ) ^ p * quantum p emin x := by
  unfold quantum
  rw [← zpow_natCast, ← zpow_add₀ (by norm_num)]
  congr 1
  ring

theorem zpow_exponent (p : ℕ) (hp : 1 ≤ p) (emin : ℤ) (x : ℚ) :
    (2 : ℚ) ^ exponent emin x = (2 : ℚ) ^ (p - 1) * quantum p emin x := by
  unfold quantum
  rw [← zpow_natCast, ← zpow_add₀ (by norm_num)]
  congr 1
  have : ((p - 1 : ℕ) : ℤ) = (p : ℤ) - 1 := by omega
  rw [this]
  ring

theorem div_quantum_lt (p : ℕ) (emin : ℤ) (x : ℚ) : x / quantum p emin x < (2 : ℚ) ^ p := by
  rw [div_lt_iff₀ (quantum_pos p emin x), ← zpow_succ_exponent]
  exact lt_of_le_of_lt (le_abs_self x) (abs_lt_zpow_exponent emin x)

theorem neg_lt_div_quantum (p : ℕ) (emin : ℤ) (x : ℚ) :
    -(2 : ℚ) ^ p < x / quantum p emin x := by
  rw [lt_div_iff₀ (quantum_pos p emin x), neg_mul, ← zpow_succ_exponent]
  have := abs_lt_zpow_exponent emin x
  have := neg_abs_le x
  linarith

theorem roundHalfEven_div_quantum_le (p : ℕ) (emin : ℤ) (x : ℚ) :
    roundHalfEven (x / quantum p emin x) ≤ (2 : ℤ) ^ p := by
  apply roundHalfEven_le
  push_cast
  exact le_of_lt (div_quantum_lt p emin x)

theorem neg_le_roundHalfEven_div_quantum (p : ℕ) (emin : ℤ) (x : ℚ) :
    -(2 : ℤ) ^ p ≤ roundHalfEven (x / quantum p emin x) := by
  apply le_roundHalfEven
  push_cast
  exact le_of_lt (neg_lt_div_quantum p emin x)

theorem roundBinary_le_zpow (p : ℕ) (emin : ℤ) (x : ℚ) :
    roundBinary p emin x ≤ (2 : ℚ) ^ (exponent emin x + 1) := by
  rw [zpow_succ_exponent p]
  unfold roundBinary
  apply mul_le_mul_of_nonneg_right _ (quantum_pos p emin x).le
  have := roundHalfEven_div_quantum_le p emin x
  exact_mod_cast this

theorem neg_zpow_le_roundBinary (p : ℕ) (emin : ℤ) (x : ℚ) :
    -(2 : ℚ) ^ (exponent emin x + 1) ≤ roundBinary p emin x := by
  rw [zpow_succ_exponent p, ← neg_mul]
  unfold roundBinary
  apply mul_le_mul_of_nonneg_right _ (quantum_pos p emin x).le
  have := neg_le_roundHalfEven_div_quantum p emin x
  exact_mod_cast this

theorem zpow_le_roundBinary (p : ℕ) (hp : 1 ≤ p) (emin : ℤ) (x : ℚ) (hx : 0 < x)
    (he : exponent emin x = Int.log 2 |x|) :
    (2 : ℚ) ^ exponent emin x ≤ roundBinary p emin x := by
  have h1 := zpow_exponent_le_abs emin x (ne_of_gt hx) he
  rw [abs_of_pos hx] at h1
  rw [zpow_exponent p hp]
  unfold roundBinary
  apply mul_le_mul_of_nonneg_right _ (quantum_pos p emin x).le
  have h2 : ((2 : ℤ) ^ (p - 1) : ℤ) ≤ roundHalfEven (x / quantum p emin x) := by
    apply le_roundHalfEven
    push_cast
    rw [le_div_iff₀ (quantum_pos p emin x), ← zpow_exponent p hp]
    exact h1
  exact_mod_cast h2

theorem roundBinary_le_neg_zpow (p : ℕ) (hp : 1 ≤ p) (emin : ℤ) (x : ℚ) (hx : x < 0)
    (he : exponent emin x = Int.log 2 |x|) :
    roundBinary p emin x ≤ -(2 : ℚ) ^ exponent emin x := by
  have h1 := zpow_exponent_le_abs emin x (ne_of_lt hx) he
  rw [abs_of_neg hx] at h1
  rw [zpow_exponent p hp, ← neg_mul]
  unfold roundBinary
  apply mul_le_mul_of_nonneg_right _ (quantum_pos p emin x).le
  have h2 : roundHalfEven (x / quantum p emin x) ≤ (-(2 : ℤ) ^ (p - 1) : ℤ) := by
    apply roundHalfEven_le
    push_cast
    rw [div_le_iff₀ (quantum_pos p emin x), neg_mul, ← zpow_exponent p hp]
    linarith
  exact_mod_cast h2

theorem roundBinary_nonneg (p : ℕ) (emin : ℤ) (x : ℚ) (hx : 0 ≤ x) :
    0 ≤ roundBinary p emin x := by
  unfold roundBinary
  apply mul_nonneg _ (quantum_pos p emin x).le
  have h : (0 : ℤ) ≤ roundHalfEven (x / quantum p emin x) := by
    apply le_roundHalfEven
    push_cast
    exact div_nonneg hx (quantum_pos p emin x).le
  exact_mod_cast h

theorem roundBinary_nonpos (p : ℕ) (emin : ℤ) (x : ℚ) (hx : x ≤ 0) :
    roundBinary p emin x ≤ 0 := by
  unfold roundBinary
  apply mul_nonpos_of_nonpos_of_nonneg _ (quantum_pos p emin x).le
  have h : roundHalfEven (x / quantum p emin x) ≤ (0 : ℤ) := by
    apply roundHalfEven_le
    push_cast
    exact div_nonpos_of_nonpos_of_nonneg hx (quantum_pos p emin x).le
  exact_mod_cast h

theorem roundBinary_mono_of_exponent_eq (p : ℕ) (emin : ℤ) {x y : ℚ} (h : x ≤ y)
    (he : exponent emin x = exponent emin y) : roundBinary p emin x ≤ roundBinary p emin y := by
  have hq : quantum p emin x = quantum p emin y := by
    unfold quantum
    rw [he]
  unfold roundBinary
  rw [hq]
  apply mul_le_mul_of_nonneg_right _ (quantum_pos p emin y).le
  have := roundHalfEven_mono (div_le_div_of_nonneg_right h (quantum_pos p emin y).le)
  exact_mod_cast this

theorem exponent_mono (emin : ℤ) {a b : ℚ} (ha : a ≠ 0) (h : |a| ≤ |b|) :
    exponent emin a ≤ exponent emin b :=
  max_le_max (Int.log_mono_right (abs_pos.mpr ha) h) le_rfl

/-- Rounding to a binary format is monotone. -/
theorem roundBinary_mono (p : ℕ) (hp : 1 ≤ p) (emin : ℤ) {x y : ℚ} (h : x ≤ y) :
    roundBinary p emin x ≤ roundBinary p emin y := by
  rcases lt_trichotomy 0 x with hx | hx | hx
  · -- both positive
    have hy : 0 < y := lt_of_lt_of_le hx h
    have hexp : exponent emin x ≤ exponent emin y :=
      exponent_mono emin (ne_of_gt hx) (by rw [abs_of_pos hx, abs_of_pos hy]; exact h)
    rcases eq_or_lt_of_le hexp with heq | hlt
    · exact roundBinary_mono_of_exponent_eq p emin h heq
    · have hn := exponent_eq_log_of_lt hlt (emin_le_exponent emin x)
      calc roundBinary p emin x ≤ (2 : ℚ) ^ (exponent emin x + 1) := roundBinary_le_zpow p emin x
        _ ≤ (2 : ℚ) ^ exponent emin y := zpow_le_zpow_right₀ (by norm_num) hlt
        _ ≤ roundBinary p emin y := zpow_le_roundBinary p hp emin y hy hn
  · subst hx
    rw [roundBinary_zero]
    exact roundBinary_nonneg p emin y h
  · rcases le_or_lt 0 y with hy | hy
    · exact le_trans (roundBinary_nonpos p emin x hx.le) (roundBinary_nonneg p emin y hy)
    · -- both negative
      have hexp : exponent emin y ≤ exponent emin x :=
        exponent_mono emin (ne_of_lt hy) (by rw [abs_of_neg hx, abs_of_neg hy]; linarith)
      rcases eq_or_lt_of_le hexp with heq | hlt
      · exact roundBinary_mono_of_exponent_eq p emin h heq.symm
      · have hn := exponent_eq_log_of_lt hlt (emin_le_exponent emin y)
        calc roundBinary p emin x ≤ -(2 : ℚ) ^ exponent emin x :=
              roundBinary_le_neg_zpow p hp emin x hx hn
          _ ≤ -(2 : ℚ) ^ (exponent emin y + 1) :=
              neg_le_neg (zpow_le_zpow_right₀ (by norm_num) hlt)
          _ ≤ roundBinary p emin y := neg_zpow_le_roundBinary p emin y


theorem roundBinary_of_div_quantum_eq (p : ℕ) (emin : ℤ) (x : ℚ) (n : ℤ)
    (h : x / quantum p emin x = n) : roundBinary p emin x = x := by
  unfold roundBinary
  rw [h, roundHalfEven_intCast, ← h]
  exact div_mul_cancel₀ x (ne_of_gt (quantum_pos p emin x))

theorem exponent_le_of_abs_lt (emin : ℤ) (x : ℚ) (e : ℤ) (hx : x ≠ 0)
    (h : |x| < (2 : ℚ) ^ (e + 1)) (he : emin ≤ e) : exponent emin x ≤ e := by
  have h1 : Int.log 2 |x| < e + 1 := by
    rw [← Int.lt_zpow_iff_log_lt (by norm_num) (abs_pos.mpr hx), Nat.cast_ofNat]
    exact h
  unfold exponent
  exact max_le (by omega) he

theorem exponent_eq (emin : ℤ) (x : ℚ) (e : ℤ) (h1 : (2 : ℚ) ^ e ≤ |x|)
    (h2 : |x| < (2 : ℚ) ^ (e + 1)) (he : emin ≤ e) : exponent emin x = e := by
  have hpos : 0 < |x| := lt_of_lt_of_le (zpow_pos (by norm_num) e) h1
  have hx : x ≠ 0 := abs_pos.mp hpos
  apply le_antisymm (exponent_le_of_abs_lt emin x e hx h2 he)
  have h3 : e ≤ Int.log 2 |x| := by
    rw [← Int.zpow_le_iff_le_log (by norm_num) hpos, Nat.cast_ofNat]
    exact h1
  exact le_trans h3 (le_max_left _ _)

/-- Every value of the format is left alone by the rounding. -/
theorem roundBinary_of_representable (p : ℕ) (emin : ℤ) (v : ℚ)
    (h : Representable p emin v) : roundBinary p emin v = v := by
  obtain ⟨n, j, rfl, hn, hj⟩ := h
  by_cases hn0 : n = 0
  · subst hn0
    simp [roundBinary_zero]
  have h2 : (0 : ℚ) < (2 : ℚ) ^ j := zpow_pos (by norm_num) j
  have hv : (n : ℚ) * (2 : ℚ) ^ j ≠ 0 :=
    mul_ne_zero (Int.cast_ne_zero.mpr hn0) (ne_of_gt h2)
  have habs : |(n : ℚ) * (2 : ℚ) ^ j| < (2 : ℚ) ^ (j + (p : ℤ) - 1 + 1) := by
    rw [abs_mul, abs_of_pos h2]
    have e1 : (2 : ℚ) ^ (j + (p : ℤ) - 1 + 1) = (2 : ℚ) ^ p * (2 : ℚ) ^ j := by
      rw [← zpow_natCast, ← zpow_add₀ (by norm_num)]
      congr 1
      ring
    rw [e1]
    apply mul_lt_mul_of_pos_right _ h2
    have : ((|n| : ℤ) : ℚ) < ((2 ^ p : ℤ) : ℚ) := Int.cast_lt.mpr hn
    push_cast at this
    exact this
  have hexp := exponent_le_of_abs_lt emin _ (j + (p : ℤ) - 1) hv habs (by omega)
  obtain ⟨k, hk⟩ := Int.eq_ofNat_of_zero_le
    (show 0 ≤ j + (p : ℤ) - 1 - exponent emin ((n : ℚ) * (2 : ℚ) ^ j) by omega)
  apply roundBinary_of_div_quantum_eq p emin _ (n * 2 ^ k)
  unfold quantum
  rw [mul_div_assoc, ← zpow_sub₀ (by norm_num)]
  have e2 : j - (exponent emin ((n : ℚ) * (2 : ℚ) ^ j) - ((p : ℤ) - 1)) = (k : ℤ) := by
    rw [← hk]
    ring
  rw [e2, zpow_natCast]
  push_cast
  rfl

/-- The rounding produces a value of the format. -/
theorem roundBinary_representable (p : ℕ) (hp : 1 ≤ p) (emin : ℤ) (x : ℚ) :
    Representable p emin (roundBinary p emin x) := by
  have hup := roundHalfEven_div_quantum_le p emin x
  have hlo := neg_le_roundHalfEven_div_quantum p emin x
  have hj := emin_le_exponent emin x
  have hpow : (2 : ℤ) ^ p = 2 * (2 : ℤ) ^ (p - 1) := by
    rw [← pow_succ']
    congr 1
    omega
  have hpos : (0 : ℤ) < (2 : ℤ) ^ (p - 1) := by positivity
  by_cases hlt : |roundHalfEven (x / quantum p emin x)| < (2 : ℤ) ^ p
  · exact ⟨roundHalfEven (x / quantum p emin x), exponent emin x - ((p : ℤ) - 1), rfl, hlt,
      by omega⟩
  · have habs : |roundHalfEven (x / quantum p emin x)| = (2 : ℤ) ^ p :=
      le_antisymm (abs_le.mpr ⟨hlo, hup⟩) (not_lt.mp hlt)
    have hq : quantum p emin x * 2 = (2 : ℚ) ^ (exponent emin x - ((p : ℤ) - 1) + 1) := by
      unfold quantum
      rw [zpow_add_one₀ (by norm_num)]
    rcases abs_eq (by positivity : (0 : ℤ) ≤ (2 : ℤ) ^ p) |>.mp habs with h | h
    · refine ⟨(2 : ℤ) ^ (p - 1), exponent emin x - ((p : ℤ) - 1) + 1, ?_, ?_, by omega⟩
      · unfold roundBinary
        rw [h, ← hq, hpow]
        push_cast
        ring
      · rw [abs_of_pos hpos]
        omega
    · refine ⟨-(2 : ℤ) ^ (p - 1), exponent emin x - ((p : ℤ) - 1) + 1, ?_, ?_, by omega⟩
      · unfold roundBinary
        rw [h, ← hq, hpow]
        push_cast
        ring
      · rw [abs_neg, abs_of_pos hpos]
        omega

theorem Representable.widen {p q : ℕ} {emin fmin : ℤ} {v : ℚ} (h : Representable p emin v)
    (hpq : p ≤ q) (hmin : fmin - ((q : ℤ) - 1) ≤ emin - ((p : ℤ) - 1)) :
    Representable q fmin v := by
  obtain ⟨n, j, hv, hn, hj⟩ := h
  refine ⟨n, j, hv, lt_of_lt_of_le hn ?_, by omega⟩
  exact pow_le_pow_right₀ (by norm_num) hpq

theorem roundBinary_idem (p : ℕ) (hp : 1 ≤ p) (emin : ℤ) (x : ℚ) :
    roundBinary p emin (roundBinary p emin x) = roundBinary p emin x :=
  roundBinary_of_representable p emin _ (roundBinary_representable p hp emin x)

/-- Evaluation of the rounding at a number whose binade and nearest multiple of the
quantum are known. -/
theorem roundBinary_of_near (p : ℕ) (emin : ℤ) (x : ℚ) (e n : ℤ) (he : emin ≤ e)
    (h1 : (2 : ℚ) ^ e ≤ |x|) (h2 : |x| < (2 : ℚ) ^ (e + 1))
    (hn : |x / (2 : ℚ) ^ (e - ((p : ℤ) - 1)) - n| < 1 / 2) :
    roundBinary p emin x = (n : ℚ) * (2 : ℚ) ^ (e - ((p : ℤ) - 1)) := by
  have hexp := exponent_eq emin x e h1 h2 he
  unfold roundBinary quantum
  rw [hexp, roundHalfEven_of_abs_sub_lt _ n hn]

theorem toFloat64_mono {x y : ℚ} (h : x ≤ y) : toFloat64 x ≤ toFloat64 y :=
  roundBinary_mono 53 (by norm_num) (-1022) h

theorem toFloat32_mono {x y : ℚ} (h : x ≤ y) : toFloat32 x ≤ toFloat32 y :=
  roundBinary_mono 24 (by norm_num) (-126) h

theorem storeFloat32_mono {x y : ℚ} (h : x ≤ y) : storeFloat32 x ≤ storeFloat32 y :=
  toFloat32_mono (toFloat64_mono h)

theorem toFloat64_of_representable (v : ℚ) (h : Representable 53 (-1022) v) :
    toFloat64 v = v :=
  roundBinary_of_representable 53 (-1022) v h

theorem storeFloat32_of_representable (v : ℚ) (h : Representable 24 (-126) v) :
    storeFloat32 v = v := by
  unfold storeFloat32
  rw [toFloat64_of_representable v (h.widen (by norm_num) (by norm_num))]
  exact roundBinary_of_representable 24 (-126) v h

theorem storeFloat32_representable (x : ℚ) : Representable 24 (-126) (storeFloat32 x) :=
  roundBinary_representable 24 (by norm_num) (-126) _

theorem storeFloat32_idem (x : ℚ) : storeFloat32 (storeFloat32 x) = storeFloat32 x :=
  storeFloat32_of_representable _ (storeFloat32_representable x)

theorem toFloat64_idem (x : ℚ) : toFloat64 (toFloat64 x) = toFloat64 x :=
  roundBinary_idem 53 (by norm_num) (-1022) x

theorem representable_zero (p : ℕ) (emin : ℤ) : Representable p emin 0 :=
  ⟨0, emin - ((p : ℤ) - 1), by simp, by positivity, le_refl _⟩

theorem representable_one : Representable 24 (-126) 1 :=
  ⟨1, 0, by norm_num, by norm_num, by norm_num⟩

theorem storeFloat32_zero : storeFloat32 0 = 0 :=
  storeFloat32_of_representable 0 (representable_zero 24 (-126))

theorem storeFloat32_one : storeFloat32 1 = 1 :=
  storeFloat32_of_representable 1 representable_one

/-- The sum `0.5 + 2^-26` is a double; stored in a `Float32Array` it becomes `0.5`. -/
theorem storeFloat32_half_plus : storeFloat32 (1 / 2 + 1 / 67108864) = 1 / 2 := by
  unfold storeFloat32
  rw [toFloat64_of_representable _ ⟨33554433, -26, by norm_num, by norm_num, by norm_num⟩]
  unfold toFloat32
  rw [roundBinary_of_near 24 (-126) _ (-1) 8388608 (by norm_num) (by norm_num [abs_of_pos])
    (by norm_num [abs_of_pos]) (by norm_num [abs_of_pos])]
  norm_num

/-- The double written `0.1` is `3602879701896397 / 2^55`; stored in a `Float32Array` it
becomes `13421773 / 2^27`, which prints as 0.10000000149011612. -/
theorem storeFloat32_tenth :
    storeFloat32 (3602879701896397 / 36028797018963968) = 13421773 / 134217728 := by
  unfold storeFloat32
  rw [toFloat64_of_representable _
    ⟨3602879701896397, -55, by norm_num, by norm_num, by norm_num⟩]
  unfold toFloat32
  rw [roundBinary_of_near 24 (-126) _ (-4) 13421773 (by norm_num) (by norm_num [abs_of_pos])
    (by norm_num [abs_of_pos]) (by norm_num [abs_of_pos])]
  norm_num

theorem Representable.exists_int {p : ℕ} {emin : ℤ} {v : ℚ} (h : Representable p emin v) :
    ∃ m : ℤ, v = (m : ℚ) * (2 : ℚ) ^ (emin - ((p : ℤ) - 1)) := by
  obtain ⟨n, j, rfl, _, hj⟩ := h
  obtain ⟨k, hk⟩ := Int.eq_ofNat_of_zero_le (show 0 ≤ j - (emin - ((p : ℤ) - 1)) by omega)
  refine ⟨n * 2 ^ k, ?_⟩
  have e1 : (2 : ℚ) ^ j = (2 : ℚ) ^ (k : ℤ) * (2 : ℚ) ^ (emin - ((p : ℤ) - 1)) := by
    rw [← zpow_add₀ (by norm_num)]
    congr 1
    omega
  rw [e1, zpow_natCast]
  push_cast
  ring

theorem one_lt_two_pow (p : ℕ) (hp : 1 ≤ p) : (1 : ℤ) < 2 ^ p := by
  have h := pow_le_pow_right₀ (by norm_num : (1 : ℤ) ≤ 2) hp
  rw [pow_one] at h
  linarith

theorem representable_quantum (p : ℕ) (hp : 1 ≤ p) (emin : ℤ) :
    Representable p emin ((2 : ℚ) ^ (emin - ((p : ℤ) - 1))) :=
  ⟨1, emin - ((p : ℤ) - 1), by simp, by rw [abs_one]; exact one_lt_two_pow p hp, le_refl _⟩

theorem representable_neg_quantum (p : ℕ) (hp : 1 ≤ p) (emin : ℤ) :
    Representable p emin (-(2 : ℚ) ^ (emin - ((p : ℤ) - 1))) :=
  ⟨-1, emin - ((p : ℤ) - 1), by simp,
    by rw [abs_neg, abs_one]; exact one_lt_two_pow p hp, le_refl _⟩

/-- The rounded difference of two values of the format has the sign of the exact
difference: distinct values differ by at least the subnormal spacing. -/
theorem roundBinary_sub_pos (p : ℕ) (hp : 1 ≤ p) (emin : ℤ) (a b : ℚ)
    (ha : Representable p emin a) (hb : Representable p emin b) (h : b < a) :
    0 < roundBinary p emin (a - b) := by
  obtain ⟨ma, rfl⟩ := ha.exists_int
  obtain ⟨mb, rfl⟩ := hb.exists_int
  have hqpos : (0 : ℚ) < (2 : ℚ) ^ (emin - ((p : ℤ) - 1)) := zpow_pos (by norm_num) _
  have hm : mb < ma := by
    have h3 := (mul_lt_mul_right hqpos).mp h
    exact_mod_cast h3
  have hm1 : (1 : ℚ) ≤ (ma : ℚ) - (mb : ℚ) := by
    have h4 : (1 : ℤ) ≤ ma - mb := by omega
    exact_mod_cast h4
  have h1 : (2 : ℚ) ^ (emin - ((p : ℤ) - 1))
      ≤ (ma : ℚ) * (2 : ℚ) ^ (emin - ((p : ℤ) - 1))
        - (mb : ℚ) * (2 : ℚ) ^ (emin - ((p : ℤ) - 1)) := by
    nlinarith
  calc (0 : ℚ) < (2 : ℚ) ^ (emin - ((p : ℤ) - 1)) := hqpos
    _ = roundBinary p emin ((2 : ℚ) ^ (emin - ((p : ℤ) - 1))) :=
        (roundBinary_of_representable p emin _ (representable_quantum p hp emin)).symm
    _ ≤ _ := roundBinary_mono p hp emin h1

theorem roundBinary_sub_neg (p : ℕ) (hp : 1 ≤ p) (emin : ℤ) (a b : ℚ)
    (ha : Representable p emin a) (hb : Representable p emin b) (h : a < b) :
    roundBinary p emin (a - b) < 0 := by
  obtain ⟨ma, rfl⟩ := ha.exists_int
  obtain ⟨mb, rfl⟩ := hb.exists_int
  have hqpos : (0 : ℚ) < (2 : ℚ) ^ (emin - ((p : ℤ) - 1)) := zpow_pos (by norm_num) _
  have hm : ma < mb := by
    have h3 := (mul_lt_mul_right hqpos).mp h
    exact_mod_cast h3
  have hm1 : (1 : ℚ) ≤ (mb : ℚ) - (ma : ℚ) := by
    have h4 : (1 : ℤ) ≤ mb - ma := by omega
    exact_mod_cast h4
  have h1 : (ma : ℚ) * (2 : ℚ) ^ (emin - ((p : ℤ) - 1))
        - (mb : ℚ) * (2 : ℚ) ^ (emin - ((p : ℤ) - 1))
      ≤ -(2 : ℚ) ^ (emin - ((p : ℤ) - 1)) := by
    nlinarith
  calc roundBinary p emin ((ma : ℚ) * (2 : ℚ) ^ (emin - ((p : ℤ) - 1))
        - (mb : ℚ) * (2 : ℚ) ^ (emin - ((p : ℤ) - 1)))
      ≤ roundBinary p emin (-(2 : ℚ) ^ (emin - ((p : ℤ) - 1))) :=
        roundBinary_mono p hp emin h1
    _ = -(2 : ℚ) ^ (emin - ((p : ℤ) - 1)) :=
        roundBinary_of_representable p emin _ (representable_neg_quantum p hp emin)
    _ < 0 := by linarith

theorem representable_of_toFloat64_eq (a : ℚ) (h : toFloat64 a = a) :
    Representable 53 (-1022) a := by
  rw [← h]
  exact roundBinary_representable 53 (by norm_num) (-1022) a

/-- The double difference of two doubles is positive exactly as the exact one is. -/
theorem toFloat64_sub_pos (a b : ℚ) (ha : toFloat64 a = a) (hb : toFloat64 b = b)
    (h : b < a) : 0 < toFloat64 (a - b) :=
  roundBinary_sub_pos 53 (by norm_num) (-1022) a b (representable_of_toFloat64_eq a ha)
    (representable_of_toFloat64_eq b hb) h

theorem toFloat64_sub_neg (a b : ℚ) (ha : toFloat64 a = a) (hb : toFloat64 b = b)
    (h : a < b) : toFloat64 (a - b) < 0 :=
  roundBinary_sub_neg 53 (by norm_num) (-1022) a b (representable_of_toFloat64_eq a ha)
    (representable_of_toFloat64_eq b hb) h

theorem toFloat64_zero : toFloat64 0 = 0 :=
  roundBinary_zero 53 (-1022)

theorem toFloat64_one : toFloat64 1 = 1 :=
  toFloat64_of_representable 1 ⟨1, 0, by norm_num, by norm_num, by norm_num⟩

theorem toFloat64_half : toFloat64 (1 / 2) = 1 / 2 :=
  toFloat64_of_representable _ ⟨1, -1, by norm_num, by norm_num, by norm_num⟩

theorem toFloat64_nonneg (x : ℚ) (h : 0 ≤ x) : 0 ≤ toFloat64 x :=
  roundBinary_nonneg 53 (-1022) x h

theorem toFloat64_nonpos (x : ℚ) (h : x ≤ 0) : toFloat64 x ≤ 0 :=
  roundBinary_nonpos 53 (-1022) x h

/-- An increment of at most `2^-55` is absorbed by the double sum with one half. -/
theorem toFloat64_half_add (d : ℚ) (h0 : 0 ≤ d) (h1 : d ≤ 1 / 36028797018963968) :
    toFloat64 (1 / 2 + d) = 1 / 2 := by
  apply le_antisymm
  · have h2 : toFloat64 (1 / 2 + 1 / 36028797018963968) = 1 / 2 := by
      unfold toFloat64
      rw [roundBinary_of_near 53 (-1022) _ (-1) 4503599627370496 (by norm_num)
        (by norm_num [abs_of_pos]) (by norm_num [abs_of_pos]) (by norm_num [abs_of_pos])]
      norm_num
    calc toFloat64 (1 / 2 + d) ≤ toFloat64 (1 / 2 + 1 / 36028797018963968) :=
          toFloat64_mono (by linarith)
      _ = 1 / 2 := h2
  · calc (1 / 2 : ℚ) = toFloat64 (1 / 2) := toFloat64_half.symm
      _ ≤ toFloat64 (1 / 2 + d) := toFloat64_mono (by linarith)

/-- A double product or sum of at least `2^-7` stays at least `2^-7`. -/
theorem toFloat64_ge (x : ℚ) (h : 1 / 128 ≤ x) : 1 / 128 ≤ toFloat64 x := by
  have h1 : toFloat64 (1 / 128) = 1 / 128 :=
    toFloat64_of_representable _ ⟨1, -7, by norm_num, by norm_num, by norm_num⟩
  calc (1 / 128 : ℚ) = toFloat64 (1 / 128) := h1.symm
    _ ≤ toFloat64 x := toFloat64_mono h

theorem toFloat64_le (x : ℚ) (h : x ≤ 1 / 36028797018963968) :
    toFloat64 x ≤ 1 / 36028797018963968 := by
  have h1 : toFloat64 (1 / 36028797018963968) = 1 / 36028797018963968 :=
    toFloat64_of_representable _ ⟨1, -55, by norm_num, by norm_num, by norm_num⟩
  calc toFloat64 x ≤ toFloat64 (1 / 36028797018963968) := toFloat64_mono h
    _ = 1 / 36028797018963968 := h1

/-- The sum of the single-precision value nearest to 0.1 and the double 0.1 is a double;
stored in a `Float32Array` it becomes `13421773 / 2^26`, which prints as
0.20000000298023224. -/
theorem storeFloat32_fifth :
    storeFloat32 (7205759457479885 / 36028797018963968) = 13421773 / 67108864 := by
  unfold storeFloat32
  rw [toFloat64_of_representable _
    ⟨7205759457479885, -55, by norm_num, by norm_num, by norm_num⟩]
  unfold toFloat32
  rw [roundBinary_of_near 24 (-126) _ (-3) 13421773 (by norm_num) (by norm_num [abs_of_pos])
    (by norm_num [abs_of_pos]) (by norm_num [abs_of_pos])]
  norm_num

/-- The sum `1 + 13421773 / 2^26` is a double; stored in a `Float32Array` it becomes
`5033165 / 2^22`, which prints as 1.2000000476837158. -/
theorem storeFloat32_one_fifth :
    storeFloat32 (80530637 / 67108864) = 5033165 / 4194304 := by
  unfold storeFloat32
  rw [toFloat64_of_representable _ ⟨80530637, -26, by norm_num, by norm_num, by norm_num⟩]
  unfold toFloat32
  rw [roundBinary_of_near 24 (-126) _ 0 10066330 (by norm_num) (by norm_num [abs_of_pos])
    (by norm_num [abs_of_pos]) (by norm_num [abs_of_pos])]
  norm_num

end Rounding

/-! ## The layered network: the transmission phase and the threshold bound -/

namespace Layered

theorem receiveSpike_withoutPotential (n : Neuron) (w : ℚ) (t : Option ℚ) :
    (n.receiveSpike w t).withoutPotential = n.withoutPotential := rfl

theorem drain_withoutPotential (syn : Synapse) (t : ℚ) (acc : List ℚ × List Neuron) (x : ℚ) :
    (syn.drain t acc x).2.map Neuron.withoutPotential = acc.2.map Neuron.withoutPotential := by
  unfold Synapse.drain
  split_ifs
  · exact map_modify_of_invariant _ _ (fun n => receiveSpike_withoutPotential n _ _) _ _
  · rfl

theorem foldl_drain_withoutPotential (syn : Synapse) (t : ℚ) (q : List ℚ) :
    ∀ acc : List ℚ × List Neuron,
      (q.foldl (syn.drain t) acc).2.map Neuron.withoutPotential
        = acc.2.map Neuron.withoutPotential := by
  induction q with
  | nil => intro acc; rfl
  | cons x q ih => intro acc; rw [List.foldl_cons, ih, drain_withoutPotential]

/-- The method `transmitSpike` changes nothing but potentials in the neuron list. -/
theorem transmitSpike_withoutPotential (syn : Synapse) (ns : List Neuron) (t dt : ℚ) :
    (syn.transmitSpike ns t dt).2.map Neuron.withoutPotential
      = ns.map Neuron.withoutPotential := by
  simp only [Synapse.transmitSpike]
  exact foldl_drain_withoutPotential syn t syn.spikeQueue ([], ns)

/-- The transmission phase changes nothing but potentials in the neuron list. -/
theorem transmitAll_withoutPotential (t dt : ℚ) (syns : List Synapse) :
    ∀ ns : List Neuron,
      (transmitAll t dt syns ns).2.map Neuron.withoutPotential
        = ns.map Neuron.withoutPotential := by
  induction syns with
  | nil => intro ns; rfl
  | cons syn rest ih =>
    intro ns
    simp only [transmitAll]
    rw [ih, transmitSpike_withoutPotential]

/-- Every neuron after the transmission phase is a neuron from before it, up to its
potential. -/
theorem mem_transmitAll_neurons (t dt : ℚ) (syns : List Synapse) (ns : List Neuron)
    (m : Neuron) (hm : m ∈ (transmitAll t dt syns ns).2) :
    ∃ n ∈ ns, n.withoutPotential = m.withoutPotential := by
  have h1 : m.withoutPotential ∈ (transmitAll t dt syns ns).2.map Neuron.withoutPotential :=
    List.mem_map_of_mem _ hm
  rw [transmitAll_withoutPotential, List.mem_map] at h1
  exact h1

theorem adaptedThreshold_bounds (n : Neuron) (h : 0 ≤ n.baseThreshold) :
    n.baseThreshold * (1 / 2) ≤ n.adaptedThreshold ∧
      n.adaptedThreshold ≤ n.baseThreshold * (3 / 2) := by
  unfold Neuron.adaptedThreshold
  refine ⟨le_max_left _ _, max_le ?_ (min_le_right _ _)⟩
  linarith

theorem update_threshold (n : Neuron) (t dt : ℚ) :
    (n.update t dt).1.threshold = n.adaptedThreshold ∧
      (n.update t dt).1.baseThreshold = n.baseThreshold := by
  simp only [Neuron.update]
  split_ifs <;> exact ⟨rfl, rfl⟩

/-- C5: for every neuron state with `baseThreshold ≥ 0`, after `Neuron.update` the
threshold lies in `[0.5·baseThreshold, 1.5·baseThreshold]` and `baseThreshold` is
unchanged; hence in a network whose neurons all have `baseThreshold ≥ 0`, after
`SNN.update` every neuron has its threshold within these bounds (and still
`baseThreshold ≥ 0`, so the bound holds after every later tick too). -/
theorem C5_threshold_bounds (exp : ℚ → ℚ) (n : Neuron) (s : SNN) (t dt : ℚ)
    (hn : 0 ≤ n.baseThreshold) (hs : ∀ m ∈ s.neurons, 0 ≤ m.baseThreshold) :
    ((n.update t dt).1.baseThreshold = n.baseThreshold ∧
      n.baseThreshold * (1 / 2) ≤ (n.update t dt).1.threshold ∧
      (n.update t dt).1.threshold ≤ n.baseThreshold * (3 / 2)) ∧
    (∀ m ∈ (s.update exp t dt).1.neurons,
      0 ≤ m.baseThreshold ∧ m.baseThreshold * (1 / 2) ≤ m.threshold ∧
        m.threshold ≤ m.baseThreshold * (3 / 2)) := by
  constructor
  · rw [(update_threshold n t dt).1, (update_threshold n t dt).2]
    exact ⟨rfl, adaptedThreshold_bounds n hn⟩
  · intro m hm
    simp only [SNN.update, List.mem_map] at hm
    obtain ⟨n1, hn1, rfl⟩ := hm
    obtain ⟨n0, hn0, he⟩ := mem_transmitAll_neurons t dt s.synapses s.neurons n1 hn1
    have hb : n1.baseThreshold = n0.baseThreshold := by
      have := congrArg Neuron.baseThreshold he
      exact this.symm
    have h0 : 0 ≤ n1.baseThreshold := hb ▸ hs n0 hn0
    rw [(update_threshold n1 t dt).1, (update_threshold n1 t dt).2]
    exact ⟨h0, adaptedThreshold_bounds n1 h0⟩

/-- Witness of C5 on a default neuron and the two-neuron sample network. -/
theorem C5_threshold_bounds_witness :
    0 ≤ (Neuron.newDefault "Input_0").baseThreshold ∧
    (∀ m ∈ sampleNet.neurons, 0 ≤ m.baseThreshold) ∧
    (∀ m ∈ (sampleNet.update (fun _ => 1) 0 1).1.neurons,
      0 ≤ m.baseThreshold ∧ m.baseThreshold * (1 / 2) ≤ m.threshold ∧
        m.threshold ≤ m.baseThreshold * (3 / 2)) :=
  have h1 : 0 ≤ (Neuron.newDefault "Input_0").baseThreshold := by
    norm_num [Neuron.newDefault, Neuron.new]
  have h2 : ∀ m ∈ sampleNet.neurons, 0 ≤ m.baseThreshold := by
    intro m hm
    simp only [sampleNet, List.mem_cons, List.mem_singleton, List.not_mem_nil, or_false] at hm
    rcases hm with rfl | rfl <;> norm_num [Neuron.newDefault, Neuron.new]
  ⟨h1, h2,
    (C5_threshold_bounds (fun _ => 1) (Neuron.newDefault "Input_0") sampleNet 0 1 h1 h2).2⟩

end Layered

/-! ## The dense engine: the Hebbian phase -/

theorem foldl_range_modify_getElem? {α : Type} (c : ℕ → Bool) (f : α → α) (w0 : List α)
    (n i : ℕ) :
    ((List.range n).foldl (fun w k => if c k = true then w.modify f k else w) w0)[i]?
      = if i < n ∧ c i = true then w0[i]?.map f else w0[i]? := by
  induction n with
  | zero => simp
  | succ n ih =>
    rw [List.range_succ, List.foldl_append]
    simp only [List.foldl_cons, List.foldl_nil]
    by_cases hc : c n = true
    · rw [if_pos hc, List.getElem?_modify, ih]
      by_cases hni : n = i
      · subst hni
        simp [hc]
      · have h1 : (i < n + 1 ∧ c i = true) ↔ (i < n ∧ c i = true) := by
          constructor
          · rintro ⟨h, h2⟩; exact ⟨by omega, h2⟩
          · rintro ⟨h, h2⟩; exact ⟨by omega, h2⟩
        simp only [hni, if_false, h1]
        cases (if i < n ∧ c i = true then Option.map f w0[i]? else w0[i]?) <;> rfl
    · rw [if_neg hc, ih]
      by_cases hni : n = i
      · subst hni
        simp [hc]
      · have h1 : (i < n + 1 ∧ c i = true) ↔ (i < n ∧ c i = true) := by
          constructor
          · rintro ⟨h, h2⟩; exact ⟨by omega, h2⟩
          · rintro ⟨h, h2⟩; exact ⟨by omega, h2⟩
        simp only [h1]

theorem foldl_modify_forall {α : Type} (P : α → Prop) (c : ℕ → Bool) (f : α → α)
    (h : ∀ x, P x → P (f x)) (l : List ℕ) :
    ∀ w0 : List α, (∀ x ∈ w0, P x) →
      ∀ x ∈ l.foldl (fun w k => if c k = true then w.modify f k else w) w0, P x := by
  induction l with
  | nil => intro w0 h0; exact h0
  | cons k l ih =>
    intro w0 h0
    rw [List.foldl_cons]
    apply ih
    split_ifs
    · exact forall_mem_modify P f h w0 k h0
    · exact h0

namespace Dense

theorem bump_eq_min (eta w : ℚ) : bump eta w = min (w + eta) 1 := by
  unfold bump
  by_cases h : w + eta > 1
  · simp only [h, if_true]
    exact (min_eq_right (le_of_lt h)).symm
  · simp only [h, if_false]
    exact (min_eq_left (not_lt.mp h)).symm

theorem bump_le_one (eta w : ℚ) : bump eta w ≤ 1 := by
  rw [bump_eq_min]
  exact min_le_right _ _

/-- Pointwise description of the Hebbian loop. -/
theorem hebbian_getElem? (net : OptimizedNetwork) (spikes : List ℕ) (i : ℕ) :
    (hebbian net spikes)[i]?
      = if i < net.numSynapses ∧
            (spikeSet spikes net.pre[i]? && spikeSet spikes net.post[i]?) = true
        then net.weights[i]?.map (bump net.eta) else net.weights[i]? :=
  foldl_range_modify_getElem?
    (fun k => spikeSet spikes net.pre[k]? && spikeSet spikes net.post[k]?)
    (bump net.eta) net.weights net.numSynapses i

theorem hebbian_le_one (net : OptimizedNetwork) (spikes : List ℕ)
    (h : ∀ w ∈ net.weights, w ≤ 1) : ∀ w ∈ hebbian net spikes, w ≤ 1 :=
  foldl_modify_forall (fun w => w ≤ 1)
    (fun k => spikeSet spikes net.pre[k]? && spikeSet spikes net.post[k]?)
    (bump net.eta) (fun x _ => bump_le_one net.eta x) (List.range net.numSynapses)
    net.weights h

theorem step_le_one (net : OptimizedNetwork) (inputNeurons : List ℕ)
    (h : ∀ w ∈ net.weights, w ≤ 1) : ∀ w ∈ (net.step inputNeurons).weights, w ≤ 1 :=
  hebbian_le_one net _ h

theorem run_le_one (inputs : List (List ℕ)) :
    ∀ net : OptimizedNetwork, (∀ w ∈ net.weights, w ≤ 1) →
      ∀ w ∈ (net.run inputs).weights, w ≤ 1 := by
  induction inputs with
  | nil => intro net h; exact h
  | cons x xs ih =>
    intro net h
    exact ih (net.step x) (step_le_one net x h)

/-- Every weight drawn by the constructor is the value of one call of `Math.random`. -/
theorem drawSynapses_weights (rand : ℕ → ℚ) (numNeurons fuel : ℕ) (n : ℕ) :
    ∀ (k : ℕ) (pre post : List ℕ) (ws : List ℚ),
      drawSynapses rand numNeurons fuel n k = some (pre, post, ws) →
        ∀ w ∈ ws, ∃ j, w = rand j := by
  induction n with
  | zero =>
    intro k pre post ws h w hw
    simp only [drawSynapses, Option.some.injEq, Prod.mk.injEq] at h
    obtain ⟨_, _, rfl⟩ := h
    simp at hw
  | succ n ih =>
    intro k pre post ws h w hw
    simp only [drawSynapses] at h
    cases hp : drawPair rand numNeurons fuel k with
    | none => simp [hp] at h
    | some r =>
      obtain ⟨preIdx, postIdx, k1⟩ := r
      simp only [hp] at h
      cases hd : drawSynapses rand numNeurons fuel n (k1 + 1) with
      | none => simp [hd] at h
      | some r2 =>
        obtain ⟨pre2, post2, ws2⟩ := r2
        simp only [hd, Option.some.injEq, Prod.mk.injEq] at h
        obtain ⟨_, _, rfl⟩ := h
        simp only [List.mem_cons] at hw
        rcases hw with rfl | hw
        · exact ⟨k1, rfl⟩
        · exact ih (k1 + 1) pre2 post2 ws2 hd w hw

theorem new_weights (rand : ℕ → ℚ) (fuel numNeurons numSynapses : ℕ) (eta : ℚ)
    (net : OptimizedNetwork)
    (h : OptimizedNetwork.new rand fuel numNeurons numSynapses eta = some net) :
    ∀ w ∈ net.weights, ∃ j, w = rand j := by
  unfold OptimizedNetwork.new at h
  cases hd : drawSynapses rand numNeurons fuel numSynapses 0 with
  | none => simp [hd] at h
  | some r =>
    obtain ⟨pre, post, ws⟩ := r
    simp only [hd, Option.some.injEq] at h
    subst h
    exact drawSynapses_weights rand numNeurons fuel numSynapses 0 pre post ws hd

theorem new_sampleRand : OptimizedNetwork.new sampleRand 1 2 1 (1 / 10) = some drawnNet := by
  norm_num [OptimizedNetwork.new, drawSynapses, drawPair, sampleRand, toUint32, drawnNet,
    List.replicate]

/-- C6: in the dense engine, for any `eta` and any `inputNeurons`, if every weight is at
most 1 before `OptimizedNetwork.step` then every weight is at most 1 after it, and
likewise after any sequence of steps; a network returned by the constructor, with
`Math.random` in `[0, 1)`, has its weights in `[0, 1)` and hence at most 1 after any
sequence of steps. -/
theorem C6_dense_weight_le_one (net : OptimizedNetwork) (inputNeurons : List ℕ)
    (inputs : List (List ℕ)) (rand : ℕ → ℚ) (fuel numNeurons numSynapses : ℕ) (eta : ℚ)
    (net0 : OptimizedNetwork)
    (h : ∀ w ∈ net.weights, w ≤ 1)
    (hr : ∀ k, 0 ≤ rand k ∧ rand k < 1)
    (hnew : OptimizedNetwork.new rand fuel numNeurons numSynapses eta = some net0) :
    (∀ w ∈ (net.step inputNeurons).weights, w ≤ 1) ∧
    (∀ w ∈ (net.run inputs).weights, w ≤ 1) ∧
    (∀ w ∈ net0.weights, 0 ≤ w ∧ w < 1) ∧
    (∀ w ∈ (net0.run inputs).weights, w ≤ 1) := by
  have h0 : ∀ w ∈ net0.weights, 0 ≤ w ∧ w < 1 := by
    intro w hw
    obtain ⟨j, rfl⟩ := new_weights rand fuel numNeurons numSynapses eta net0 hnew w hw
    exact hr j
  exact ⟨step_le_one net inputNeurons h, run_le_one inputs net h, h0,
    run_le_one inputs net0 (fun w hw => le_of_lt (h0 w hw).2)⟩

/-- Witness of C6 on the saturated sample state and on the network drawn with
`sampleRand`. -/
theorem C6_dense_weight_le_one_witness :
    (∀ w ∈ saturatedNet.weights, w ≤ 1) ∧
    (∀ k, 0 ≤ sampleRand k ∧ sampleRand k < 1) ∧
    OptimizedNetwork.new sampleRand 1 2 1 (1 / 10) = some drawnNet ∧
    (∀ w ∈ (saturatedNet.step [0]).weights, w ≤ 1) ∧
    (∀ w ∈ (drawnNet.run [[0], [0, 1]]).weights, w ≤ 1) :=
  have h1 : ∀ w ∈ saturatedNet.weights, w ≤ 1 := by
    intro w hw
    simp only [saturatedNet, List.mem_singleton] at hw
    rw [hw]
  have h2 : ∀ k, 0 ≤ sampleRand k ∧ sampleRand k < 1 := by
    intro k
    unfold sampleRand
    split_ifs <;> norm_num
  have h3 := C6_dense_weight_le_one saturatedNet [0] [[0], [0, 1]] sampleRand 1 2 1 (1 / 10)
    drawnNet h1 h2 new_sampleRand
  ⟨h1, h2, new_sampleRand, h3.1, h3.2.2.2⟩

theorem bumpFloat32_eq_min (eta w : ℚ) :
    bumpFloat32 eta w = min (Rounding.storeFloat32 (w + eta)) 1 := by
  unfold bumpFloat32
  by_cases h : Rounding.storeFloat32 (w + eta) > 1
  · simp only [h, if_true]
    exact (min_eq_right (le_of_lt h)).symm
  · simp only [h, if_false]
    exact (min_eq_left (not_lt.mp h)).symm

theorem bumpFloat32_le_one (eta w : ℚ) : bumpFloat32 eta w ≤ 1 := by
  rw [bumpFloat32_eq_min]
  exact min_le_right _ _

/-- Pointwise description of the Hebbian loop with single-precision stores. -/
theorem hebbianFloat32_getElem? (net : OptimizedNetwork) (spikes : List ℕ) (i : ℕ) :
    (hebbianFloat32 net spikes)[i]?
      = if i < net.numSynapses ∧
            (spikeSet spikes net.pre[i]? && spikeSet spikes net.post[i]?) = true
        then net.weights[i]?.map (bumpFloat32 net.eta) else net.weights[i]? :=
  foldl_range_modify_getElem?
    (fun k => spikeSet spikes net.pre[k]? && spikeSet spikes net.post[k]?)
    (bumpFloat32 net.eta) net.weights net.numSynapses i

/-- The weight of synapse `i` after one step with single-precision stores. -/
theorem stepFloat32_weight (net : OptimizedNetwork) (inputNeurons : List ℕ) (i : ℕ)
    (hi : i < net.numSynapses) (w : ℚ) (hw : net.weights[i]? = some w) :
    (net.stepFloat32 inputNeurons).weights[i]?
      = some (if coincidesFloat32 net inputNeurons i = true then bumpFloat32 net.eta w
          else w) := by
  simp only [OptimizedNetwork.stepFloat32]
  rw [hebbianFloat32_getElem?, hw]
  by_cases hc : coincidesFloat32 net inputNeurons i = true
  · have hc2 := hc
    simp only [coincidesFloat32, OptimizedNetwork.stepFloat32] at hc2
    rw [if_pos ⟨hi, hc2⟩, if_pos hc, Option.map_some']
  · have hc2 := hc
    simp only [coincidesFloat32, OptimizedNetwork.stepFloat32] at hc2
    rw [if_neg (fun h => hc2 h.2), if_neg hc]

theorem saturatedNet_stepFloat32 :
    (saturatedNet.stepFloat32 []).spikes = [0, 0] ∧
      (saturatedNet.stepFloat32 []).weights = [1] := by
  have hs : (saturatedNet.stepFloat32 []).spikes = [0, 0] := by
    norm_num [OptimizedNetwork.stepFloat32, neuronPhase, neuronStep, transmitFloat32,
      injectFloat32, saturatedNet, List.range, List.range.loop, spikeSet, List.replicate]
  refine ⟨hs, ?_⟩
  simp only [OptimizedNetwork.stepFloat32]
  rw [show (neuronPhase saturatedNet
      (transmitFloat32 saturatedNet (injectFloat32 saturatedNet []))).2.1 = [0, 0] from hs]
  norm_num [hebbianFloat32, saturatedNet, List.range, List.range.loop, spikeSet]

theorem absorbingNet_stepFloat32 :
    (absorbingNet.stepFloat32 [0, 1]).spikes = [1, 1] ∧
      (absorbingNet.stepFloat32 [0, 1]).weights = [1 / 2] := by
  have hs : (absorbingNet.stepFloat32 [0, 1]).spikes = [1, 1] := by
    norm_num [OptimizedNetwork.stepFloat32, neuronPhase, neuronStep, transmitFloat32,
      injectFloat32, absorbingNet, List.range, List.range.loop, spikeSet, List.replicate,
      List.modify, Rounding.storeFloat32_one]
  refine ⟨hs, ?_⟩
  simp only [OptimizedNetwork.stepFloat32]
  rw [show (neuronPhase absorbingNet
      (transmitFloat32 absorbingNet (injectFloat32 absorbingNet [0, 1]))).2.1 = [1, 1] from hs]
  have hb : bumpFloat32 (1 / 67108864) (1 / 2) = 1 / 2 := by
    unfold bumpFloat32
    rw [Rounding.storeFloat32_half_plus]
    norm_num
  simp only [hebbianFloat32, absorbingNet, List.range, List.range.loop, spikeSet,
    List.foldl_cons, List.foldl_nil, List.getElem?_cons_zero, List.getD_cons_zero,
    List.getD_cons_succ, List.modify]
  norm_num
  exact hb

theorem tenthNet_stepFloat32_spikes : (tenthNet.stepFloat32 [0, 1]).spikes = [1, 1] := by
  norm_num [OptimizedNetwork.stepFloat32, neuronPhase, neuronStep, transmitFloat32,
    injectFloat32, tenthNet, List.range, List.range.loop, spikeSet, List.replicate,
    List.modify, Rounding.storeFloat32_one]

/-- C7 as stated fails, in both directions.  In the saturated sample state no neuron
spikes during the step, yet the weight afterwards, 1, equals
`min(old weight + eta, 1.0)`: the equation does not imply a coincidence.  In the state
`absorbingNet` (weight 0.5, `eta = 2^-26`) both neurons of the synapse spike in
`step([0, 1])`, yet the weight afterwards is still 0.5 and not `min(0.5 + 2^-26, 1.0)`:
the store into the `Float32Array` rounds the sum back to 0.5. -/
theorem C7_counterexample :
    ((saturatedNet.stepFloat32 []).weights[0]? = some (min (1 + saturatedNet.eta) 1) ∧
      saturatedNet.weights[0]? = some 1 ∧
      spikeSet (saturatedNet.stepFloat32 []).spikes saturatedNet.pre[0]? = false ∧
      spikeSet (saturatedNet.stepFloat32 []).spikes saturatedNet.post[0]? = false) ∧
    (spikeSet (absorbingNet.stepFloat32 [0, 1]).spikes absorbingNet.pre[0]? = true ∧
      spikeSet (absorbingNet.stepFloat32 [0, 1]).spikes absorbingNet.post[0]? = true ∧
      absorbingNet.weights[0]? = some (1 / 2) ∧
      (absorbingNet.stepFloat32 [0, 1]).weights[0]? = some (1 / 2) ∧
      (1 / 2 : ℚ) ≠ min (1 / 2 + absorbingNet.eta) 1) := by
  constructor
  · rw [saturatedNet_stepFloat32.1, saturatedNet_stepFloat32.2]
    norm_num [saturatedNet, spikeSet]
  · rw [absorbingNet_stepFloat32.1, absorbingNet_stepFloat32.2]
    norm_num [absorbingNet, spikeSet]

/-- C7 (amended): for every dense-engine state and every synapse `i`, one
`OptimizedNetwork.step` yields `weights[i] = min(fl(old_weights[i] + eta), 1.0)`, where
`fl` is the rounding of the store into the `Float32Array`, if both `spikes[pre[i]]` and
`spikes[post[i]]` are set by this step's neuron phase, and `weights[i] = old_weights[i]`
otherwise; so a weight that differs from its old value implies the coincidence. -/
theorem C7_dense_coincidence (net : OptimizedNetwork) (inputNeurons : List ℕ) (i : ℕ)
    (hi : i < net.numSynapses) :
    ((spikeSet (net.stepFloat32 inputNeurons).spikes net.pre[i]? = true ∧
        spikeSet (net.stepFloat32 inputNeurons).spikes net.post[i]? = true) →
      (net.stepFloat32 inputNeurons).weights[i]?
        = net.weights[i]?.map (fun w => min (Rounding.storeFloat32 (w + net.eta)) 1)) ∧
    (¬ (spikeSet (net.stepFloat32 inputNeurons).spikes net.pre[i]? = true ∧
        spikeSet (net.stepFloat32 inputNeurons).spikes net.post[i]? = true) →
      (net.stepFloat32 inputNeurons).weights[i]? = net.weights[i]?) ∧
    ((net.stepFloat32 inputNeurons).weights[i]? ≠ net.weights[i]? →
      (spikeSet (net.stepFloat32 inputNeurons).spikes net.pre[i]? = true ∧
        spikeSet (net.stepFloat32 inputNeurons).spikes net.post[i]? = true)) := by
  have key : (net.stepFloat32 inputNeurons).weights[i]?
      = if (spikeSet (net.stepFloat32 inputNeurons).spikes net.pre[i]? = true ∧
            spikeSet (net.stepFloat32 inputNeurons).spikes net.post[i]? = true)
        then net.weights[i]?.map (fun w => min (Rounding.storeFloat32 (w + net.eta)) 1)
        else net.weights[i]? := by
    have hb : bumpFloat32 net.eta = fun w => min (Rounding.storeFloat32 (w + net.eta)) 1 :=
      funext (bumpFloat32_eq_min net.eta)
    simp only [OptimizedNetwork.stepFloat32]
    rw [hebbianFloat32_getElem?, hb]
    simp only [hi, true_and, Bool.and_eq_true]
  refine ⟨fun hc => by rw [key, if_pos hc], fun hc => by rw [key, if_neg hc], fun hne => ?_⟩
  by_contra hc
  exact hne (by rw [key, if_neg hc])

/-- Witness of C7 (amended): in the network `new OptimizedNetwork(2, 1, 0.1)` with one
synapse 0 → 1 of weight 0, the step `step([0, 1])` makes both neurons of the synapse
spike, and the weight becomes the rounded sum. -/
theorem C7_dense_coincidence_witness :
    0 < tenthNet.numSynapses ∧
    (spikeSet (tenthNet.stepFloat32 [0, 1]).spikes tenthNet.pre[0]? = true ∧
      spikeSet (tenthNet.stepFloat32 [0, 1]).spikes tenthNet.post[0]? = true) ∧
    (tenthNet.stepFloat32 [0, 1]).weights[0]?
      = tenthNet.weights[0]?.map
          (fun w => min (Rounding.storeFloat32 (w + tenthNet.eta)) 1) :=
  have hc : spikeSet (tenthNet.stepFloat32 [0, 1]).spikes tenthNet.pre[0]? = true ∧
      spikeSet (tenthNet.stepFloat32 [0, 1]).spikes tenthNet.post[0]? = true := by
    rw [tenthNet_stepFloat32_spikes]
    exact ⟨by decide, by decide⟩
  ⟨by decide, hc, (C7_dense_coincidence tenthNet [0, 1] 0 (by decide)).1 hc⟩

end Dense

/-! ## The layered network: the sign of the STDP update -/

namespace Layered

/-- The weight after `stdpUpdate` in double arithmetic when only the pre neuron has
`spiked` set and the post neuron fired later. -/
theorem stdpUpdateFloat64_potentiate (exp : ℚ → ℚ) (syn : Synapse) (pre post : Neuron)
    (t dt t0 t1 : ℚ) (hpre : pre.spiked = true) (hpost : post.spiked = false)
    (h0 : pre.lastSpikeTime = .fin t0) (h1 : post.lastSpikeTime = .fin t1)
    (hd : 0 < Rounding.toFloat64 (t1 - t0)) :
    (syn.stdpUpdateFloat64 exp pre post t dt).weight
      = max (min (syn.potentiatedSum exp t0 t1) syn.maxWeight) syn.minWeight := by
  simp [Synapse.stdpUpdateFloat64, Synapse.potentiatedSum, hpre, hpost, h0, h1,
    SpikeTime.subFloat64, TimeDiff.isPos, TimeDiff.neg, expDivFloat64, hd]

/-- The weight after `stdpUpdate` in double arithmetic when only the post neuron has
`spiked` set and the post neuron fired earlier. -/
theorem stdpUpdateFloat64_depress (exp : ℚ → ℚ) (syn : Synapse) (pre post : Neuron)
    (t dt t0 t1 : ℚ) (hpre : pre.spiked = false) (hpost : post.spiked = true)
    (h0 : pre.lastSpikeTime = .fin t0) (h1 : post.lastSpikeTime = .fin t1)
    (hd : Rounding.toFloat64 (t1 - t0) < 0) :
    (syn.stdpUpdateFloat64 exp pre post t dt).weight
      = max (min (syn.depressedSum exp t0 t1) syn.maxWeight) syn.minWeight := by
  simp [Synapse.stdpUpdateFloat64, Synapse.depressedSum, hpre, hpost, h0, h1,
    SpikeTime.subFloat64, TimeDiff.isNeg, expDivFloat64, hd]

/-- The double sum of the potentiation branch is at least the weight. -/
theorem le_potentiatedSum (exp : ℚ → ℚ) (syn : Synapse) (t0 t1 : ℚ)
    (hexp : ∀ x, 0 ≤ exp x) (hw : Rounding.toFloat64 syn.weight = syn.weight)
    (hAp : 0 ≤ syn.A_plus) : syn.weight ≤ syn.potentiatedSum exp t0 t1 := by
  unfold Synapse.potentiatedSum
  have hd : 0 ≤ Rounding.toFloat64 (syn.A_plus
      * exp (Rounding.toFloat64 (-Rounding.toFloat64 (t1 - t0) / syn.tau_plus))) :=
    Rounding.toFloat64_nonneg _ (mul_nonneg hAp (hexp _))
  calc syn.weight = Rounding.toFloat64 syn.weight := hw.symm
    _ ≤ _ := Rounding.toFloat64_mono (by linarith)

/-- The double sum of the depression branch is at most the weight. -/
theorem depressedSum_le (exp : ℚ → ℚ) (syn : Synapse) (t0 t1 : ℚ)
    (hexp : ∀ x, 0 ≤ exp x) (hw : Rounding.toFloat64 syn.weight = syn.weight)
    (hAm : 0 ≤ syn.A_minus) : syn.depressedSum exp t0 t1 ≤ syn.weight := by
  unfold Synapse.depressedSum
  have hd : Rounding.toFloat64 (-syn.A_minus
      * exp (Rounding.toFloat64 (Rounding.toFloat64 (t1 - t0) / syn.tau_minus))) ≤ 0 := by
    apply Rounding.toFloat64_nonpos
    rw [neg_mul]
    exact neg_nonpos.mpr (mul_nonneg hAm (hexp _))
  calc _ ≤ Rounding.toFloat64 syn.weight := Rounding.toFloat64_mono (by linarith)
    _ = syn.weight := hw

/-- C8 as stated fails, in double arithmetic as in exact arithmetic.  With only the pre
neuron spiking and the post spike later than the pre spike (`t0 = 0`, `t1 = 1`): a
synapse whose weight already equals `maxWeight` (1) keeps its weight, for every
exponential; a synapse of weight one half keeps its weight whenever the exponential is
positive but at most `2^-49` (as `Math.exp(-50)` is), because the double sum
`weight + deltaW` rounds back to the weight.  The weight is also kept when the pre
neuron's `lastSpikeTime` is still `-Infinity`: the increment is
`A_plus · exp(-Infinity) = 0`. -/
theorem C8_counterexample :
    (Synapse.new 0 1 1 0).minWeight ≤ (Synapse.new 0 1 1 0).weight ∧
    (Synapse.new 0 1 1 0).weight ≤ (Synapse.new 0 1 1 0).maxWeight ∧
    0 < (Synapse.new 0 1 1 0).A_plus ∧ 0 < (Synapse.new 0 1 1 0).tau_plus ∧
    (firedAt 0).spiked = true ∧ (silentAt 1).spiked = false ∧
    (∀ exp : ℚ → ℚ, (∀ x, 0 ≤ exp x) →
      ((Synapse.new 0 1 1 0).stdpUpdateFloat64 exp (firedAt 0) (silentAt 1) 1 1).weight
        = (Synapse.new 0 1 1 0).weight) ∧
    (Synapse.new 0 1 (1 / 2) 0).weight < (Synapse.new 0 1 (1 / 2) 0).maxWeight ∧
    (∀ exp : ℚ → ℚ, (∀ x, 0 < exp x ∧ exp x ≤ 1 / 562949953421312) →
      ((Synapse.new 0 1 (1 / 2) 0).stdpUpdateFloat64 exp (firedAt 0) (silentAt 1) 1 1).weight
        = (Synapse.new 0 1 (1 / 2) 0).weight) ∧
    firedNever.spiked = true ∧ firedNever.lastSpikeTime = SpikeTime.negInf ∧
    (Synapse.new 0 1 0 0).weight < (Synapse.new 0 1 0 0).maxWeight ∧
    (∀ exp : ℚ → ℚ,
      ((Synapse.new 0 1 0 0).stdpUpdateFloat64 exp firedNever (silentAt 1) 1 1).weight
        = (Synapse.new 0 1 0 0).weight) := by
  have hd : 0 < Rounding.toFloat64 ((1 : ℚ) - 0) := by
    rw [sub_zero, Rounding.toFloat64_one]
    exact one_pos
  refine ⟨by norm_num [Synapse.new], by norm_num [Synapse.new], by norm_num [Synapse.new],
    by norm_num [Synapse.new], rfl, rfl, ?_, by norm_num [Synapse.new], ?_, rfl, rfl,
    by norm_num [Synapse.new], ?_⟩
  · intro exp hexp
    rw [stdpUpdateFloat64_potentiate exp (Synapse.new 0 1 1 0) (firedAt 0) (silentAt 1) 1 1
      0 1 rfl rfl rfl rfl hd]
    have hp := le_potentiatedSum exp (Synapse.new 0 1 1 0) 0 1 hexp
      (by simp only [Synapse.new]; exact Rounding.toFloat64_one) (by norm_num [Synapse.new])
    have hw : (Synapse.new 0 1 1 0).weight = 1 := rfl
    have hM : (Synapse.new 0 1 1 0).maxWeight = 1 := rfl
    have hm : (Synapse.new 0 1 1 0).minWeight = -1 := rfl
    rw [hw] at hp
    rw [hM, hm, hw, min_eq_right hp, max_eq_left (by norm_num)]
  · intro exp hexp
    rw [stdpUpdateFloat64_potentiate exp (Synapse.new 0 1 (1 / 2) 0) (firedAt 0) (silentAt 1)
      1 1 0 1 rfl rfl rfl rfl hd]
    have hs : (Synapse.new 0 1 (1 / 2) 0).potentiatedSum exp 0 1 = 1 / 2 := by
      unfold Synapse.potentiatedSum
      simp only [Synapse.new]
      have he := hexp (Rounding.toFloat64 (-Rounding.toFloat64 (1 - 0) / (20 / 1000)))
      apply Rounding.toFloat64_half_add
      · exact Rounding.toFloat64_nonneg _ (mul_nonneg (by norm_num) he.1.le)
      · apply Rounding.toFloat64_le
        have h2 := he.2
        have h1 := he.1
        linarith
    have hw : (Synapse.new 0 1 (1 / 2) 0).weight = 1 / 2 := rfl
    have hM : (Synapse.new 0 1 (1 / 2) 0).maxWeight = 1 := rfl
    have hm : (Synapse.new 0 1 (1 / 2) 0).minWeight = -1 := rfl
    rw [hs, hM, hm, hw, min_eq_left (by norm_num), max_eq_left (by norm_num)]
  · intro exp
    norm_num [Synapse.stdpUpdateFloat64, Synapse.new, firedNever, silentAt, Neuron.newDefault,
      Neuron.new, SpikeTime.subFloat64, TimeDiff.isPos, TimeDiff.neg, expDivFloat64,
      Rounding.toFloat64_zero]

/-- C8 (amended): for every weight in `[minWeight, maxWeight]`, positive `A_plus`,
`A_minus`, `tau_plus`, `tau_minus` and finite spike times `t0` (pre) and `t1` (post),
weight and times being doubles and `Math.exp` returning no negative number: if only the
pre neuron has `spiked` set and `t1 > t0`, the weight after `stdpUpdate` is at least the
weight before and at most `maxWeight`, and it is strictly greater than before exactly
when the weight was below `maxWeight` and the double sum `weight + deltaW` is greater
than the weight (the increment is not lost in the rounding of the sum); if only the post
neuron has `spiked` set and `t1 < t0`, the weight afterwards is at most the weight before
and at least `minWeight`, and it is strictly smaller than before exactly when the weight
was above `minWeight` and the double sum `weight + deltaW` is smaller than the weight. -/
theorem C8_stdp_sign (exp : ℚ → ℚ) (syn : Synapse) (pre post : Neuron) (t dt t0 t1 : ℚ)
    (hexp : ∀ x, 0 ≤ exp x)
    (hmin : syn.minWeight ≤ syn.weight) (hmax : syn.weight ≤ syn.maxWeight)
    (hw : Rounding.toFloat64 syn.weight = syn.weight)
    (hAp : 0 < syn.A_plus) (hAm : 0 < syn.A_minus)
    (_htp : 0 < syn.tau_plus) (_htm : 0 < syn.tau_minus)
    (h0 : pre.lastSpikeTime = .fin t0) (h1 : post.lastSpikeTime = .fin t1)
    (ht0 : Rounding.toFloat64 t0 = t0) (ht1 : Rounding.toFloat64 t1 = t1) :
    (pre.spiked = true → post.spiked = false → t0 < t1 →
      syn.weight ≤ (syn.stdpUpdateFloat64 exp pre post t dt).weight ∧
      (syn.stdpUpdateFloat64 exp pre post t dt).weight ≤ syn.maxWeight ∧
      (syn.weight < (syn.stdpUpdateFloat64 exp pre post t dt).weight ↔
        syn.weight < syn.maxWeight ∧ syn.weight < syn.potentiatedSum exp t0 t1)) ∧
    (pre.spiked = false → post.spiked = true → t1 < t0 →
      (syn.stdpUpdateFloat64 exp pre post t dt).weight ≤ syn.weight ∧
      syn.minWeight ≤ (syn.stdpUpdateFloat64 exp pre post t dt).weight ∧
      ((syn.stdpUpdateFloat64 exp pre post t dt).weight < syn.weight ↔
        syn.minWeight < syn.weight ∧ syn.depressedSum exp t0 t1 < syn.weight)) := by
  constructor
  · intro hpre hpost hlt
    rw [stdpUpdateFloat64_potentiate exp syn pre post t dt t0 t1 hpre hpost h0 h1
      (Rounding.toFloat64_sub_pos t1 t0 ht1 ht0 hlt)]
    have hs := le_potentiatedSum exp syn t0 t1 hexp hw hAp.le
    have hle : syn.minWeight ≤ min (syn.potentiatedSum exp t0 t1) syn.maxWeight :=
      le_min (le_trans hmin hs) (le_trans hmin hmax)
    rw [max_eq_left hle]
    refine ⟨le_min hs hmax, min_le_right _ _, ?_⟩
    rw [lt_min_iff]
    exact ⟨fun h => ⟨h.2, h.1⟩, fun h => ⟨h.2, h.1⟩⟩
  · intro hpre hpost hlt
    rw [stdpUpdateFloat64_depress exp syn pre post t dt t0 t1 hpre hpost h0 h1
      (Rounding.toFloat64_sub_neg t1 t0 ht1 ht0 hlt)]
    have hs := depressedSum_le exp syn t0 t1 hexp hw hAm.le
    rw [min_eq_left (le_trans hs hmax)]
    refine ⟨max_le hs hmin, le_max_right _ _, ?_⟩
    rw [max_lt_iff]
    exact ⟨fun h => ⟨h.2, h.1⟩, fun h => ⟨h.2, h.1⟩⟩

/-- Witness of C8 (amended): a default synapse of weight 0 between a pre neuron that
spiked at time 0 and a silent post neuron that last fired at time 1, with an exponential
that is constantly 1: the weight grows. -/
theorem C8_stdp_sign_witness :
    (∀ x : ℚ, 0 ≤ (fun _ : ℚ => (1 : ℚ)) x) ∧
    (firedAt 0).spiked = true ∧ (silentAt 1).spiked = false ∧ (0 : ℚ) < 1 ∧
    Rounding.toFloat64 0 = 0 ∧ Rounding.toFloat64 1 = 1 ∧
    (Synapse.new 0 1 0 0).weight < (Synapse.new 0 1 0 0).maxWeight ∧
    (Synapse.new 0 1 0 0).weight
      < (Synapse.new 0 1 0 0).potentiatedSum (fun _ => 1) 0 1 ∧
    (Synapse.new 0 1 0 0).weight
      < ((Synapse.new 0 1 0 0).stdpUpdateFloat64 (fun _ => 1) (firedAt 0) (silentAt 1) 1
          1).weight :=
  have hw : (Synapse.new 0 1 0 0).weight < (Synapse.new 0 1 0 0).maxWeight := by
    norm_num [Synapse.new]
  have hs : (Synapse.new 0 1 0 0).weight
      < (Synapse.new 0 1 0 0).potentiatedSum (fun _ => 1) 0 1 := by
    unfold Synapse.potentiatedSum
    simp only [Synapse.new, mul_one, zero_add]
    have h1 := Rounding.toFloat64_ge (1 / 100) (by norm_num)
    have h2 := Rounding.toFloat64_ge _ h1
    linarith
  ⟨fun _ => zero_le_one, rfl, rfl, one_pos, Rounding.toFloat64_zero, Rounding.toFloat64_one,
    hw, hs,
    ((C8_stdp_sign (fun _ => 1) (Synapse.new 0 1 0 0) (firedAt 0) (silentAt 1) 1 1 0 1
      (fun _ => zero_le_one) (by norm_num [Synapse.new]) (by norm_num [Synapse.new])
      (by simp only [Synapse.new]; exact Rounding.toFloat64_zero)
      (by norm_num [Synapse.new]) (by norm_num [Synapse.new]) (by norm_num [Synapse.new])
      (by norm_num [Synapse.new]) rfl rfl Rounding.toFloat64_zero
      Rounding.toFloat64_one).1 rfl rfl one_pos).2.2.mpr ⟨hw, hs⟩⟩

end Layered

/-! ## The layered network: input injection -/

theorem foldl_modify_length {α : Type} (c : ℕ → Bool) (f : α → α) (l : List ℕ) :
    ∀ w0 : List α,
      (l.foldl (fun w k => if c k = true then w.modify f k else w) w0).length = w0.length := by
  induction l with
  | nil => intro w0; rfl
  | cons k l ih =>
    intro w0
    rw [List.foldl_cons, ih]
    split_ifs
    · exact List.length_modify f k w0
    · rfl

namespace Layered

/-- The loop of `injectInputs` over the first `n` indices returns, and changes only the
neuron list, when there are at least `n` neurons. -/
theorem injectLoop_eq (inputValues : List ℚ) (s : SNN) (n : ℕ) (hn : n ≤ s.neurons.length) :
    (List.range n).foldlM (SNN.injectOne inputValues) s
      = some { s with
          neurons := (List.range n).foldl
            (fun ns i =>
              if inputAbove inputValues i = true then
                ns.modify (fun m => m.receiveSpike 1 s.currentTime) i
              else ns)
            s.neurons } := by
  induction n with
  | zero => rfl
  | succ n ih =>
    rw [List.range_succ, List.foldlM_append, ih (by omega), List.foldl_append]
    simp only [List.foldlM_cons, List.foldlM_nil, List.foldl_cons, List.foldl_nil,
      Option.some_bind, Option.bind_eq_bind]
    unfold SNN.injectOne
    by_cases hc : inputAbove inputValues n = true
    · have hlen : n < ((List.range n).foldl
          (fun ns i =>
            if inputAbove inputValues i = true then
              ns.modify (fun m => m.receiveSpike 1 s.currentTime) i
            else ns)
          s.neurons).length := by
        rw [foldl_modify_length (inputAbove inputValues)]
        omega
      simp [hc, hlen]
    · simp [hc]

theorem injectInputs_eq (s : SNN) (inputValues : List ℚ) (h : s.numInputs ≤ s.neurons.length) :
    s.injectInputs inputValues = some { s with neurons := injectedNeurons s inputValues } :=
  injectLoop_eq inputValues s s.numInputs h

theorem injectedNeurons_getElem? (s : SNN) (inputValues : List ℚ) (i : ℕ) :
    (injectedNeurons s inputValues)[i]?
      = if i < s.numInputs ∧ inputAbove inputValues i = true
        then s.neurons[i]?.map (fun n => n.receiveSpike 1 s.currentTime)
        else s.neurons[i]? := by
  unfold injectedNeurons
  exact foldl_range_modify_getElem? (inputAbove inputValues)
    (fun n : Neuron => n.receiveSpike 1 s.currentTime) s.neurons s.numInputs i

theorem injectedNeurons_length (s : SNN) (inputValues : List ℚ) :
    (injectedNeurons s inputValues).length = s.neurons.length := by
  unfold injectedNeurons
  exact foldl_modify_length (inputAbove inputValues)
    (fun n : Neuron => n.receiveSpike 1 s.currentTime) (List.range s.numInputs) s.neurons

end Layered

/-! ## The layered network: what every reachable state satisfies -/

namespace Layered

theorem neuronAt_eq (ns : List Neuron) (i : ℕ) : neuronAt ns i = (ns[i]?).getD Neuron.blank := by
  simp [neuronAt]

theorem neuronAt_of_getElem? (ns : List Neuron) (i : ℕ) (n : Neuron) (h : ns[i]? = some n) :
    neuronAt ns i = n := by
  rw [neuronAt_eq, h]
  rfl

theorem neuronAt_isInhibitory (ns : List Neuron) (i : ℕ) :
    (neuronAt ns i).isInhibitory = ((ns.map Neuron.isInhibitory)[i]?).getD false := by
  rw [neuronAt_eq, List.getElem?_map]
  cases ns[i]? <;> rfl

/-- A network with the same `numInputs` and the same inhibitory flags has its input layer
in place as well. -/
theorem inputsWired_of_same_flags (s s1 : SNN) (hnum : s1.numInputs = s.numInputs)
    (hmap : s1.neurons.map Neuron.isInhibitory = s.neurons.map Neuron.isInhibitory)
    (h : s.InputsWired) : s1.InputsWired := by
  have hlen : s1.neurons.length = s.neurons.length := by
    have := congrArg List.length hmap
    simpa using this
  refine ⟨by rw [hnum, hlen]; exact h.1, fun i hi => ?_⟩
  rw [neuronAt_isInhibitory, hmap, ← neuronAt_isInhibitory]
  exact h.2 i (hnum ▸ hi)

theorem connect_withoutLinks (rand : ℕ → ℚ) (i j : ℕ) (st : List Neuron × List Synapse) :
    (connect rand i j st).1.map Neuron.withoutLinks = st.1.map Neuron.withoutLinks := by
  rw [connect_eq]
  split_ifs
  · show ((st.1.modify (Neuron.addOutgoing st.2.length) i).modify
        (Neuron.addIncoming st.2.length) j).map Neuron.withoutLinks = _
    rw [map_modify_of_invariant Neuron.withoutLinks (Neuron.addIncoming st.2.length)
        (fun _ => rfl),
      map_modify_of_invariant Neuron.withoutLinks (Neuron.addOutgoing st.2.length)
        (fun _ => rfl)]
  · rfl

theorem inner_loop_withoutLinks (rand : ℕ → ℚ) (i : ℕ) (js : List ℕ) :
    ∀ st : List Neuron × List Synapse,
      (js.foldl (fun st j => connect rand i j st) st).1.map Neuron.withoutLinks
        = st.1.map Neuron.withoutLinks := by
  induction js with
  | nil => intro st; rfl
  | cons j js ih => intro st; rw [List.foldl_cons, ih, connect_withoutLinks]

theorem outer_loop_withoutLinks (rand : ℕ → ℚ) (js is : List ℕ) :
    ∀ st : List Neuron × List Synapse,
      (is.foldl (fun st i => js.foldl (fun st j => connect rand i j st) st) st).1.map
          Neuron.withoutLinks
        = st.1.map Neuron.withoutLinks := by
  induction is with
  | nil => intro st; rfl
  | cons i is ih => intro st; rw [List.foldl_cons, ih, inner_loop_withoutLinks]

theorem initialNeurons_withoutLinks (a b c d : ℕ) :
    (initialNeurons a b c d).map Neuron.withoutLinks = initialNeurons a b c d := by
  simp only [initialNeurons, List.map_append, List.map_map]
  rfl

/-- Up to the adjacency lists, the neurons of a new network are the neurons pushed by the
four creation loops. -/
theorem new_neurons_withoutLinks (rand : ℕ → ℚ) (a b c d : ℕ) :
    (SNN.new rand a b c d).neurons.map Neuron.withoutLinks = initialNeurons a b c d := by
  simp only [SNN.new, connectAll]
  rw [outer_loop_withoutLinks, initialNeurons_withoutLinks]

theorem new_neurons_length (rand : ℕ → ℚ) (a b c d : ℕ) :
    (SNN.new rand a b c d).neurons.length = a + b + c + d := by
  have := congrArg List.length (new_neurons_withoutLinks rand a b c d)
  rw [List.length_map, initialNeurons_length] at this
  exact this

theorem initialNeurons_input_flag (a b c d i : ℕ) (hi : i < a) :
    (neuronAt (initialNeurons a b c d) i).isInhibitory = false := by
  simp only [neuronAt, initialNeurons, List.getD_eq_getElem?_getD, List.getElem?_append,
    List.length_append, List.length_map, List.length_range, List.getElem?_map]
  rw [if_pos (by omega), if_pos (by omega), if_pos hi, List.getElem?_range hi]
  rfl

theorem new_inputsWired (rand : ℕ → ℚ) (a b c d : ℕ) : (SNN.new rand a b c d).InputsWired := by
  refine ⟨?_, fun i hi => ?_⟩
  · rw [new_neurons_length]
    show a ≤ a + b + c + d
    omega
  · have hmap : (SNN.new rand a b c d).neurons.map Neuron.isInhibitory
        = (initialNeurons a b c d).map Neuron.isInhibitory := by
      have := congrArg (List.map Neuron.isInhibitory) (new_neurons_withoutLinks rand a b c d)
      rw [List.map_map] at this
      exact this
    rw [neuronAt_isInhibitory, hmap, ← neuronAt_isInhibitory]
    exact initialNeurons_input_flag a b c d i hi

theorem update_isInhibitory (n : Neuron) (t dt : ℚ) :
    (n.update t dt).1.isInhibitory = n.isInhibitory := by
  simp only [Neuron.update]
  split_ifs <;> rfl

theorem update_flags (exp : ℚ → ℚ) (s : SNN) (t dt : ℚ) :
    (s.update exp t dt).1.neurons.map Neuron.isInhibitory
      = s.neurons.map Neuron.isInhibitory := by
  have h1 := congrArg (List.map Neuron.isInhibitory)
    (transmitAll_withoutPotential t dt s.synapses s.neurons)
  rw [List.map_map, List.map_map] at h1
  simp only [SNN.update, List.map_map]
  have h2 : (Neuron.isInhibitory ∘ fun n : Neuron => (n.update t dt).1)
      = (Neuron.isInhibitory ∘ Neuron.withoutPotential) := by
    funext n
    exact update_isInhibitory n t dt
  rw [h2, h1]
  rfl

theorem injected_inputsWired (s : SNN) (inputValues : List ℚ) (h : s.InputsWired) :
    SNN.InputsWired { s with neurons := injectedNeurons s inputValues } := by
  refine ⟨?_, fun i hi => ?_⟩
  · show s.numInputs ≤ (injectedNeurons s inputValues).length
    rw [injectedNeurons_length]
    exact h.1
  · show (neuronAt (injectedNeurons s inputValues) i).isInhibitory = false
    rw [neuronAt_eq, injectedNeurons_getElem?]
    have h2 := h.2 i hi
    rw [neuronAt_eq] at h2
    split_ifs
    · cases hn : s.neurons[i]? with
      | none => rfl
      | some n =>
        rw [hn] at h2
        exact h2
    · exact h2

/-- Every reachable state has its input layer in place. -/
theorem reachable_inputsWired (exp : ℚ → ℚ) (s : SNN) (h : Reachable exp s) : s.InputsWired := by
  induction h with
  | new rand a b c d => exact new_inputsWired rand a b c d
  | injectInputs s s1 inputValues _ hinj ih =>
    rw [injectInputs_eq s inputValues ih.1] at hinj
    cases hinj
    exact injected_inputsWired s inputValues ih
  | update s t dt _ ih =>
    exact inputsWired_of_same_flags s _ rfl (update_flags exp s t dt) ih
  | reset s _ ih =>
    refine inputsWired_of_same_flags s _ rfl ?_ ih
    simp only [SNN.reset, List.map_map]
    rfl

/-- C9: for every reachable network state and every `inputValues` list of any length,
`SNN.injectInputs` returns (no error) and changes the state only as follows: the
potential of input neuron `i` (`i < numInputs`) grows by exactly 1 when `inputValues[i]`
exists and exceeds 0.5, and every other neuron (input neurons with a missing or small
value, all non-input neurons) is left as it was; thresholds and all other neuron fields,
the synapse list (weights and spike queues), the layer sizes and `currentTime` are
unchanged. -/
theorem C9_injectInputs_tolerant (exp : ℚ → ℚ) (s : SNN) (hs : Reachable exp s)
    (inputValues : List ℚ) :
    ∃ s1, s.injectInputs inputValues = some s1 ∧
      s1.synapses = s.synapses ∧ s1.currentTime = s.currentTime ∧
      s1.numInputs = s.numInputs ∧ s1.numHiddenExcitatory = s.numHiddenExcitatory ∧
      s1.numHiddenInhibitory = s.numHiddenInhibitory ∧ s1.numOutputs = s.numOutputs ∧
      s1.neurons.length = s.neurons.length ∧
      (∀ i v, i < s.numInputs → inputValues[i]? = some v → 1 / 2 < v →
        neuronAt s1.neurons i
          = { neuronAt s.neurons i with potential := (neuronAt s.neurons i).potential + 1 }) ∧
      (∀ i, ¬ (i < s.numInputs ∧ ∃ v, inputValues[i]? = some v ∧ 1 / 2 < v) →
        neuronAt s1.neurons i = neuronAt s.neurons i) := by
  have hw := reachable_inputsWired exp s hs
  refine ⟨{ s with neurons := injectedNeurons s inputValues },
    injectInputs_eq s inputValues hw.1, rfl, rfl, rfl, rfl, rfl, rfl,
    injectedNeurons_length s inputValues, ?_, ?_⟩
  · intro i v hi hv hlt
    have hab : inputAbove inputValues i = true := by
      simp only [inputAbove, hv]
      exact decide_eq_true hlt
    have hlen : i < s.neurons.length := lt_of_lt_of_le hi hw.1
    have hget : s.neurons[i]? = some (s.neurons[i]) := List.getElem?_eq_getElem hlen
    have hflag := hw.2 i hi
    rw [neuronAt_of_getElem? s.neurons i _ hget] at hflag ⊢
    show neuronAt (injectedNeurons s inputValues) i = _
    rw [neuronAt_eq, injectedNeurons_getElem?, if_pos ⟨hi, hab⟩, hget]
    simp only [Option.map_some', Option.getD_some, Neuron.receiveSpike, hflag]
    rfl
  · intro i hnot
    show neuronAt (injectedNeurons s inputValues) i = _
    rw [neuronAt_eq, neuronAt_eq, injectedNeurons_getElem?, if_neg]
    rintro ⟨hi, hab⟩
    apply hnot
    refine ⟨hi, ?_⟩
    unfold inputAbove at hab
    cases hv : inputValues[i]? with
    | none => simp [hv] at hab
    | some v =>
      rw [hv] at hab
      exact ⟨v, rfl, of_decide_eq_true hab⟩

/-- Witness of C9: `injectInputs([])` on the network `new SNN(2, 0, 0, 1)`. -/
theorem C9_injectInputs_tolerant_witness :
    Reachable (fun _ => 1) (SNN.new (fun _ => 1 / 2) 2 0 0 1) ∧
    ∃ s1, (SNN.new (fun _ => 1 / 2) 2 0 0 1).injectInputs [] = some s1 ∧
      ∀ i, neuronAt s1.neurons i = neuronAt (SNN.new (fun _ => 1 / 2) 2 0 0 1).neurons i :=
  have hr : Reachable (fun _ => 1) (SNN.new (fun _ => 1 / 2) 2 0 0 1) :=
    Reachable.new (fun _ => 1 / 2) 2 0 0 1
  ⟨hr,
    match C9_injectInputs_tolerant (fun _ => 1) (SNN.new (fun _ => 1 / 2) 2 0 0 1) hr [] with
    | ⟨s1, h1, _, _, _, _, _, _, _, _, h2⟩ =>
      ⟨s1, h1, fun i => h2 i (fun h => by
        obtain ⟨_, v, hv, _⟩ := h
        simp at hv)⟩⟩

end Layered

/-! ## The layered network: ticks without input -/

namespace Layered

theorem neuronAt_mem_or_blank (ns : List Neuron) (i : ℕ) :
    neuronAt ns i ∈ ns ∨ neuronAt ns i = Neuron.blank := by
  rw [neuronAt_eq]
  cases h : ns[i]? with
  | none => right; rfl
  | some n => left; exact List.getElem?_mem h

theorem neuronAt_spiked_false (ns : List Neuron) (h : ∀ n ∈ ns, n.spiked = false) (i : ℕ) :
    (neuronAt ns i).spiked = false := by
  rcases neuronAt_mem_or_blank ns i with hm | hb
  · exact h _ hm
  · rw [hb]; rfl

theorem transmitSpike_quiet (syn : Synapse) (ns : List Neuron) (t dt : ℚ)
    (hq : syn.spikeQueue = []) (hs : ∀ n ∈ ns, n.spiked = false) :
    syn.transmitSpike ns t dt = (syn, ns) := by
  simp only [Synapse.transmitSpike, hq, List.foldl_nil, neuronAt_spiked_false ns hs,
    Bool.false_eq_true, if_false]
  rw [← hq]

theorem transmitAll_quiet (t dt : ℚ) (syns : List Synapse) (ns : List Neuron)
    (hq : ∀ syn ∈ syns, syn.spikeQueue = []) (hs : ∀ n ∈ ns, n.spiked = false) :
    transmitAll t dt syns ns = (syns, ns) := by
  induction syns with
  | nil => rfl
  | cons syn rest ih =>
    simp only [transmitAll]
    rw [transmitSpike_quiet syn ns t dt (hq syn (List.mem_cons_self _ _)) hs,
      ih (fun x hx => hq x (List.mem_cons_of_mem _ hx))]

/-- A neuron at rest stays at rest under `Neuron.update` and does not fire. -/
theorem update_quiet (n : Neuron) (t dt : ℚ) (hp : n.potential = 0) (hb : 0 < n.baseThreshold) :
    (n.update t dt).2 = false ∧ (n.update t dt).1.potential = 0 ∧
      (n.update t dt).1.spiked = false ∧ (n.update t dt).1.baseThreshold = n.baseThreshold := by
  have hth : 0 < n.adaptedThreshold :=
    lt_of_lt_of_le (by linarith) (adaptedThreshold_bounds n (le_of_lt hb)).1
  have hno : ¬ (n.potential * n.leak ≥ n.adaptedThreshold) := by
    rw [hp, zero_mul]
    exact not_le.mpr hth
  simp only [Neuron.update, hno, if_false]
  exact ⟨trivial, by rw [hp, zero_mul], trivial, trivial⟩

theorem spikedIndices_quiet (ns : List Neuron) (hs : ∀ n ∈ ns, n.spiked = false) :
    spikedIndices ns = [] := by
  unfold spikedIndices
  rw [List.filter_eq_nil_iff]
  intro i _
  rw [neuronAt_spiked_false ns hs i]
  simp

/-- One `update` of a network at rest returns an empty list and leaves it at rest. -/
theorem update_of_quiet (exp : ℚ → ℚ) (s : SNN) (t dt : ℚ) (h : s.Quiet) :
    (s.update exp t dt).2 = [] ∧ (s.update exp t dt).1.Quiet := by
  have hs : ∀ n ∈ s.neurons, n.spiked = false := fun n hn => (h.1 n hn).2.1
  have hn : ∀ m ∈ s.neurons.map (fun n => (n.update t dt).1),
      m.potential = 0 ∧ m.spiked = false ∧ 0 < m.baseThreshold := by
    intro m hm
    rw [List.mem_map] at hm
    obtain ⟨n, hn, rfl⟩ := hm
    obtain ⟨h1, _, h3⟩ := h.1 n hn
    obtain ⟨_, g2, g3, g4⟩ := update_quiet n t dt h1 h3
    exact ⟨g2, g3, g4 ▸ h3⟩
  simp only [SNN.update, transmitAll_quiet t dt s.synapses s.neurons h.2 hs]
  refine ⟨spikedIndices_quiet _ (fun m hm => (hn m hm).2.1), hn, ?_⟩
  intro syn hsyn
  simp only [List.mem_map] at hsyn
  obtain ⟨x, hx, rfl⟩ := hsyn
  exact h.2 x hx

theorem updates_of_quiet (exp : ℚ → ℚ) (ticks : List (ℚ × ℚ)) :
    ∀ s : SNN, s.Quiet →
      (∀ fired ∈ (s.updates exp ticks).2, fired = []) ∧
        (s.updates exp ticks).2.length = ticks.length ∧ (s.updates exp ticks).1.Quiet := by
  induction ticks with
  | nil =>
    intro s h
    exact ⟨fun f hf => by simp [SNN.updates] at hf, rfl, h⟩
  | cons tick rest ih =>
    intro s h
    obtain ⟨h1, h2⟩ := update_of_quiet exp s tick.1 tick.2 h
    obtain ⟨g1, g2, g3⟩ := ih _ h2
    simp only [SNN.updates]
    refine ⟨?_, by simp [g2], g3⟩
    intro f hf
    simp only [List.mem_cons] at hf
    rcases hf with rfl | hf
    · exact h1
    · exact g1 f hf

theorem mem_initialNeurons (a b c d : ℕ) (n : Neuron) (h : n ∈ initialNeurons a b c d) :
    n.potential = 0 ∧ n.spiked = false ∧ n.baseThreshold = 1 := by
  simp only [initialNeurons, List.mem_append, List.mem_map] at h
  rcases h with ((⟨_, _, rfl⟩ | ⟨_, _, rfl⟩) | ⟨_, _, rfl⟩) | ⟨_, _, rfl⟩ <;>
    exact ⟨rfl, rfl, rfl⟩

theorem connect_queues (rand : ℕ → ℚ) (i j : ℕ) (st : List Neuron × List Synapse)
    (h : ∀ syn ∈ st.2, syn.spikeQueue = []) :
    ∀ syn ∈ (connect rand i j st).2, syn.spikeQueue = [] := by
  rw [connect_synapses]
  split_ifs
  · intro syn hsyn
    rw [List.mem_append, List.mem_singleton] at hsyn
    rcases hsyn with hsyn | rfl
    · exact h syn hsyn
    · rfl
  · exact h

theorem inner_loop_queues (rand : ℕ → ℚ) (i : ℕ) (js : List ℕ) :
    ∀ st : List Neuron × List Synapse, (∀ syn ∈ st.2, syn.spikeQueue = []) →
      ∀ syn ∈ (js.foldl (fun st j => connect rand i j st) st).2, syn.spikeQueue = [] := by
  induction js with
  | nil => intro st h; exact h
  | cons j js ih => intro st h; exact ih _ (connect_queues rand i j st h)

theorem outer_loop_queues (rand : ℕ → ℚ) (js is : List ℕ) :
    ∀ st : List Neuron × List Synapse, (∀ syn ∈ st.2, syn.spikeQueue = []) →
      ∀ syn ∈ (is.foldl (fun st i => js.foldl (fun st j => connect rand i j st) st) st).2,
        syn.spikeQueue = [] := by
  induction is with
  | nil => intro st h; exact h
  | cons i is ih => intro st h; exact ih _ (inner_loop_queues rand i js st h)

/-- A freshly constructed network is at rest. -/
theorem new_quiet (rand : ℕ → ℚ) (a b c d : ℕ) : (SNN.new rand a b c d).Quiet := by
  constructor
  · intro n hn
    have h1 : n.withoutLinks ∈ (SNN.new rand a b c d).neurons.map Neuron.withoutLinks :=
      List.mem_map_of_mem _ hn
    rw [new_neurons_withoutLinks] at h1
    obtain ⟨g1, g2, g3⟩ := mem_initialNeurons a b c d _ h1
    refine ⟨g1, g2, ?_⟩
    have : n.baseThreshold = 1 := g3
    rw [this]
    exact one_pos
  · simp only [SNN.new, connectAll]
    exact outer_loop_queues rand _ _ _ (fun syn hsyn => by simp at hsyn)

/-- C10: for every freshly constructed layered network (any layer sizes, any initial
weights) and every sequence of consecutive `SNN.update` calls with no `injectInputs`
call in between (any number of calls, any `currentTime` and `dt` values, so in
particular 1000 calls with `dt = 1`), every call returns an empty fired list, and
afterwards every neuron has `spiked = false` and potential exactly 0. -/
theorem C10_quiet_without_input (exp : ℚ → ℚ) (rand : ℕ → ℚ) (a b c d : ℕ)
    (ticks : List (ℚ × ℚ)) :
    ((SNN.new rand a b c d).updates exp ticks).2.length = ticks.length ∧
    (∀ fired ∈ ((SNN.new rand a b c d).updates exp ticks).2, fired = []) ∧
    (∀ n ∈ ((SNN.new rand a b c d).updates exp ticks).1.neurons,
      n.spiked = false ∧ n.potential = 0) := by
  obtain ⟨h1, h2, h3⟩ := updates_of_quiet exp ticks (SNN.new rand a b c d)
    (new_quiet rand a b c d)
  exact ⟨h2, h1, fun n hn => ⟨(h3.1 n hn).2.1, (h3.1 n hn).1⟩⟩

end Layered

/-! ## The dense engine: weights over a run -/

namespace Dense

theorem step_weight (net : OptimizedNetwork) (inputNeurons : List ℕ) (i : ℕ)
    (hi : i < net.numSynapses) (w : ℚ) (hw : net.weights[i]? = some w) :
    (net.step inputNeurons).weights[i]?
      = some (if coincides net inputNeurons i = true then min (w + net.eta) 1 else w) := by
  simp only [OptimizedNetwork.step]
  rw [hebbian_getElem?, hw]
  by_cases hc : coincides net inputNeurons i = true
  · have hc2 := hc
    simp only [coincides, OptimizedNetwork.step] at hc2
    rw [if_pos ⟨hi, hc2⟩, if_pos hc, Option.map_some', bump_eq_min]
  · have hc2 := hc
    simp only [coincides, OptimizedNetwork.step] at hc2
    rw [if_neg (fun h => hc2 h.2), if_neg hc]

theorem min_add_step (w eta : ℚ) (k : ℕ) (heta : 0 ≤ eta) :
    min (min (w + eta) 1 + (k : ℚ) * eta) 1 = min (w + ((1 + k : ℕ) : ℚ) * eta) 1 := by
  have hk : 0 ≤ (k : ℚ) * eta := mul_nonneg (Nat.cast_nonneg k) heta
  have hcast : ((1 + k : ℕ) : ℚ) = 1 + (k : ℚ) := by push_cast; ring
  rw [hcast]
  by_cases h : w + eta ≤ 1
  · rw [min_eq_left h]
    congr 1
    ring
  · have h1 : 1 < w + eta := not_le.mp h
    rw [min_eq_right (le_of_lt h1), min_eq_right (by linarith), min_eq_right]
    have : w + (1 + (k : ℚ)) * eta = (w + eta) + (k : ℚ) * eta := by ring
    rw [this]
    linarith

/-- The weight of synapse `i` after a run, from its weight before. -/
theorem run_weight (i : ℕ) (inputs : List (List ℕ)) :
    ∀ (net : OptimizedNetwork) (w0 : ℚ), 0 ≤ net.eta → i < net.numSynapses →
      net.weights[i]? = some w0 → w0 ≤ 1 →
      (net.run inputs).weights[i]?
        = some (min (w0 + (coincidences i net inputs : ℚ) * net.eta) 1) := by
  induction inputs with
  | nil =>
    intro net w0 _ _ hw hle
    simp only [OptimizedNetwork.run, List.foldl_nil, coincidences, Nat.cast_zero, zero_mul,
      add_zero]
    rw [hw, min_eq_left hle]
  | cons x xs ih =>
    intro net w0 heta hi hw hle
    have hstep := step_weight net x i hi w0 hw
    have hrun : net.run (x :: xs) = (net.step x).run xs := rfl
    rw [hrun]
    by_cases hc : coincides net x i = true
    · rw [if_pos hc] at hstep
      rw [ih (net.step x) (min (w0 + net.eta) 1) heta hi hstep (min_le_right _ _)]
      simp only [coincidences, hc, if_true]
      show some (min (min (w0 + net.eta) 1 + _ * net.eta) 1) = _
      rw [min_add_step w0 net.eta _ heta]
    · rw [if_neg hc] at hstep
      rw [ih (net.step x) w0 heta hi hstep hle]
      simp only [coincidences, hc]
      show some (min (w0 + _ * net.eta) 1) = _
      simp

theorem run_fields (inputs : List (List ℕ)) :
    ∀ net : OptimizedNetwork,
      (net.run inputs).eta = net.eta ∧ (net.run inputs).numSynapses = net.numSynapses := by
  induction inputs with
  | nil => intro net; exact ⟨rfl, rfl⟩
  | cons x xs ih => intro net; exact ih (net.step x)

theorem bumpFloat32_stored (eta w : ℚ) :
    Rounding.storeFloat32 (bumpFloat32 eta w) = bumpFloat32 eta w := by
  unfold bumpFloat32
  simp only
  split_ifs
  · exact Rounding.storeFloat32_one
  · exact Rounding.storeFloat32_idem _

theorem le_bumpFloat32 (eta w : ℚ) (heta : 0 ≤ eta) (hw : Rounding.storeFloat32 w = w)
    (hle : w ≤ 1) : w ≤ bumpFloat32 eta w := by
  rw [bumpFloat32_eq_min]
  refine le_min ?_ hle
  calc w = Rounding.storeFloat32 w := hw.symm
    _ ≤ Rounding.storeFloat32 (w + eta) := Rounding.storeFloat32_mono (by linarith)

theorem iterate_bumpFloat32 (eta w0 : ℚ) (hw : Rounding.storeFloat32 w0 = w0) (hle : w0 ≤ 1)
    (k : ℕ) :
    Rounding.storeFloat32 ((bumpFloat32 eta)^[k] w0) = (bumpFloat32 eta)^[k] w0 ∧
      (bumpFloat32 eta)^[k] w0 ≤ 1 := by
  induction k with
  | zero => exact ⟨hw, hle⟩
  | succ k _ =>
    rw [Function.iterate_succ_apply']
    exact ⟨bumpFloat32_stored _ _, bumpFloat32_le_one _ _⟩

/-- The weight of synapse `i` after a run with single-precision stores, from its weight
before: one rounded update for every coincident tick. -/
theorem runFloat32_weight (i : ℕ) (eta : ℚ) (inputs : List (List ℕ)) :
    ∀ (net : OptimizedNetwork) (w0 : ℚ), net.eta = eta → i < net.numSynapses →
      net.weights[i]? = some w0 →
      (net.runFloat32 inputs).weights[i]?
        = some ((bumpFloat32 eta)^[coincidencesFloat32 i net inputs] w0) := by
  induction inputs with
  | nil =>
    intro net w0 _ _ hw
    simp only [OptimizedNetwork.runFloat32, List.foldl_nil, coincidencesFloat32,
      Function.iterate_zero, id_eq]
    exact hw
  | cons x xs ih =>
    intro net w0 heta hi hw
    have hstep := stepFloat32_weight net x i hi w0 hw
    have hrun : net.runFloat32 (x :: xs) = (net.stepFloat32 x).runFloat32 xs := rfl
    rw [hrun]
    by_cases hc : coincidesFloat32 net x i = true
    · rw [if_pos hc, heta] at hstep
      rw [ih (net.stepFloat32 x) (bumpFloat32 eta w0) heta hi hstep]
      simp only [coincidencesFloat32, hc, if_true]
      rw [Nat.add_comm, Function.iterate_succ_apply]
    · rw [if_neg hc] at hstep
      rw [ih (net.stepFloat32 x) w0 heta hi hstep]
      simp only [coincidencesFloat32, hc]
      simp

theorem runFloat32_fields (inputs : List (List ℕ)) :
    ∀ net : OptimizedNetwork,
      (net.runFloat32 inputs).eta = net.eta ∧
        (net.runFloat32 inputs).numSynapses = net.numSynapses := by
  induction inputs with
  | nil => intro net; exact ⟨rfl, rfl⟩
  | cons x xs ih => intro net; exact ih (net.stepFloat32 x)

/-- C11 as stated fails: in the network `new OptimizedNetwork(2, 1, 0.1)` with one
synapse 0 → 1 of weight 0, the tick `step([0, 1])` is a coincidence (`k = 1`), and the
weight afterwards is the single-precision value `13421773 / 2^27`
(0.10000000149011612), not `min(0 + 1·eta, 1.0)`, which is the double 0.1. -/
theorem C11_counterexample :
    0 ≤ tenthNet.eta ∧ tenthNet.weights[0]? = some 0 ∧ (0 : ℚ) ≤ 1 ∧
    coincidencesFloat32 0 tenthNet [[0, 1]] = 1 ∧
    (tenthNet.runFloat32 [[0, 1]]).weights[0]? = some (13421773 / 134217728) ∧
    (13421773 / 134217728 : ℚ) ≠ min (0 + ((1 : ℕ) : ℚ) * tenthNet.eta) 1 := by
  have hc : coincidesFloat32 tenthNet [0, 1] 0 = true := by
    unfold coincidesFloat32
    rw [tenthNet_stepFloat32_spikes]
    rfl
  have hk : coincidencesFloat32 0 tenthNet [[0, 1]] = 1 := by
    simp only [coincidencesFloat32, hc, if_true]
  refine ⟨by norm_num [tenthNet], rfl, zero_le_one, hk, ?_, by norm_num [tenthNet]⟩
  rw [runFloat32_weight 0 tenthNet.eta [[0, 1]] tenthNet 0 rfl (by decide) rfl, hk]
  simp only [Function.iterate_succ, Function.iterate_zero, Function.comp_apply, id_eq]
  rw [bumpFloat32_eq_min, zero_add]
  simp only [tenthNet]
  rw [Rounding.storeFloat32_tenth]
  norm_num

/-- C11 (amended): in the dense engine with `eta ≥ 0`, for a synapse `i` whose weight `w0`
is a single-precision value at most 1, over every sequence of `OptimizedNetwork.step`
calls the weight after the sequence is the result of applying
`w ↦ min(fl(w + eta), 1.0)` to `w0` once for every tick in which both its pre and its
post neuron spiked, where `fl` is the rounding of the store into the `Float32Array`; the
weight is non-decreasing from step to step: after any prefix of the sequence, one more
step leaves a weight that is at least the weight before it; and in exact arithmetic,
where no sum is rounded, the weight after the sequence is `min(w0 + k·eta, 1.0)` with `k`
the number of coincident ticks. -/
theorem C11_dense_weight_over_run (net : OptimizedNetwork) (i : ℕ) (w0 : ℚ)
    (inputs : List (List ℕ)) (next : List ℕ)
    (heta : 0 ≤ net.eta) (hi : i < net.numSynapses)
    (hw : net.weights[i]? = some w0) (hle : w0 ≤ 1)
    (hstored : Rounding.storeFloat32 w0 = w0) :
    (net.runFloat32 inputs).weights[i]?
        = some ((bumpFloat32 net.eta)^[coincidencesFloat32 i net inputs] w0) ∧
    (∃ w w1, (net.runFloat32 inputs).weights[i]? = some w ∧
      ((net.runFloat32 inputs).stepFloat32 next).weights[i]? = some w1 ∧ w ≤ w1) ∧
    (net.run inputs).weights[i]?
        = some (min (w0 + (coincidences i net inputs : ℚ) * net.eta) 1) := by
  have h1 := runFloat32_weight i net.eta inputs net w0 rfl hi hw
  have hf := runFloat32_fields inputs net
  have hi2 : i < (net.runFloat32 inputs).numSynapses := by rw [hf.2]; exact hi
  have h2 := stepFloat32_weight (net.runFloat32 inputs) next i hi2 _ h1
  obtain ⟨hst, hle1⟩ := iterate_bumpFloat32 net.eta w0 hstored hle
    (coincidencesFloat32 i net inputs)
  refine ⟨h1, ⟨_, _, h1, h2, ?_⟩, run_weight i inputs net w0 heta hi hw hle⟩
  split_ifs
  · rw [hf.1]
    exact le_bumpFloat32 _ _ heta hst hle1
  · exact le_refl _

/-- Witness of C11 (amended) on the network `new OptimizedNetwork(2, 1, 0.1)` with one
synapse 0 → 1 of weight 0: the one tick `step([0, 1])` is a coincidence, after which the
weight is the rounded sum, and the following tick does not lower it. -/
theorem C11_dense_weight_over_run_witness :
    (0 ≤ tenthNet.eta ∧ 0 < tenthNet.numSynapses ∧ tenthNet.weights[0]? = some 0 ∧
      (0 : ℚ) ≤ 1 ∧ Rounding.storeFloat32 0 = 0) ∧
    coincidencesFloat32 0 tenthNet [[0, 1]] = 1 ∧
    (tenthNet.runFloat32 [[0, 1]]).weights[0]?
      = some ((bumpFloat32 tenthNet.eta)^[coincidencesFloat32 0 tenthNet [[0, 1]]] 0) ∧
    (∃ w w1, (tenthNet.runFloat32 [[0, 1]]).weights[0]? = some w ∧
      ((tenthNet.runFloat32 [[0, 1]]).stepFloat32 [0, 1]).weights[0]? = some w1 ∧ w ≤ w1) :=
  have h1 : 0 ≤ tenthNet.eta := by norm_num [tenthNet]
  have h2 : 0 < tenthNet.numSynapses := by decide
  have h3 : tenthNet.weights[0]? = some 0 := rfl
  have hc : coincidesFloat32 tenthNet [0, 1] 0 = true := by
    unfold coincidesFloat32
    rw [tenthNet_stepFloat32_spikes]
    rfl
  have hk : coincidencesFloat32 0 tenthNet [[0, 1]] = 1 := by
    simp only [coincidencesFloat32, hc, if_true]
  ⟨⟨h1, h2, h3, zero_le_one, Rounding.storeFloat32_zero⟩, hk,
    (C11_dense_weight_over_run tenthNet 0 0 [[0, 1]] [0, 1] h1 h2 h3 zero_le_one
      Rounding.storeFloat32_zero).1,
    (C11_dense_weight_over_run tenthNet 0 0 [[0, 1]] [0, 1] h1 h2 h3 zero_le_one
      Rounding.storeFloat32_zero).2.1⟩

end Dense

/-! ## The dense engine: the neuron phase, neuron by neuron -/

namespace Dense

theorem neuronStep_other (net : OptimizedNetwork) (st : List ℚ × List ℕ × List ℕ) (k i : ℕ)
    (h : k ≠ i) :
    (neuronStep net st k).1[i]? = st.1[i]? ∧ (neuronStep net st k).2.1[i]? = st.2.1[i]? ∧
      (neuronStep net st k).2.2[i]? = st.2.2[i]? := by
  unfold neuronStep
  split_ifs with h1
  · exact ⟨rfl, rfl, by simp [List.getElem?_set, h]⟩
  · cases hp : st.1[k]? with
    | none => exact ⟨rfl, rfl, rfl⟩
    | some v =>
      simp only
      split_ifs
      · simp [List.getElem?_set, h]
      · exact ⟨rfl, rfl, rfl⟩

theorem neuronStep_self (net : OptimizedNetwork) (st : List ℚ × List ℕ × List ℕ) (k : ℕ) :
    (neuronStep net st k).1[k]? = cellPotential net.threshold st.1[k]? st.2.2[k]? ∧
      (neuronStep net st k).2.1[k]?
        = cellSpike net.threshold st.1[k]? st.2.1[k]? st.2.2[k]? ∧
      (neuronStep net st k).2.2[k]?
        = cellTimer net.threshold net.refractoryPeriod st.1[k]? st.2.2[k]? := by
  unfold neuronStep cellPotential cellSpike cellTimer
  simp only [List.getD_eq_getElem?_getD]
  split_ifs with h1
  · refine ⟨rfl, rfl, ?_⟩
    rw [List.getElem?_set]
    cases hr : st.2.2[k]? with
    | none => simp [hr] at h1
    | some x =>
      have hlt : k < st.2.2.length := by
        rcases List.getElem?_eq_some_iff.mp hr with ⟨h, _⟩
        exact h
      simp [hlt]
  · cases hp : st.1[k]? with
    | none => exact ⟨by simp [hp], rfl, rfl⟩
    | some v =>
      simp only
      split_ifs with h2
      · refine ⟨?_, ?_, ?_⟩
        · rw [List.getElem?_set]
          have hlt : k < st.1.length := by
            rcases List.getElem?_eq_some_iff.mp hp with ⟨h, _⟩
            exact h
          simp [hlt, h2]
        · rw [List.getElem?_set]
          cases hs : st.2.1[k]? with
          | none =>
            have : ¬ k < st.2.1.length := by
              intro hlt
              rw [List.getElem?_eq_getElem hlt] at hs
              exact Option.noConfusion hs
            simp [this]
          | some y =>
            have hlt : k < st.2.1.length := by
              rcases List.getElem?_eq_some_iff.mp hs with ⟨h, _⟩
              exact h
            simp [hlt]
        · rw [List.getElem?_set]
          cases hs : st.2.2[k]? with
          | none =>
            have : ¬ k < st.2.2.length := by
              intro hlt
              rw [List.getElem?_eq_getElem hlt] at hs
              exact Option.noConfusion hs
            simp [this]
          | some y =>
            have hlt : k < st.2.2.length := by
              rcases List.getElem?_eq_some_iff.mp hs with ⟨h, _⟩
              exact h
            simp [hlt]
      · exact ⟨by simp [h2, hp], rfl, rfl⟩

/-- The neuron loop over the first `n` indices, index by index: neuron `i < n` gets the
cell values computed from the state before the loop, any other index is untouched. -/
theorem neuronLoop_getElem? (net : OptimizedNetwork) (st : List ℚ × List ℕ × List ℕ)
    (n i : ℕ) :
    ((List.range n).foldl (neuronStep net) st).1[i]?
        = (if i < n then cellPotential net.threshold st.1[i]? st.2.2[i]? else st.1[i]?) ∧
      ((List.range n).foldl (neuronStep net) st).2.1[i]?
        = (if i < n then cellSpike net.threshold st.1[i]? st.2.1[i]? st.2.2[i]?
            else st.2.1[i]?) ∧
      ((List.range n).foldl (neuronStep net) st).2.2[i]?
        = (if i < n then cellTimer net.threshold net.refractoryPeriod st.1[i]? st.2.2[i]?
            else st.2.2[i]?) := by
  induction n with
  | zero => simp
  | succ n ih =>
    rw [List.range_succ, List.foldl_append]
    simp only [List.foldl_cons, List.foldl_nil]
    by_cases hni : n = i
    · subst hni
      obtain ⟨h1, h2, h3⟩ := neuronStep_self net ((List.range n).foldl (neuronStep net) st) n
      obtain ⟨g1, g2, g3⟩ := ih
      simp only [lt_irrefl, if_false] at g1 g2 g3
      rw [h1, h2, h3, g1, g2, g3]
      simp
    · obtain ⟨h1, h2, h3⟩ :=
        neuronStep_other net ((List.range n).foldl (neuronStep net) st) n i hni
      obtain ⟨g1, g2, g3⟩ := ih
      have hlt : (i < n + 1) ↔ (i < n) := by omega
      rw [h1, h2, h3, g1, g2, g3]
      simp only [hlt]
      exact ⟨trivial, trivial, trivial⟩

end Dense

/-! ## The dense engine: the state after a step, neuron by neuron -/

namespace Dense

/-- The state after `step`, neuron by neuron. -/
theorem step_getElem? (net : OptimizedNetwork) (inputNeurons : List ℕ) (i : ℕ) :
    (net.step inputNeurons).potentials[i]?
        = (if i < net.numNeurons then
            cellPotential net.threshold (transmit net (inject net inputNeurons))[i]?
              net.refractoryTimers[i]?
          else (transmit net (inject net inputNeurons))[i]?) ∧
      (net.step inputNeurons).spikes[i]?
        = (if i < net.numNeurons then
            cellSpike net.threshold (transmit net (inject net inputNeurons))[i]?
              (List.replicate net.spikes.length 0)[i]? net.refractoryTimers[i]?
          else (List.replicate net.spikes.length 0)[i]?) ∧
      (net.step inputNeurons).refractoryTimers[i]?
        = (if i < net.numNeurons then
            cellTimer net.threshold net.refractoryPeriod
              (transmit net (inject net inputNeurons))[i]? net.refractoryTimers[i]?
          else net.refractoryTimers[i]?) :=
  neuronLoop_getElem? net
    (transmit net (inject net inputNeurons), List.replicate net.spikes.length 0,
      net.refractoryTimers) net.numNeurons i

/-- A neuron whose refractory timer is positive on entry: after `step` its spike entry
is 0, its timer is the old one or one less, and its potential is the integrated one. -/
theorem step_refractory (net : OptimizedNetwork) (inputNeurons : List ℕ) (i r : ℕ)
    (hr : net.refractoryTimers[i]? = some r) (hpos : 0 < r) (hs : i < net.spikes.length) :
    (net.step inputNeurons).spikes[i]? = some 0 ∧
      (net.step inputNeurons).refractoryTimers[i]?
        = some (if i < net.numNeurons then r - 1 else r) ∧
      (net.step inputNeurons).potentials[i]?
        = (transmit net (inject net inputNeurons))[i]? := by
  obtain ⟨h1, h2, h3⟩ := step_getElem? net inputNeurons i
  have hrep : (List.replicate net.spikes.length 0)[i]? = some 0 := by
    rw [List.getElem?_replicate, if_pos hs]
  rw [h1, h2, h3, hr, hrep]
  have hg : (some r).getD 0 > 0 := hpos
  simp only [cellPotential, cellSpike, cellTimer, hg, if_true, Option.map_some']
  split_ifs <;> exact ⟨rfl, rfl, rfl⟩

end Dense

/-! ## The dense engine: the refractory period -/

namespace Dense

/-- A neuron whose spike entry is set by `step` has just fired: its timer is the
refractory period. -/
theorem step_fired (net : OptimizedNetwork) (inputNeurons : List ℕ) (i : ℕ)
    (hlen : net.refractoryTimers.length = net.spikes.length)
    (hspike : (net.step inputNeurons).spikes.getD i 0 ≠ 0) :
    (net.step inputNeurons).refractoryTimers[i]? = some (net.refractoryPeriod % 256) ∧
      i < net.spikes.length := by
  obtain ⟨_, h2, h3⟩ := step_getElem? net inputNeurons i
  rw [List.getD_eq_getElem?_getD, h2] at hspike
  rw [h3]
  have hrep : ∀ hs : ¬ i < net.spikes.length,
      (List.replicate net.spikes.length 0)[i]? = none := by
    intro hs
    rw [List.getElem?_replicate, if_neg hs]
  by_cases hs : i < net.spikes.length
  · have hrep1 : (List.replicate net.spikes.length 0)[i]? = some 0 := by
      rw [List.getElem?_replicate, if_pos hs]
    have hr : net.refractoryTimers[i]? = some (net.refractoryTimers[i]) :=
      List.getElem?_eq_getElem (hlen ▸ hs)
    rw [hrep1] at hspike
    by_cases hn : i < net.numNeurons
    · rw [if_pos hn] at hspike ⊢
      unfold cellSpike at hspike
      unfold cellTimer
      by_cases hg : net.refractoryTimers[i]?.getD 0 > 0
      · rw [if_pos hg] at hspike
        exact absurd rfl hspike
      · rw [if_neg hg] at hspike ⊢
        cases hp : (transmit net (inject net inputNeurons))[i]? with
        | none =>
          rw [hp] at hspike
          exact absurd rfl hspike
        | some v =>
          rw [hp] at hspike
          simp only at hspike ⊢
          by_cases hv : v ≥ net.threshold
          · rw [if_pos hv, hr]
            exact ⟨rfl, hs⟩
          · rw [if_neg hv] at hspike
            exact absurd rfl hspike
    · rw [if_neg hn] at hspike
      exact absurd rfl hspike
  · rw [hrep hs] at hspike
    by_cases hn : i < net.numNeurons
    · rw [if_pos hn] at hspike
      unfold cellSpike at hspike
      split_ifs at hspike
      · exact absurd rfl hspike
      · cases hp : (transmit net (inject net inputNeurons))[i]? with
        | none =>
          rw [hp] at hspike
          exact absurd rfl hspike
        | some v =>
          rw [hp] at hspike
          simp only at hspike
          split_ifs at hspike <;> exact absurd rfl hspike
    · rw [if_neg hn] at hspike
      exact absurd rfl hspike

/-- While the timer of neuron `i` covers the remaining steps of a run, its spike entry is
0 after the run. -/
theorem run_refractory (i : ℕ) (xs : List (List ℕ)) :
    ∀ (net : OptimizedNetwork) (r : ℕ), net.refractoryTimers[i]? = some r →
      i < net.spikes.length → xs ≠ [] → xs.length ≤ r →
      (net.run xs).spikes[i]? = some 0 := by
  induction xs with
  | nil => intro net r _ _ hne _; exact absurd rfl hne
  | cons x rest ih =>
    intro net r hr hs _ hlen
    have hpos : 0 < r := by
      simp only [List.length_cons] at hlen
      omega
    obtain ⟨h1, h2, _⟩ := step_refractory net x i r hr hpos hs
    have hrun : net.run (x :: rest) = (net.step x).run rest := rfl
    rw [hrun]
    by_cases hrest : rest = []
    · subst hrest
      exact h1
    · have hs1 : i < (net.step x).spikes.length := by
        rcases List.getElem?_eq_some_iff.mp h1 with ⟨h, _⟩
        exact h
      refine ih (net.step x) _ h2 hs1 hrest ?_
      simp only [List.length_cons] at hlen
      split_ifs <;> omega

/-- C12: in the dense engine with `refractoryPeriod = 5` (and the timer array as long as
the spike array, as the constructor makes them), if neuron `i` spikes during an
`OptimizedNetwork.step`, then after each of the next five steps, whatever is injected,
`spikes[i]` is 0. -/
theorem C12_dense_refractory (net : OptimizedNetwork) (first : List ℕ)
    (next : List (List ℕ)) (i : ℕ)
    (hper : net.refractoryPeriod = 5)
    (hlen : net.refractoryTimers.length = net.spikes.length)
    (hspike : (net.step first).spikes.getD i 0 ≠ 0)
    (hne : next ≠ []) (hnext : next.length ≤ 5) :
    ((net.step first).run next).spikes[i]? = some 0 := by
  obtain ⟨h1, h2⟩ := step_fired net first i hlen hspike
  rw [hper] at h1
  have hs1 : i < (net.step first).spikes.length := by
    have h3 := (step_getElem? net first i).2.1
    by_contra hcon
    rw [List.getD_eq_getElem?_getD, List.getElem?_eq_none (not_lt.mp hcon)] at hspike
    exact hspike rfl
  exact run_refractory i next (net.step first) (5 % 256) h1 hs1 hne (by omega)

end Dense

namespace Dense

theorem drawnNet_step_spikes : (drawnNet.step [0]).spikes = [1, 0] := by
  norm_num [OptimizedNetwork.step, neuronPhase, neuronStep, transmit, inject, drawnNet,
    List.range, List.range.loop, spikeSet, List.replicate, List.modify]

/-- Witness of C12: in the network drawn with `sampleRand`, neuron 0 fires when it is
injected, and stays silent over the next five steps although it is injected again in
each of them. -/
theorem C12_dense_refractory_witness :
    (drawnNet.refractoryPeriod = 5 ∧
      drawnNet.refractoryTimers.length = drawnNet.spikes.length ∧
      (drawnNet.step [0]).spikes.getD 0 0 ≠ 0 ∧
      [[0], [0], [0], [0], [(0 : ℕ)]] ≠ [] ∧ [[0], [0], [0], [0], [(0 : ℕ)]].length ≤ 5) ∧
    ((drawnNet.step [0]).run [[0], [0], [0], [0], [0]]).spikes[0]? = some 0 :=
  have h3 : (drawnNet.step [0]).spikes.getD 0 0 ≠ 0 := by
    rw [drawnNet_step_spikes]
    decide
  ⟨⟨rfl, rfl, h3, by simp, by simp⟩,
    C12_dense_refractory drawnNet [0] [[0], [0], [0], [0], [0]] 0 rfl rfl h3 (by simp)
      (by simp)⟩

end Dense

/-! ## The dense engine with single-precision stores: a refractory neuron -/

namespace Dense

theorem foldl_modify_store_getElem? {α : Type} (F : α → Option (ℕ × ℚ)) (l : List α) :
    ∀ (p : List ℚ) (i : ℕ),
      (l.foldl
          (fun p a =>
            match F a with
            | some (q, w) => p.modify (fun v => Rounding.storeFloat32 (v + w)) q
            | none => p)
          p)[i]?
        = p[i]?.map (fun v => accumulateFloat32 v (amountsInto i (l.map F))) := by
  induction l with
  | nil =>
    intro p i
    simp [accumulateFloat32, amountsInto]
  | cons a l ih =>
    intro p i
    rw [List.foldl_cons, ih, List.map_cons]
    cases hF : F a with
    | none =>
      simp [amountsInto]
    | some qw =>
      obtain ⟨q, w⟩ := qw
      simp only [List.getElem?_modify]
      cases hp : p[i]? with
      | none => rfl
      | some v =>
        by_cases hq : q = i
        · simp [hq, amountsInto, accumulateFloat32]
        · simp [hq, amountsInto]

theorem injectFloat32_getElem? (net : OptimizedNetwork) (inputNeurons : List ℕ) (i : ℕ) :
    (injectFloat32 net inputNeurons)[i]?
      = net.potentials[i]?.map
          (fun v => accumulateFloat32 v (injectedAmounts net inputNeurons i)) := by
  have h := foldl_modify_store_getElem? (fun idx : ℕ => some (idx, net.threshold))
    inputNeurons net.potentials i
  exact h

theorem transmitFloat32_getElem? (net : OptimizedNetwork) (p : List ℚ) (i : ℕ) :
    (transmitFloat32 net p)[i]?
      = p[i]?.map (fun v => accumulateFloat32 v (transmittedAmounts net i)) := by
  have h := foldl_modify_store_getElem? (pulse net) (List.range net.numSynapses) p i
  have hfun : (fun (p : List ℚ) (j : ℕ) =>
        match pulse net j with
        | some (q, w) => p.modify (fun v => Rounding.storeFloat32 (v + w)) q
        | none => p)
      = (fun (p : List ℚ) (j : ℕ) =>
        if spikeSet net.spikes net.pre[j]? then
          match net.post[j]?, net.weights[j]? with
          | some postIdx, some w => p.modify (fun v => Rounding.storeFloat32 (v + w)) postIdx
          | _, _ => p
        else p) := by
    funext p j
    unfold pulse
    by_cases hs : spikeSet net.spikes net.pre[j]? = true
    · simp only [hs, if_true]
      cases net.post[j]? <;> cases net.weights[j]? <;> rfl
    · simp only [hs]
      rfl
  rw [hfun] at h
  exact h

/-- The potentials that enter the neuron phase of `step`, neuron by neuron: the old
potential after the `+=` of every injected and then of every transmitted amount. -/
theorem integratedFloat32_getElem? (net : OptimizedNetwork) (inputNeurons : List ℕ)
    (i : ℕ) :
    (transmitFloat32 net (injectFloat32 net inputNeurons))[i]?
      = net.potentials[i]?.map
          (fun v => accumulateFloat32 (accumulateFloat32 v (injectedAmounts net inputNeurons i))
            (transmittedAmounts net i)) := by
  rw [transmitFloat32_getElem?, injectFloat32_getElem?]
  cases net.potentials[i]? <;> rfl

/-- The state after `step` with single-precision stores, neuron by neuron. -/
theorem stepFloat32_getElem? (net : OptimizedNetwork) (inputNeurons : List ℕ) (i : ℕ) :
    (net.stepFloat32 inputNeurons).potentials[i]?
        = (if i < net.numNeurons then
            cellPotential net.threshold
              (transmitFloat32 net (injectFloat32 net inputNeurons))[i]?
              net.refractoryTimers[i]?
          else (transmitFloat32 net (injectFloat32 net inputNeurons))[i]?) ∧
      (net.stepFloat32 inputNeurons).spikes[i]?
        = (if i < net.numNeurons then
            cellSpike net.threshold (transmitFloat32 net (injectFloat32 net inputNeurons))[i]?
              (List.replicate net.spikes.length 0)[i]? net.refractoryTimers[i]?
          else (List.replicate net.spikes.length 0)[i]?) ∧
      (net.stepFloat32 inputNeurons).refractoryTimers[i]?
        = (if i < net.numNeurons then
            cellTimer net.threshold net.refractoryPeriod
              (transmitFloat32 net (injectFloat32 net inputNeurons))[i]?
              net.refractoryTimers[i]?
          else net.refractoryTimers[i]?) :=
  neuronLoop_getElem? net
    (transmitFloat32 net (injectFloat32 net inputNeurons), List.replicate net.spikes.length 0,
      net.refractoryTimers) net.numNeurons i

/-- C16 as stated fails: in the sample state where neuron 0 is refractory (timer 5),
`step([0])` raises `potentials[0]` from 0 to 1. -/
theorem C16_counterexample :
    refractoryNet.refractoryTimers[0]? = some 5 ∧
    refractoryNet.potentials[0]? = some 0 ∧
    (refractoryNet.stepFloat32 [0]).potentials[0]? = some 1 := by
  refine ⟨rfl, rfl, ?_⟩
  norm_num [OptimizedNetwork.stepFloat32, neuronPhase, neuronStep, transmitFloat32,
    injectFloat32, refractoryNet, List.range, List.range.loop, spikeSet, List.replicate,
    List.modify, Rounding.storeFloat32_one]

/-- C16 (amended): in the dense engine a neuron in its refractory period does not fire
and its potential is not reset, but it still integrates input: for every
`OptimizedNetwork.step` in which `refractoryTimers[i] > 0` on entry, `spikes[i]` is 0
after the step and `potentials[i]` after the step is the value before it after
`+= threshold` for every occurrence of `i` in `inputNeurons` and then `+= weights[j]` for
every synapse `j` into `i` whose pre neuron has its spike set, each sum rounded by the
store into the `Float32Array`; so it is the same as before when nothing is injected into
`i` and nothing is transmitted to `i`. -/
theorem C16_dense_refractory_integrates (net : OptimizedNetwork) (inputNeurons : List ℕ)
    (i r : ℕ) (hr : net.refractoryTimers[i]? = some r) (hpos : 0 < r) :
    (net.stepFloat32 inputNeurons).spikes.getD i 0 = 0 ∧
    (net.stepFloat32 inputNeurons).potentials[i]?
      = net.potentials[i]?.map
          (fun v => accumulateFloat32 (accumulateFloat32 v (injectedAmounts net inputNeurons i))
            (transmittedAmounts net i)) ∧
    (injectedAmounts net inputNeurons i = [] → transmittedAmounts net i = [] →
      (net.stepFloat32 inputNeurons).potentials[i]? = net.potentials[i]?) := by
  obtain ⟨h1, h2, _⟩ := stepFloat32_getElem? net inputNeurons i
  have hg : (some r).getD 0 > 0 := hpos
  have hpot : (net.stepFloat32 inputNeurons).potentials[i]?
      = net.potentials[i]?.map
          (fun v => accumulateFloat32 (accumulateFloat32 v (injectedAmounts net inputNeurons i))
            (transmittedAmounts net i)) := by
    rw [h1, hr, ← integratedFloat32_getElem?]
    simp only [cellPotential, hg, if_true]
    split_ifs <;> rfl
  refine ⟨?_, hpot, ?_⟩
  · rw [List.getD_eq_getElem?_getD, h2, hr]
    simp only [cellSpike, hg, if_true]
    rw [List.getElem?_replicate]
    split_ifs <;> rfl
  · intro hi ht
    rw [hpot, hi, ht]
    cases net.potentials[i]? with
    | none => rfl
    | some v => rfl

theorem seedNet_stepFloat32 : seedNet.stepFloat32 [0, 1] = chargedNet := by
  norm_num [OptimizedNetwork.stepFloat32, neuronPhase, neuronStep, transmitFloat32,
    injectFloat32, hebbianFloat32, bumpFloat32, seedNet, chargedNet, List.range,
    List.range.loop, spikeSet, List.replicate, List.modify, Rounding.storeFloat32_one,
    Rounding.storeFloat32_fifth]

theorem chargedNet_accumulate :
    accumulateFloat32 (accumulateFloat32 0 (injectedAmounts chargedNet [1] 1))
      (transmittedAmounts chargedNet 1) = 5033165 / 4194304 := by
  have h1 : injectedAmounts chargedNet [1] 1 = [1] := rfl
  have h2 : transmittedAmounts chargedNet 1 = [13421773 / 67108864] := rfl
  rw [h1, h2]
  simp only [accumulateFloat32, List.foldl_cons, List.foldl_nil, zero_add,
    Rounding.storeFloat32_one]
  have h3 : (1 : ℚ) + 13421773 / 67108864 = 80530637 / 67108864 := by norm_num
  rw [h3, Rounding.storeFloat32_one_fifth]

/-- Witness of C16 (amended) on the state that `new OptimizedNetwork(2, 1, 0.1)` with the
weight draw 0.1 is in after `step([0, 1])`: both neurons are refractory and have their
spike set.  In `step([1])` neuron 1 receives the threshold 1 and then the weight
`13421773 / 2^26` of the synapse from neuron 0; it does not fire and its potential
becomes `5033165 / 2^22`, which prints as 1.2000000476837158. -/
theorem C16_dense_refractory_integrates_witness :
    seedNet.stepFloat32 [0, 1] = chargedNet ∧
    (chargedNet.refractoryTimers[1]? = some 5 ∧ 0 < 5) ∧
    (chargedNet.stepFloat32 [1]).spikes.getD 1 0 = 0 ∧
    (chargedNet.stepFloat32 [1]).potentials[1]?
      = chargedNet.potentials[1]?.map
          (fun v => accumulateFloat32 (accumulateFloat32 v (injectedAmounts chargedNet [1] 1))
            (transmittedAmounts chargedNet 1)) ∧
    accumulateFloat32 (accumulateFloat32 0 (injectedAmounts chargedNet [1] 1))
      (transmittedAmounts chargedNet 1) = 5033165 / 4194304 :=
  ⟨seedNet_stepFloat32, ⟨rfl, by decide⟩,
    (C16_dense_refractory_integrates chargedNet [1] 1 5 rfl (by decide)).1,
    (C16_dense_refractory_integrates chargedNet [1] 1 5 rfl (by decide)).2.1,
    chargedNet_accumulate⟩

end Dense

/-! ## The layered network: `Neuron.update` against its reference, and the STDP branches -/

namespace Layered

/-- C13: `Neuron.update(time, dt)` equals the reference written from the specification
(new state and return value), for every neuron state; the returned value is the new
`spiked` flag, the new threshold is the one adapted from the `spiked` flag on entry, and
the potential is exactly 0 after a tick in which the neuron fired. -/
theorem C13_update_matches_reference (n : Neuron) (time dt : ℚ) :
    n.update time dt = n.updateReference time dt ∧
    (n.update time dt).2 = (n.update time dt).1.spiked ∧
    (n.update time dt).1.threshold
      = clamp (n.threshold + (if n.spiked then 1 / 100 else -(1 / 1000)))
          (1 / 2 * n.baseThreshold) (3 / 2 * n.baseThreshold) ∧
    ((n.update time dt).2 = true → (n.update time dt).1.potential = 0) := by
  have hth : n.adaptedThreshold
      = clamp (n.threshold + (if n.spiked then 1 / 100 else -(1 / 1000)))
          (1 / 2 * n.baseThreshold) (3 / 2 * n.baseThreshold) := by
    unfold Neuron.adaptedThreshold clamp
    rw [mul_comm n.baseThreshold (1 / 2), mul_comm n.baseThreshold (3 / 2)]
  have hp : n.leak * n.potential = n.potential * n.leak := mul_comm _ _
  have href : n.updateReference time dt
      = ({ n with
            threshold := n.adaptedThreshold
            spiked := decide (n.potential * n.leak ≥ n.adaptedThreshold)
            potential :=
              if decide (n.potential * n.leak ≥ n.adaptedThreshold) = true then 0
              else n.potential * n.leak
            lastSpikeTime :=
              if decide (n.potential * n.leak ≥ n.adaptedThreshold) = true then .fin time
              else n.lastSpikeTime
            firingRate := 99 / 100 * (n.firingRate
              + (if decide (n.potential * n.leak ≥ n.adaptedThreshold) = true then 1
                  else 0)) },
          decide (n.potential * n.leak ≥ n.adaptedThreshold)) := by
    unfold Neuron.updateReference
    simp only [← hth, hp]
  by_cases hf : n.potential * n.leak ≥ n.adaptedThreshold
  · refine ⟨?_, ?_, ?_, ?_⟩
    · rw [href]
      simp only [Neuron.update, hf, if_true, decide_True]
      rw [mul_comm (99 / 100 : ℚ)]
    · simp only [Neuron.update, hf, if_true]
    · simp only [Neuron.update, hf, if_true]
      exact hth
    · intro _
      simp only [Neuron.update, hf, if_true]
  · refine ⟨?_, ?_, ?_, ?_⟩
    · rw [href]
      simp only [Neuron.update, hf, if_false, decide_False, Bool.false_eq_true, add_zero]
      rw [mul_comm (99 / 100 : ℚ)]
    · simp only [Neuron.update, hf, if_false]
    · simp only [Neuron.update, hf, if_false]
      exact hth
    · intro h
      simp only [Neuron.update, hf, if_false] at h
      exact absurd h (by simp)

/-- The weight after `stdpUpdate` in terms of its two branch conditions. -/
theorem stdpUpdate_weight (exp : ℚ → ℚ) (syn : Synapse) (pre post : Neuron) (t dt : ℚ) :
    (syn.stdpUpdate exp pre post t dt).weight
      = max (min
          (syn.weight
            + (if potentiates pre post = true then
                syn.A_plus
                  * expDiv exp (post.lastSpikeTime.sub pre.lastSpikeTime).neg syn.tau_plus
              else 0)
            + (if depresses pre post = true then
                -syn.A_minus
                  * expDiv exp (post.lastSpikeTime.sub pre.lastSpikeTime) syn.tau_minus
              else 0))
          syn.maxWeight) syn.minWeight := by
  unfold Synapse.stdpUpdate potentiates depresses
  by_cases h1 : pre.spiked = true <;> by_cases h2 : post.spiked = true <;>
    by_cases h3 : (post.lastSpikeTime.sub pre.lastSpikeTime).isPos = true <;>
    by_cases h4 : (post.lastSpikeTime.sub pre.lastSpikeTime).isNeg = true <;>
    simp [h1, h2, h3, h4]

theorem not_pos_and_neg (d : TimeDiff) : ¬ (d.isPos = true ∧ d.isNeg = true) := by
  cases d with
  | nan => simp [TimeDiff.isPos]
  | negInf => simp [TimeDiff.isPos]
  | posInf => simp [TimeDiff.isNeg]
  | fin x =>
    simp only [TimeDiff.isPos, TimeDiff.isNeg, decide_eq_true_eq]
    intro h
    exact lt_asymm h.1 h.2

/-- C15 as stated fails: there is no pair of pre and post neuron states for which one
`stdpUpdate` call takes both the potentiation and the depression branch, since the first
needs `delta_t > 0` and the second `delta_t < 0` for the same `delta_t`. -/
theorem C15_counterexample :
    ¬ ∃ pre post : Neuron, potentiates pre post = true ∧ depresses pre post = true := by
  rintro ⟨pre, post, h1, h2⟩
  simp only [potentiates, depresses, Bool.and_eq_true] at h1 h2
  exact not_pos_and_neg _ ⟨h1.2, h2.2⟩

/-- C15 (amended): in every synapse state, also when both `pre.spiked` and `post.spiked`
are true, a single `stdpUpdate` call applies at most one of the two changes: the
potentiation `weight += A_plus·exp(−Δt/tau_plus)` when `pre.spiked` and `Δt > 0`, the
depression `weight −= A_minus·exp(Δt/tau_minus)` when `post.spiked` and `Δt < 0`, for
the same `Δt = post.lastSpikeTime − pre.lastSpikeTime`, followed by the clamp. -/
theorem C15_stdp_branches_exclusive (exp : ℚ → ℚ) (syn : Synapse) (pre post : Neuron)
    (t dt : ℚ) :
    ¬ (potentiates pre post = true ∧ depresses pre post = true) ∧
    (syn.stdpUpdate exp pre post t dt).weight
      = max (min
          (syn.weight
            + (if potentiates pre post = true then
                syn.A_plus
                  * expDiv exp (post.lastSpikeTime.sub pre.lastSpikeTime).neg syn.tau_plus
              else 0)
            + (if depresses pre post = true then
                -syn.A_minus
                  * expDiv exp (post.lastSpikeTime.sub pre.lastSpikeTime) syn.tau_minus
              else 0))
          syn.maxWeight) syn.minWeight := by
  refine ⟨?_, stdpUpdate_weight exp syn pre post t dt⟩
  rintro ⟨h1, h2⟩
  simp only [potentiates, depresses, Bool.and_eq_true] at h1 h2
  exact not_pos_and_neg _ ⟨h1.2, h2.2⟩

end Layered

/-! ## The layered network: when a spike is delivered -/

namespace Layered

theorem drain_queue (syn : Synapse) (t : ℚ) (q : List ℚ) :
    ∀ acc : List ℚ × List Neuron,
      (q.foldl (syn.drain t) acc).1 = acc.1 ++ q.filter (fun x => !syn.due t x) := by
  induction q with
  | nil => intro acc; simp
  | cons x q ih =>
    intro acc
    rw [List.foldl_cons, ih]
    unfold Synapse.drain Synapse.due
    by_cases h : t ≥ x + syn.delay
    · simp [h]
    · simp [h]

theorem neuronAt_spiked_of_map (l l1 : List Neuron)
    (h : l1.map Neuron.withoutPotential = l.map Neuron.withoutPotential) (i : ℕ) :
    (neuronAt l1 i).spiked = (neuronAt l i).spiked := by
  have h1 : ∀ l0 : List Neuron, (neuronAt l0 i).spiked
      = (((l0.map Neuron.withoutPotential)[i]?).getD Neuron.blank).spiked := by
    intro l0
    rw [neuronAt_eq, List.getElem?_map]
    cases l0[i]? <;> rfl
  rw [h1 l1, h1 l, h]

/-- The queue left by `transmitSpike`. -/
theorem transmitSpike_queue (syn : Synapse) (ns : List Neuron) (t dt : ℚ) :
    (syn.transmitSpike ns t dt).1
      = { syn with spikeQueue := syn.queueAfter (neuronAt ns syn.pre).spiked t } := by
  have hs : (neuronAt (syn.spikeQueue.foldl (syn.drain t) ([], ns)).2 syn.pre).spiked
      = (neuronAt ns syn.pre).spiked :=
    neuronAt_spiked_of_map ns _ (foldl_drain_withoutPotential syn t syn.spikeQueue ([], ns))
      syn.pre
  simp only [Synapse.transmitSpike, hs, drain_queue, List.nil_append, Synapse.queueAfter,
    Synapse.pending]
  cases (neuronAt ns syn.pre).spiked <;> simp

/-- The queues left by the transmission phase, synapse by synapse. -/
theorem transmitAll_getElem? (t dt : ℚ) (syns : List Synapse) :
    ∀ (ns : List Neuron) (j : ℕ),
      (transmitAll t dt syns ns).1[j]?
        = syns[j]?.map
            (fun syn => { syn with
              spikeQueue := syn.queueAfter (neuronAt ns syn.pre).spiked t }) := by
  induction syns with
  | nil => intro ns j; rfl
  | cons syn rest ih =>
    intro ns j
    simp only [transmitAll]
    cases j with
    | zero =>
      simp only [List.getElem?_cons_zero, Option.map_some']
      rw [transmitSpike_queue]
    | succ j =>
      simp only [List.getElem?_cons_succ]
      rw [ih]
      have hs : ∀ i, (neuronAt (syn.transmitSpike ns t dt).2 i).spiked = (neuronAt ns i).spiked :=
        fun i => neuronAt_spiked_of_map ns _ (transmitSpike_withoutPotential syn ns t dt) i
      simp only [hs]

/-- The synapse `j` after `SNN.update`: same endpoints and delay, and the queue left by
`transmitSpike` for the `spiked` flag the pre neuron had on entry. -/
theorem update_synapse (exp : ℚ → ℚ) (s : SNN) (t dt : ℚ) (j : ℕ) (syn : Synapse)
    (h : s.synapses[j]? = some syn) :
    ∃ syn1, (s.update exp t dt).1.synapses[j]? = some syn1 ∧ syn1.pre = syn.pre ∧
      syn1.post = syn.post ∧ syn1.delay = syn.delay ∧
      syn1.spikeQueue = syn.queueAfter (neuronAt s.neurons syn.pre).spiked t := by
  simp only [SNN.update, List.getElem?_map, transmitAll_getElem?, h, Option.map_some']
  exact ⟨_, rfl, rfl, rfl, rfl, rfl⟩

end Layered

namespace Layered

theorem receiveSpike_eq_charge (n : Neuron) (w : ℚ) (t : Option ℚ) :
    n.receiveSpike w t = n.charge w := rfl

theorem charge_zero (n : Neuron) : n.charge 0 = n := by
  unfold Neuron.charge Neuron.signed
  cases n
  simp

theorem charge_charge (n : Neuron) (a b : ℚ) : (n.charge a).charge b = n.charge (a + b) := by
  unfold Neuron.charge Neuron.signed
  cases h : n.isInhibitory
  · simp [h, add_assoc]
  · simp [h, add_assoc, add_comm]

/-- The neurons left by the `filter` loop of `transmitSpike`, neuron by neuron. -/
theorem drain_getElem? (syn : Synapse) (t : ℚ) (q : List ℚ) :
    ∀ (acc : List ℚ × List Neuron) (i : ℕ),
      (q.foldl (syn.drain t) acc).2[i]?
        = acc.2[i]?.map (fun n =>
            n.charge (if syn.post = i then ((q.filter (syn.due t)).length : ℚ) * syn.weight
              else 0)) := by
  induction q with
  | nil =>
    intro acc i
    simp only [List.foldl_nil, List.filter_nil, List.length_nil, Nat.cast_zero, zero_mul,
      ite_self, charge_zero]
    cases acc.2[i]? <;> rfl
  | cons x q ih =>
    intro acc i
    rw [List.foldl_cons, ih]
    by_cases hd : t ≥ x + syn.delay
    · have hdue : syn.due t x = true := decide_eq_true hd
      simp only [Synapse.drain, hd, if_true, List.getElem?_modify, List.filter_cons, hdue,
        List.length_cons, receiveSpike_eq_charge]
      cases acc.2[i]? with
      | none => rfl
      | some n =>
        by_cases hp : syn.post = i
        · simp only [hp, if_true, Option.map_some', Option.map_eq_map, charge_charge]
          congr 2
          push_cast
          ring
        · simp only [hp, if_false, Option.map_some', Option.map_eq_map]
    · have hdue : syn.due t x = false := decide_eq_false hd
      simp only [Synapse.drain, hd, if_false, List.filter_cons, hdue, Bool.false_eq_true]

theorem transmitSpike_getElem? (syn : Synapse) (ns : List Neuron) (t dt : ℚ) (i : ℕ) :
    (syn.transmitSpike ns t dt).2[i]?
      = ns[i]?.map (fun n =>
          n.charge (if syn.post = i then (syn.dueCount t : ℚ) * syn.weight else 0)) := by
  simp only [Synapse.transmitSpike]
  exact drain_getElem? syn t syn.spikeQueue ([], ns) i

/-- The neurons left by the transmission phase, neuron by neuron: each has received the
total weight delivered to it. -/
theorem transmitAll_neurons_getElem? (t dt : ℚ) (syns : List Synapse) :
    ∀ (ns : List Neuron) (i : ℕ),
      (transmitAll t dt syns ns).2[i]? = ns[i]?.map (fun n => n.charge (delivered syns t i)) := by
  induction syns with
  | nil =>
    intro ns i
    simp only [transmitAll, delivered, List.map_nil, List.sum_nil, charge_zero]
    cases ns[i]? <;> rfl
  | cons syn rest ih =>
    intro ns i
    simp only [transmitAll]
    rw [ih, transmitSpike_getElem?]
    cases ns[i]? with
    | none => rfl
    | some n =>
      simp only [Option.map_some', charge_charge, delivered, List.map_cons, List.sum_cons]

end Layered

namespace Layered

theorem relayNet_tick0 : relayNet.update (fun _ => 1) 0 1 = (relayNet1, [0]) := by
  norm_num [SNN.update, relayNet, relayNet1, transmitAll, Synapse.transmitSpike, Synapse.drain,
    neuronAt, Neuron.update, Neuron.adaptedThreshold, Synapse.stdpUpdate, SpikeTime.sub,
    TimeDiff.isPos, TimeDiff.isNeg, spikedIndices, List.range, List.range.loop, List.filter,
    Synapse.new, Neuron.newDefault, Neuron.new, Neuron.blank]

theorem relayNet_tick1 : relayNet1.update (fun _ => 1) 1 1 = (relayNet2, []) := by
  norm_num [SNN.update, relayNet1, relayNet2, transmitAll, Synapse.transmitSpike,
    Synapse.drain, neuronAt, Neuron.update, Neuron.adaptedThreshold, Synapse.stdpUpdate,
    SpikeTime.sub, TimeDiff.isPos, TimeDiff.isNeg, spikedIndices, List.range, List.range.loop,
    List.filter, Synapse.new, Neuron.newDefault, Neuron.new, Neuron.blank]

theorem relayNet_transmit1 :
    (transmitAll 1 1 relayNet1.synapses relayNet1.neurons).2.map Neuron.potential = [0, 0] := by
  norm_num [relayNet1, transmitAll, Synapse.transmitSpike, Synapse.drain, neuronAt,
    Synapse.new, Neuron.newDefault, Neuron.new, Neuron.blank]

theorem relayNet_transmit2 :
    (transmitAll 2 1 relayNet2.synapses relayNet2.neurons).2.map Neuron.potential
      = [0, 1 / 4] := by
  norm_num [relayNet2, transmitAll, Synapse.transmitSpike, Synapse.drain, neuronAt,
    Synapse.new, Neuron.newDefault, Neuron.new, Neuron.blank, Neuron.receiveSpike,
    List.modify]

end Layered

namespace Layered

/-- C14 as stated fails: in `relayNet` (one synapse input 0 → output 1, delay 0, weight
one quarter) the input neuron fires in the tick at time 0; the transmission phase of the
next tick (time 1) leaves the output potential at 0 and only queues the spike; the
weight reaches the output potential in the transmission phase of the tick after that
(time 2). -/
theorem C14_counterexample :
    relayNet.synapses.map Synapse.delay = [0] ∧
    (relayNet.update (fun _ => 1) 0 1).2 = [0] ∧
    (transmitAll 1 1 (relayNet.update (fun _ => 1) 0 1).1.synapses
        (relayNet.update (fun _ => 1) 0 1).1.neurons).2.map Neuron.potential = [0, 0] ∧
    (((relayNet.update (fun _ => 1) 0 1).1.update (fun _ => 1) 1 1).1.synapses.map
        Synapse.spikeQueue = [[1]]) ∧
    (transmitAll 2 1 ((relayNet.update (fun _ => 1) 0 1).1.update (fun _ => 1) 1 1).1.synapses
        ((relayNet.update (fun _ => 1) 0 1).1.update (fun _ => 1) 1 1).1.neurons).2.map
      Neuron.potential = [0, 1 / 4] := by
  refine ⟨rfl, ?_, ?_, ?_, ?_⟩
  · rw [relayNet_tick0]
  · rw [relayNet_tick0]
    exact relayNet_transmit1
  · rw [relayNet_tick0]
    show (relayNet1.update (fun _ => 1) 1 1).1.synapses.map Synapse.spikeQueue = [[1]]
    rw [relayNet_tick1]
    rfl
  · rw [relayNet_tick0]
    show (transmitAll 2 1 (relayNet1.update (fun _ => 1) 1 1).1.synapses
      (relayNet1.update (fun _ => 1) 1 1).1.neurons).2.map Neuron.potential = [0, 1 / 4]
    rw [relayNet_tick1]
    exact relayNet_transmit2

/-- C14 (amended): for a synapse with delay 0 in a layered network stepped with
non-decreasing `currentTime`, a spike fired by the pre neuron in the neuron-update phase
of tick k is only queued in the transmission phase of tick k+1, behind the deliveries of
that phase (which act on the queue fixed before the firing), and is delivered to the
post neuron's potential (`receiveSpike` with the synapse weight) in the transmission
phase of tick k+2: the propagation delay is two ticks.  Here `s` is the state before
tick k, `t1`, `t2`, `t3` are the times of ticks k, k+1, k+2, and the last part gives the
potential of every neuron after the transmission phase of tick k+2 as the potential
before it plus (minus, for an inhibitory neuron) the weight of every synapse into it,
once per due spike. -/
theorem C14_delivery_two_ticks (exp : ℚ → ℚ) (s : SNN) (j : ℕ) (syn : Synapse)
    (t1 dt1 t2 dt2 t3 dt3 : ℚ)
    (hsyn : s.synapses[j]? = some syn) (hdelay : syn.delay = 0)
    (hfire : (neuronAt (s.update exp t1 dt1).1.neurons syn.pre).spiked = true)
    (h23 : t2 ≤ t3) :
    ∃ syn1 syn2,
      (s.update exp t1 dt1).1.synapses[j]? = some syn1 ∧
      ((s.update exp t1 dt1).1.update exp t2 dt2).1.synapses[j]? = some syn2 ∧
      syn2.post = syn.post ∧
      syn1.spikeQueue = syn.queueAfter (neuronAt s.neurons syn.pre).spiked t1 ∧
      syn2.spikeQueue = syn1.pending t2 ++ [t2] ∧
      syn2.dueCount t3 = ((syn1.pending t2).filter (syn2.due t3)).length + 1 ∧
      ∀ i : ℕ, (transmitAll t3 dt3 ((s.update exp t1 dt1).1.update exp t2 dt2).1.synapses
            ((s.update exp t1 dt1).1.update exp t2 dt2).1.neurons).2[i]?
          = ((s.update exp t1 dt1).1.update exp t2 dt2).1.neurons[i]?.map
              (fun n : Neuron => n.charge
                (delivered ((s.update exp t1 dt1).1.update exp t2 dt2).1.synapses t3 i)) := by
  obtain ⟨syn1, h1, hpre1, hpost1, hdel1, hq1⟩ := update_synapse exp s t1 dt1 j syn hsyn
  obtain ⟨syn2, h2, _, hpost2, hdel2, hq2⟩ :=
    update_synapse exp (s.update exp t1 dt1).1 t2 dt2 j syn1 h1
  rw [hpre1, hfire] at hq2
  have hq2b : syn2.spikeQueue = syn1.pending t2 ++ [t2] := by
    rw [hq2]
    rfl
  refine ⟨syn1, syn2, h1, h2, hpost2.trans hpost1, hq1, hq2b, ?_, ?_⟩
  · have hdue : syn2.due t3 t2 = true := by
      unfold Synapse.due
      rw [hdel2, hdel1, hdelay, add_zero]
      exact decide_eq_true h23
    unfold Synapse.dueCount
    rw [hq2b, List.filter_append, List.length_append]
    simp [hdue]
  · intro i
    exact transmitAll_neurons_getElem? t3 dt3 _ _ i

/-- Witness of C14 (amended) on `relayNet` with ticks at times 0, 1 and 2. -/
theorem C14_delivery_two_ticks_witness :
    (relayNet.synapses[0]? = some (Synapse.new 0 1 (1 / 4) 0) ∧
      (Synapse.new 0 1 (1 / 4) 0).delay = 0 ∧
      (neuronAt (relayNet.update (fun _ => 1) 0 1).1.neurons
        (Synapse.new 0 1 (1 / 4) 0).pre).spiked = true ∧
      (1 : ℚ) ≤ 2) ∧
    ∃ syn1 syn2,
      (relayNet.update (fun _ => 1) 0 1).1.synapses[0]? = some syn1 ∧
      ((relayNet.update (fun _ => 1) 0 1).1.update (fun _ => 1) 1 1).1.synapses[0]?
        = some syn2 ∧
      syn2.spikeQueue = syn1.pending 1 ++ [1] ∧
      syn2.dueCount 2 = ((syn1.pending 1).filter (syn2.due 2)).length + 1 :=
  have hf : (neuronAt (relayNet.update (fun _ => 1) 0 1).1.neurons
      (Synapse.new 0 1 (1 / 4) 0).pre).spiked = true := by
    rw [relayNet_tick0]
    rfl
  have h12 : (1 : ℚ) ≤ 2 := by norm_num
  ⟨⟨rfl, rfl, hf, h12⟩,
    match C14_delivery_two_ticks (fun _ => 1) relayNet 0 (Synapse.new 0 1 (1 / 4) 0)
      0 1 1 1 2 1 rfl rfl hf h12 with
    | ⟨syn1, syn2, h1, h2, _, _, h5, h6, _⟩ => ⟨syn1, syn2, h1, h2, h5, h6⟩⟩

end Layered

/-! ## The layered network: runs with non-decreasing time -/

namespace Layered

theorem timedBy_of_withoutPotential (cur : Option ℚ) (n m : Neuron)
    (h : n.withoutPotential = m.withoutPotential) (hn : n.TimedBy cur) : m.TimedBy cur := by
  have h1 : n.withoutPotential.spiked = m.withoutPotential.spiked :=
    congrArg Neuron.spiked h
  have h2 : n.withoutPotential.lastSpikeTime = m.withoutPotential.lastSpikeTime :=
    congrArg Neuron.lastSpikeTime h
  change n.spiked = m.spiked at h1
  change n.lastSpikeTime = m.lastSpikeTime at h2
  unfold Neuron.TimedBy at hn ⊢
  rw [← h1, ← h2]
  exact hn

theorem timedBy_of_map (cur : Option ℚ) (l l1 : List Neuron)
    (h : l1.map Neuron.withoutPotential = l.map Neuron.withoutPotential)
    (hl : ∀ n ∈ l, n.TimedBy cur) : ∀ n ∈ l1, n.TimedBy cur := by
  intro m hm
  have h1 : m.withoutPotential ∈ l1.map Neuron.withoutPotential := List.mem_map_of_mem _ hm
  rw [h, List.mem_map] at h1
  obtain ⟨n, hn, he⟩ := h1
  exact timedBy_of_withoutPotential cur n m he (hl n hn)

theorem blank_timedBy (cur : Option ℚ) : Neuron.blank.TimedBy cur := by
  constructor
  · intro h
    exact absurd h (by decide)
  · intro x h
    exact SpikeTime.noConfusion h

theorem neuronAt_timedBy (cur : Option ℚ) (l : List Neuron) (hl : ∀ n ∈ l, n.TimedBy cur)
    (i : ℕ) : (neuronAt l i).TimedBy cur := by
  rcases neuronAt_mem_or_blank l i with h | h
  · exact hl _ h
  · rw [h]
    exact blank_timedBy cur

/-- After `Neuron.update` at a time not before the previous one, the spike record is
consistent with the new time. -/
theorem update_timedBy (cur : Option ℚ) (n : Neuron) (t dt : ℚ) (hn : n.TimedBy cur)
    (ht : ∀ T, cur = some T → T ≤ t) : (n.update t dt).1.TimedBy (some t) := by
  simp only [Neuron.update]
  split_ifs
  · constructor
    · intro _
      exact ⟨t, rfl, rfl⟩
    · intro x hx
      simp only [SpikeTime.fin.injEq] at hx
      exact ⟨t, rfl, le_of_eq hx.symm⟩
  · constructor
    · intro h
      exact absurd h (by simp)
    · intro x hx
      obtain ⟨T, hT, hle⟩ := hn.2 x hx
      exact ⟨t, rfl, le_trans hle (ht T hT)⟩

/-- Two neurons whose spike records are consistent with the same time make `stdpUpdate`
take neither branch. -/
theorem no_branch (cur : Option ℚ) (pre post : Neuron) (hpre : pre.TimedBy cur)
    (hpost : post.TimedBy cur) :
    potentiates pre post = false ∧ depresses pre post = false := by
  constructor
  · unfold potentiates
    cases hs : pre.spiked with
    | false => rfl
    | true =>
      obtain ⟨T, hT, hlast⟩ := hpre.1 hs
      rw [hlast]
      cases hp : post.lastSpikeTime with
      | negInf => rfl
      | fin x =>
        obtain ⟨T1, hT1, hle⟩ := hpost.2 x hp
        have hTT : T1 = T := by
          rw [hT] at hT1
          exact (Option.some.inj hT1).symm
        simp only [SpikeTime.sub, TimeDiff.isPos, Bool.true_and, decide_eq_false_iff_not,
          not_lt]
        rw [← hTT]
        linarith
  · unfold depresses
    cases hs : post.spiked with
    | false => rfl
    | true =>
      obtain ⟨T, hT, hlast⟩ := hpost.1 hs
      rw [hlast]
      cases hp : pre.lastSpikeTime with
      | negInf => rfl
      | fin x =>
        obtain ⟨T1, hT1, hle⟩ := hpre.2 x hp
        have hTT : T1 = T := by
          rw [hT] at hT1
          exact (Option.some.inj hT1).symm
        simp only [SpikeTime.sub, TimeDiff.isNeg, Bool.true_and, decide_eq_false_iff_not,
          not_lt]
        rw [← hTT]
        linarith

/-- With neither branch taken and the weight within its bounds, `stdpUpdate` keeps the
weight. -/
theorem stdpUpdate_keeps_weight (exp : ℚ → ℚ) (syn : Synapse) (pre post : Neuron) (t dt : ℚ)
    (h1 : potentiates pre post = false) (h2 : depresses pre post = false)
    (hmin : syn.minWeight ≤ syn.weight) (hmax : syn.weight ≤ syn.maxWeight) :
    (syn.stdpUpdate exp pre post t dt).weight = syn.weight := by
  rw [stdpUpdate_weight, h1, h2]
  simp only [Bool.false_eq_true, if_false, add_zero]
  rw [min_eq_left hmax, max_eq_left hmin]

end Layered

theorem foldl_modify_map_invariant {α β : Type} (g : α → β) (c : ℕ → Bool) (f : α → α)
    (h : ∀ x, g (f x) = g x) (l : List ℕ) :
    ∀ w0 : List α,
      (l.foldl (fun w k => if c k = true then w.modify f k else w) w0).map g = w0.map g := by
  induction l with
  | nil => intro w0; rfl
  | cons k l ih =>
    intro w0
    rw [List.foldl_cons, ih]
    split_ifs
    · exact map_modify_of_invariant g f h w0 k
    · rfl

namespace Layered

theorem connect_forall (rand : ℕ → ℚ) (P : Synapse → Prop)
    (hP : ∀ i j k, P (Synapse.newDefault i j (rand k))) (i j : ℕ)
    (st : List Neuron × List Synapse) (h : ∀ syn ∈ st.2, P syn) :
    ∀ syn ∈ (connect rand i j st).2, P syn := by
  rw [connect_synapses]
  split_ifs
  · intro syn hsyn
    rw [List.mem_append, List.mem_singleton] at hsyn
    rcases hsyn with hsyn | rfl
    · exact h syn hsyn
    · exact hP i j _
  · exact h

theorem inner_loop_forall (rand : ℕ → ℚ) (P : Synapse → Prop)
    (hP : ∀ i j k, P (Synapse.newDefault i j (rand k))) (i : ℕ) (js : List ℕ) :
    ∀ st : List Neuron × List Synapse, (∀ syn ∈ st.2, P syn) →
      ∀ syn ∈ (js.foldl (fun st j => connect rand i j st) st).2, P syn := by
  induction js with
  | nil => intro st h; exact h
  | cons j js ih => intro st h; exact ih _ (connect_forall rand P hP i j st h)

theorem outer_loop_forall (rand : ℕ → ℚ) (P : Synapse → Prop)
    (hP : ∀ i j k, P (Synapse.newDefault i j (rand k))) (js is : List ℕ) :
    ∀ st : List Neuron × List Synapse, (∀ syn ∈ st.2, P syn) →
      ∀ syn ∈ (is.foldl (fun st i => js.foldl (fun st j => connect rand i j st) st) st).2,
        P syn := by
  induction is with
  | nil => intro st h; exact h
  | cons i is ih => intro st h; exact ih _ (inner_loop_forall rand P hP i js st h)

/-- Every synapse of a new network is a default synapse with a drawn weight. -/
theorem new_synapses_forall (rand : ℕ → ℚ) (P : Synapse → Prop)
    (hP : ∀ i j k, P (Synapse.newDefault i j (rand k))) (a b c d : ℕ) :
    ∀ syn ∈ (SNN.new rand a b c d).synapses, P syn := by
  simp only [SNN.new, connectAll]
  exact outer_loop_forall rand P hP _ _ _ (fun syn hsyn => by simp at hsyn)

theorem mem_initialNeurons_record (a b c d : ℕ) (n : Neuron)
    (h : n ∈ initialNeurons a b c d) :
    n.spiked = false ∧ n.lastSpikeTime = SpikeTime.negInf := by
  simp only [initialNeurons, List.mem_append, List.mem_map] at h
  rcases h with ((⟨_, _, rfl⟩ | ⟨_, _, rfl⟩) | ⟨_, _, rfl⟩) | ⟨_, _, rfl⟩ <;>
    exact ⟨rfl, rfl⟩

theorem new_settled (rand : ℕ → ℚ) (a b c d : ℕ)
    (hrand : ∀ k, -1 ≤ rand k * (1 / 10) - 5 / 100 ∧ rand k * (1 / 10) - 5 / 100 ≤ 1) :
    (SNN.new rand a b c d).Settled := by
  constructor
  · intro n hn
    have h1 : n.withoutLinks ∈ (SNN.new rand a b c d).neurons.map Neuron.withoutLinks :=
      List.mem_map_of_mem _ hn
    rw [new_neurons_withoutLinks] at h1
    obtain ⟨g1, g2⟩ := mem_initialNeurons_record a b c d _ h1
    change n.spiked = false at g1
    change n.lastSpikeTime = SpikeTime.negInf at g2
    constructor
    · intro h
      rw [g1] at h
      exact absurd h (by decide)
    · intro x hx
      rw [g2] at hx
      exact SpikeTime.noConfusion hx
  · exact new_synapses_forall rand
      (fun syn => syn.minWeight ≤ syn.weight ∧ syn.weight ≤ syn.maxWeight)
      (fun i j k => hrand k) a b c d

theorem injectedNeurons_withoutPotential (s : SNN) (inputValues : List ℚ) :
    (injectedNeurons s inputValues).map Neuron.withoutPotential
      = s.neurons.map Neuron.withoutPotential := by
  unfold injectedNeurons
  exact foldl_modify_map_invariant Neuron.withoutPotential (inputAbove inputValues)
    (fun n : Neuron => n.receiveSpike 1 s.currentTime) (fun _ => rfl)
    (List.range s.numInputs) s.neurons

theorem transmitAll_weights (t dt : ℚ) (syns : List Synapse) :
    ∀ ns : List Neuron,
      (transmitAll t dt syns ns).1.map Synapse.weight = syns.map Synapse.weight := by
  induction syns with
  | nil => intro ns; rfl
  | cons syn rest ih =>
    intro ns
    simp only [transmitAll, List.map_cons, ih]
    rfl

/-- An `update` at a time not before the previous one keeps a settled network settled
and keeps every weight. -/
theorem update_settled (exp : ℚ → ℚ) (s : SNN) (t dt : ℚ) (h : s.Settled)
    (ht : ∀ T, s.currentTime = some T → T ≤ t) :
    (s.update exp t dt).1.Settled ∧
      (s.update exp t dt).1.synapses.map Synapse.weight = s.synapses.map Synapse.weight := by
  have hn : ∀ m ∈ (s.update exp t dt).1.neurons, m.TimedBy (some t) := by
    intro m hm
    simp only [SNN.update, List.mem_map] at hm
    obtain ⟨n1, hn1, rfl⟩ := hm
    have h1 := timedBy_of_map s.currentTime s.neurons _
      (transmitAll_withoutPotential t dt s.synapses s.neurons) h.1 n1 hn1
    exact update_timedBy s.currentTime n1 t dt h1 ht
  have hkeep : ∀ y ∈ (transmitAll t dt s.synapses s.neurons).1,
      (y.minWeight ≤ y.weight ∧ y.weight ≤ y.maxWeight) ∧
      ∀ i j, (y.stdpUpdate exp (neuronAt (s.update exp t dt).1.neurons i)
        (neuronAt (s.update exp t dt).1.neurons j) t dt).weight = y.weight := by
    intro y hy
    obtain ⟨z, hz, ns0, rfl⟩ := mem_transmitAll t dt s.synapses s.neurons y hy
    have hb : z.minWeight ≤ z.weight ∧ z.weight ≤ z.maxWeight := h.2 z hz
    refine ⟨hb, fun i j => ?_⟩
    obtain ⟨b1, b2⟩ := no_branch (some t) _ _
      (neuronAt_timedBy (some t) _ hn i) (neuronAt_timedBy (some t) _ hn j)
    exact stdpUpdate_keeps_weight exp _ _ _ t dt b1 b2 hb.1 hb.2
  refine ⟨⟨hn, ?_⟩, ?_⟩
  · intro x hx
    simp only [SNN.update, List.mem_map] at hx
    obtain ⟨y, hy, rfl⟩ := hx
    obtain ⟨hb, hk⟩ := hkeep y hy
    have hw := hk y.pre y.post
    simp only [SNN.update] at hw
    rw [hw]
    exact hb
  · have hmap : (s.update exp t dt).1.synapses.map Synapse.weight
        = (transmitAll t dt s.synapses s.neurons).1.map Synapse.weight := by
      simp only [SNN.update, List.map_map]
      apply List.map_congr_left
      intro y hy
      have hw := (hkeep y hy).2 y.pre y.post
      simp only [SNN.update] at hw
      exact hw
    rw [hmap, transmitAll_weights]

end Layered

namespace Layered

theorem monotoneRun_reachable (exp : ℚ → ℚ) (rand : ℕ → ℚ) (a b c d : ℕ) (s : SNN)
    (h : MonotoneRun exp rand a b c d s) : Reachable exp s := by
  induction h with
  | new => exact Reachable.new rand a b c d
  | injectInputs s s1 inputValues _ hinj ih => exact Reachable.injectInputs s s1 inputValues ih hinj
  | reset s _ ih => exact Reachable.reset s ih
  | update s t dt _ _ ih => exact Reachable.update s t dt ih

/-- Along a run with non-decreasing time the network stays settled and every weight keeps
its initial value. -/
theorem monotoneRun_settled (exp : ℚ → ℚ) (rand : ℕ → ℚ) (a b c d : ℕ) (s : SNN)
    (hrand : ∀ k, -1 ≤ rand k * (1 / 10) - 5 / 100 ∧ rand k * (1 / 10) - 5 / 100 ≤ 1)
    (h : MonotoneRun exp rand a b c d s) :
    s.Settled ∧
      s.synapses.map Synapse.weight = (SNN.new rand a b c d).synapses.map Synapse.weight := by
  induction h with
  | new => exact ⟨new_settled rand a b c d hrand, rfl⟩
  | injectInputs s s1 inputValues hrun hinj ih =>
    have hw := reachable_inputsWired exp s (monotoneRun_reachable exp rand a b c d s hrun)
    rw [injectInputs_eq s inputValues hw.1] at hinj
    cases hinj
    refine ⟨⟨?_, ih.1.2⟩, ih.2⟩
    exact timedBy_of_map s.currentTime s.neurons _
      (injectedNeurons_withoutPotential s inputValues) ih.1.1
  | reset s _ ih =>
    refine ⟨⟨?_, ih.1.2⟩, ih.2⟩
    intro m hm
    simp only [SNN.reset, List.mem_map] at hm
    obtain ⟨n, hn, rfl⟩ := hm
    have hnT := ih.1.1 n hn
    constructor
    · intro hsp
      exact absurd hsp (by simp [Neuron.reset])
    · exact hnT.2
  | update s t dt _ ht ih =>
    obtain ⟨h1, h2⟩ := update_settled exp s t dt ih.1 ht
    exact ⟨h1, h2.trans ih.2⟩

/-- C17: along every run of the layered network that starts from a freshly constructed
network with initial weights within `[-1, 1]` and interleaves `injectInputs`, `reset`
and `update` calls with finite, non-decreasing `currentTime`: every synapse weight has
its initial value; every neuron with `spiked` set has `lastSpikeTime = currentTime`; and
in any further `update` at a time not before `currentTime`, for every pair of neurons
as pre and post, `stdpUpdate` takes neither its potentiation nor its depression branch,
and every weight is kept. -/
theorem C17_weights_frozen (exp : ℚ → ℚ) (rand : ℕ → ℚ) (a b c d : ℕ) (s : SNN)
    (hrand : ∀ k, -1 ≤ rand k * (1 / 10) - 5 / 100 ∧ rand k * (1 / 10) - 5 / 100 ≤ 1)
    (hrun : MonotoneRun exp rand a b c d s) :
    s.synapses.map Synapse.weight = (SNN.new rand a b c d).synapses.map Synapse.weight ∧
    (∀ n ∈ s.neurons, n.spiked = true →
      ∃ T, s.currentTime = some T ∧ n.lastSpikeTime = SpikeTime.fin T) ∧
    (∀ t dt, (∀ T, s.currentTime = some T → T ≤ t) →
      (∀ i j,
        potentiates (neuronAt (s.update exp t dt).1.neurons i)
            (neuronAt (s.update exp t dt).1.neurons j) = false ∧
          depresses (neuronAt (s.update exp t dt).1.neurons i)
            (neuronAt (s.update exp t dt).1.neurons j) = false) ∧
      (s.update exp t dt).1.synapses.map Synapse.weight = s.synapses.map Synapse.weight) := by
  obtain ⟨hset, hw⟩ := monotoneRun_settled exp rand a b c d s hrand hrun
  refine ⟨hw, fun n hn hsp => (hset.1 n hn).1 hsp, ?_⟩
  intro t dt ht
  obtain ⟨h1, h2⟩ := update_settled exp s t dt hset ht
  refine ⟨fun i j => ?_, h2⟩
  have hcur : (s.update exp t dt).1.currentTime = some t := rfl
  have hn := h1.1
  rw [hcur] at hn
  exact no_branch (some t) _ _ (neuronAt_timedBy (some t) _ hn i)
    (neuronAt_timedBy (some t) _ hn j)

/-- Witness of C17 on `new SNN(1, 0, 0, 1)` with `Math.random` returning one half. -/
theorem C17_weights_frozen_witness :
    (∀ k : ℕ, -1 ≤ (fun _ : ℕ => (1 / 2 : ℚ)) k * (1 / 10) - 5 / 100 ∧
      (fun _ : ℕ => (1 / 2 : ℚ)) k * (1 / 10) - 5 / 100 ≤ 1) ∧
    MonotoneRun (fun _ => 1) (fun _ => 1 / 2) 1 0 0 1 (SNN.new (fun _ => 1 / 2) 1 0 0 1) ∧
    ((SNN.new (fun _ => 1 / 2) 1 0 0 1).update (fun _ => 1) 0 1).1.synapses.map Synapse.weight
      = (SNN.new (fun _ => 1 / 2) 1 0 0 1).synapses.map Synapse.weight :=
  have hr : ∀ k : ℕ, -1 ≤ (fun _ : ℕ => (1 / 2 : ℚ)) k * (1 / 10) - 5 / 100 ∧
      (fun _ : ℕ => (1 / 2 : ℚ)) k * (1 / 10) - 5 / 100 ≤ 1 := by
    intro k
    norm_num
  ⟨hr, MonotoneRun.new,
    ((C17_weights_frozen (fun _ => 1) (fun _ => 1 / 2) 1 0 0 1 _ hr MonotoneRun.new).2.2 0 1
      (fun T hT => by
        have : (SNN.new (fun _ => 1 / 2) 1 0 0 1).currentTime = none := rfl
        rw [this] at hT
        exact Option.noConfusion hT)).2⟩

end Layered

/-! ## The two Hebbian engines side by side -/

theorem map_modify_comm {α β : Type} (g : α → β) (f : α → α) (f1 : β → β) (l : List α)
    (k : ℕ) (h : ∀ x ∈ l, g (f x) = f1 (g x)) :
    (l.modify f k).map g = (l.map g).modify f1 k := by
  induction l generalizing k with
  | nil => simp
  | cons a l ih =>
    cases k with
    | zero => simp [h a (List.mem_cons_self _ _)]
    | succ k =>
      simp only [List.modify_succ_cons, List.map_cons]
      rw [ih k (fun x hx => h x (List.mem_cons_of_mem _ hx))]

theorem foldl_range_getElem? {α β : Type} (F : β → Option α → β) (l : List α) :
    ∀ a : β, (List.range l.length).foldl (fun acc j => F acc l[j]?) a
      = l.foldl (fun acc x => F acc (some x)) a := by
  induction l using List.reverseRecOn with
  | nil => intro a; rfl
  | append_singleton l x ih =>
    intro a
    rw [List.length_append, List.length_singleton, List.range_succ, List.foldl_append,
      List.foldl_append]
    simp only [List.foldl_cons, List.foldl_nil]
    have h1 : (List.range l.length).foldl (fun acc j => F acc (l ++ [x])[j]?) a
        = (List.range l.length).foldl (fun acc j => F acc l[j]?) a := by
      apply List.foldl_ext
      intro acc j hj
      rw [List.mem_range] at hj
      rw [List.getElem?_append_left hj]
    rw [h1, ih]
    have h2 : (l ++ [x])[l.length]? = some x := by
      rw [List.getElem?_append_right (le_refl _)]
      simp
    rw [h2]

namespace Graph

theorem injectOne_eq (ns : List Neuron) (idx : ℕ) :
    injectOne ns idx = ns.modify Neuron.addThreshold idx := by
  unfold injectOne
  split_ifs with h
  · rfl
  · exact (List.modify_eq_self (not_lt.mp h)).symm

/-- The injection loops of the two engines agree on the potentials, and the object-graph
one leaves everything else alone. -/
theorem inject_sim (th : ℚ) (inputs : List ℕ) :
    ∀ ns : List Neuron, (∀ n ∈ ns, n.threshold = th) →
      (inputs.foldl injectOne ns).map Neuron.potential
          = inputs.foldl (fun p idx => p.modify (fun v => v + th) idx)
              (ns.map Neuron.potential) ∧
        (inputs.foldl injectOne ns).map Neuron.frame = ns.map Neuron.frame := by
  induction inputs with
  | nil => intro ns _; exact ⟨rfl, rfl⟩
  | cons idx rest ih =>
    intro ns hth
    simp only [List.foldl_cons]
    have hth1 : ∀ n ∈ injectOne ns idx, n.threshold = th := by
      rw [injectOne_eq]
      exact forall_mem_modify (fun n : Neuron => n.threshold = th) Neuron.addThreshold
        (fun n hn => hn) ns idx hth
    obtain ⟨h1, h2⟩ := ih (injectOne ns idx) hth1
    rw [h1, h2, injectOne_eq]
    constructor
    · rw [map_modify_comm Neuron.potential Neuron.addThreshold (fun v => v + th) ns idx
        (fun n hn => by rw [← hth n hn]; rfl)]
    · exact map_modify_of_invariant Neuron.frame Neuron.addThreshold (fun _ => rfl) ns idx

theorem spikeAt_of_frame (ns ns1 : List Neuron)
    (h : ns1.map Neuron.frame = ns.map Neuron.frame) (i : ℕ) :
    spikeAt ns1 i = spikeAt ns i := by
  have h1 : ∀ l : List Neuron, spikeAt l i
      = match (l.map Neuron.frame)[i]? with
        | some fr => fr.2.2.2
        | none => false := by
    intro l
    unfold spikeAt
    rw [List.getElem?_map]
    cases l[i]? <;> rfl
  rw [h1 ns1, h1 ns, h]

/-- The transmission loops of the two engines agree on the potentials, and the
object-graph one leaves everything else alone. -/
theorem transmit_sim (spikes : List ℕ) (syns : List Synapse) :
    ∀ ns : List Neuron, (∀ i, spikeAt ns i = Dense.spikeSet spikes (some i)) →
      (syns.foldl (fun ns syn => (syn.transmit ns).1) ns).map Neuron.potential
          = syns.foldl
              (fun p syn =>
                if Dense.spikeSet spikes (some syn.preNeuron) = true then
                  p.modify (fun v => v + syn.weight) syn.postNeuron
                else p)
              (ns.map Neuron.potential) ∧
        (syns.foldl (fun ns syn => (syn.transmit ns).1) ns).map Neuron.frame
          = ns.map Neuron.frame := by
  induction syns with
  | nil => intro ns _; exact ⟨rfl, rfl⟩
  | cons syn rest ih =>
    intro ns hsp
    simp only [List.foldl_cons]
    have hfr : (syn.transmit ns).1.map Neuron.frame = ns.map Neuron.frame := by
      unfold Synapse.transmit
      split_ifs
      · exact map_modify_of_invariant Neuron.frame (Neuron.addPotential syn.weight)
          (fun _ => rfl) ns _
      · rfl
    have hsp1 : ∀ i, spikeAt (syn.transmit ns).1 i = Dense.spikeSet spikes (some i) :=
      fun i => (spikeAt_of_frame ns _ hfr i).trans (hsp i)
    obtain ⟨h1, h2⟩ := ih (syn.transmit ns).1 hsp1
    rw [h1, h2, hfr]
    refine ⟨?_, rfl⟩
    congr 1
    unfold Synapse.transmit
    rw [hsp syn.preNeuron]
    split_ifs
    · exact map_modify_comm Neuron.potential (Neuron.addPotential syn.weight)
        (fun v => v + syn.weight) ns _ (fun _ _ => rfl)
    · rfl

end Graph

namespace Graph

/-- The transmission loop of the typed-array engine, as a loop over the synapse list it
shares with the object-graph engine. -/
theorem dense_transmit_eq (syns : List Synapse) (d : Dense.OptimizedNetwork) (p : List ℚ)
    (hnum : d.numSynapses = syns.length)
    (hpre : d.pre = syns.map Synapse.preNeuron)
    (hpost : d.post = syns.map Synapse.postNeuron)
    (hw : d.weights = syns.map Synapse.weight) :
    Dense.transmit d p
      = syns.foldl
          (fun p syn =>
            if Dense.spikeSet d.spikes (some syn.preNeuron) = true then
              p.modify (fun v => v + syn.weight) syn.postNeuron
            else p)
          p := by
  have hF : (fun (p : List ℚ) (i : ℕ) =>
        if Dense.spikeSet d.spikes d.pre[i]? = true then
          match d.post[i]?, d.weights[i]? with
          | some postIdx, some w => p.modify (fun v => v + w) postIdx
          | _, _ => p
        else p)
      = (fun (p : List ℚ) (i : ℕ) =>
          (fun (acc : List ℚ) (o : Option Synapse) =>
            if Dense.spikeSet d.spikes (o.map Synapse.preNeuron) = true then
              match o.map Synapse.postNeuron, o.map Synapse.weight with
              | some postIdx, some w => acc.modify (fun v => v + w) postIdx
              | _, _ => acc
            else acc) p syns[i]?) := by
    funext p i
    simp only [hpre, hpost, hw, List.getElem?_map]
  unfold Dense.transmit
  rw [hF, hnum]
  exact foldl_range_getElem?
    (fun (acc : List ℚ) (o : Option Synapse) =>
      if Dense.spikeSet d.spikes (o.map Synapse.preNeuron) = true then
        match o.map Synapse.postNeuron, o.map Synapse.weight with
        | some postIdx, some w => acc.modify (fun v => v + w) postIdx
        | _, _ => acc
      else acc) syns p

theorem frame_fields (ns ns1 : List Neuron)
    (h : ns1.map Neuron.frame = ns.map Neuron.frame) :
    ns1.length = ns.length ∧
      ns1.map Neuron.refractoryTimer = ns.map Neuron.refractoryTimer ∧
      ∀ (th : ℚ) (per : ℕ), (∀ n ∈ ns, n.threshold = th ∧ n.refractory = per) →
        ∀ n ∈ ns1, n.threshold = th ∧ n.refractory = per := by
  refine ⟨?_, ?_, ?_⟩
  · have := congrArg List.length h
    simpa using this
  · have := congrArg (List.map (fun fr : ℚ × ℕ × ℕ × Bool => fr.2.2.1)) h
    simp only [List.map_map] at this
    exact this
  · intro th per hall n hn
    have h1 : n.frame ∈ ns1.map Neuron.frame := List.mem_map_of_mem _ hn
    rw [h, List.mem_map] at h1
    obtain ⟨m, hm, he⟩ := h1
    have h2 := hall m hm
    have e1 : m.threshold = n.threshold := congrArg Prod.fst he
    have e2 : m.refractory = n.refractory := congrArg (fun fr => fr.2.1) he
    rw [← e1, ← e2]
    exact h2

/-- The neuron phases of the two engines agree, neuron by neuron. -/
theorem neuron_sim (d : Dense.OptimizedNetwork) (ns : List Neuron)
    (hN : d.numNeurons = ns.length) (hS : d.spikes.length = ns.length)
    (hT : d.refractoryTimers = ns.map Neuron.refractoryTimer)
    (hper : d.refractoryPeriod < 256)
    (hth : ∀ n ∈ ns, n.threshold = d.threshold ∧ n.refractory = d.refractoryPeriod) :
    (Dense.neuronPhase d (ns.map Neuron.potential)).1
        = (ns.map (fun n => (n.update 0).1)).map Neuron.potential ∧
      (Dense.neuronPhase d (ns.map Neuron.potential)).2.1
        = (ns.map (fun n => (n.update 0).1)).map (fun n => if n.spike = true then 1 else 0) ∧
      (Dense.neuronPhase d (ns.map Neuron.potential)).2.2
        = (ns.map (fun n => (n.update 0).1)).map Neuron.refractoryTimer := by
  have key : ∀ i : ℕ,
      (Dense.neuronPhase d (ns.map Neuron.potential)).1[i]?
          = ((ns.map (fun n => (n.update 0).1)).map Neuron.potential)[i]? ∧
        (Dense.neuronPhase d (ns.map Neuron.potential)).2.1[i]?
          = ((ns.map (fun n => (n.update 0).1)).map
              (fun n => if n.spike = true then 1 else 0))[i]? ∧
        (Dense.neuronPhase d (ns.map Neuron.potential)).2.2[i]?
          = ((ns.map (fun n => (n.update 0).1)).map Neuron.refractoryTimer)[i]? := by
    intro i
    obtain ⟨h1, h2, h3⟩ := Dense.neuronLoop_getElem? d
      (ns.map Neuron.potential, List.replicate d.spikes.length 0, d.refractoryTimers)
      d.numNeurons i
    unfold Dense.neuronPhase
    rw [h1, h2, h3, hN, hS, hT]
    simp only [List.getElem?_map, List.getElem?_replicate]
    by_cases hi : i < ns.length
    · have hget : ns[i]? = some ns[i] := List.getElem?_eq_getElem hi
      obtain ⟨e1, e2⟩ := hth ns[i] (List.getElem_mem hi)
      have hmod : d.refractoryPeriod % 256 = d.refractoryPeriod := Nat.mod_eq_of_lt hper
      simp only [hi, if_true, hget, Option.map_some', Dense.cellPotential, Dense.cellSpike,
        Dense.cellTimer, Option.getD_some, Neuron.update, add_zero, e1, e2, hmod]
      by_cases hr : ns[i].refractoryTimer > 0
      · simp [hr]
      · by_cases hp : ns[i].potential ≥ d.threshold
        · simp [hr, hp]
        · simp [hr, hp]
    · have hget : ns[i]? = none := List.getElem?_eq_none (not_lt.mp hi)
      simp [hi, hget]
  exact ⟨List.ext_getElem? (fun i => (key i).1), List.ext_getElem? (fun i => (key i).2.1),
    List.ext_getElem? (fun i => (key i).2.2)⟩

theorem spikeSet_of_flags (ns : List Neuron) (i : ℕ) :
    Dense.spikeSet (ns.map (fun n => if n.spike = true then 1 else 0)) (some i)
      = spikeAt ns i := by
  unfold Dense.spikeSet spikeAt
  simp only [List.getD_eq_getElem?_getD, List.getElem?_map]
  cases ns[i]? with
  | none => rfl
  | some n => cases h : n.spike <;> simp [h]

end Graph

namespace Graph

/-- The neurons of the object-graph network after `step`, and the three arrays of the
typed-array network after its `step`, when the two start in the same state. -/
theorem step_neurons_sim (g : Network) (d : Dense.OptimizedNetwork) (inputNeurons : List ℕ)
    (h : Agree g d) :
    (d.step inputNeurons).potentials = (g.step inputNeurons).neurons.map Neuron.potential ∧
      (d.step inputNeurons).spikes
        = (g.step inputNeurons).neurons.map (fun n => if n.spike = true then 1 else 0) ∧
      (d.step inputNeurons).refractoryTimers
        = (g.step inputNeurons).neurons.map Neuron.refractoryTimer ∧
      (g.step inputNeurons).neurons.length = g.neurons.length := by
  obtain ⟨hN, hP, hS, hSp, hT, hNum, hPre, hPost, hW, _, hper, hth⟩ := h
  obtain ⟨i1, i2⟩ := inject_sim d.threshold inputNeurons g.neurons (fun n hn => (hth n hn).1)
  have hsp1 : ∀ i, spikeAt (inputNeurons.foldl injectOne g.neurons) i
      = Dense.spikeSet d.spikes (some i) :=
    fun i => (spikeAt_of_frame g.neurons _ i2 i).trans (hSp i).symm
  obtain ⟨t1, t2⟩ := transmit_sim d.spikes g.synapses _ hsp1
  have hfr : (g.synapses.foldl (fun ns syn => (syn.transmit ns).1)
      (inputNeurons.foldl injectOne g.neurons)).map Neuron.frame
        = g.neurons.map Neuron.frame := t2.trans i2
  obtain ⟨f1, f2, f3⟩ := frame_fields g.neurons _ hfr
  have hpot : Dense.transmit d (Dense.inject d inputNeurons)
      = (g.synapses.foldl (fun ns syn => (syn.transmit ns).1)
          (inputNeurons.foldl injectOne g.neurons)).map Neuron.potential := by
    rw [dense_transmit_eq g.synapses d _ hNum hPre hPost hW, t1, i1]
    unfold Dense.inject
    rw [hP]
  have hsim := neuron_sim d
    (g.synapses.foldl (fun ns syn => (syn.transmit ns).1)
      (inputNeurons.foldl injectOne g.neurons))
    (hN.trans f1.symm) (hS.trans f1.symm) (hT.trans f2.symm) hper
    (f3 d.threshold d.refractoryPeriod hth)
  simp only [Dense.OptimizedNetwork.step, Network.step, hpot, List.length_map]
  exact ⟨hsim.1, hsim.2.1, hsim.2.2, f1⟩

/-- C18: the typed-array engine simulates the object-graph Hebbian network: when a
`Network` state and an `OptimizedNetwork` state agree (neuron count, synapse list with
all weights at most 1, `eta`, and every neuron's potential, spike flag and refractory
timer), then for every `inputNeurons` list, out-of-range indices included, one `step`
of each over exact arithmetic yields the same potential, spike flag and refractory
timer for every neuron, and each `OptimizedNetwork` weight equals the minimum of the
corresponding `Network` weight and 1 (`Network.hebbianUpdate` does not clamp); the
synapse endpoints stay the same. -/
theorem C18_dense_simulates_graph (g : Network) (d : Dense.OptimizedNetwork)
    (inputNeurons : List ℕ) (h : Agree g d)
    (hw : ∀ syn ∈ g.synapses, syn.weight ≤ 1) :
    (d.step inputNeurons).potentials = (g.step inputNeurons).neurons.map Neuron.potential ∧
    (d.step inputNeurons).refractoryTimers
      = (g.step inputNeurons).neurons.map Neuron.refractoryTimer ∧
    (∀ i, Dense.spikeSet (d.step inputNeurons).spikes (some i)
      = spikeAt (g.step inputNeurons).neurons i) ∧
    (d.step inputNeurons).weights
      = (g.step inputNeurons).synapses.map (fun syn => min syn.weight 1) ∧
    (d.step inputNeurons).numNeurons = (g.step inputNeurons).neurons.length ∧
    (d.step inputNeurons).pre = (g.step inputNeurons).synapses.map Synapse.preNeuron ∧
    (d.step inputNeurons).post = (g.step inputNeurons).synapses.map Synapse.postNeuron := by
  obtain ⟨s1, s2, s3, s4⟩ := step_neurons_sim g d inputNeurons h
  have hspk : ∀ i, Dense.spikeSet (d.step inputNeurons).spikes (some i)
      = spikeAt (g.step inputNeurons).neurons i := by
    intro i
    rw [s2]
    exact spikeSet_of_flags _ i
  obtain ⟨hN, _, _, _, _, hNum, hPre, hPost, hW, hEta, _, _⟩ := h
  have hends : ∀ syn : Synapse,
      (syn.hebbianUpdate (g.step inputNeurons).neurons g.eta).preNeuron = syn.preNeuron ∧
      (syn.hebbianUpdate (g.step inputNeurons).neurons g.eta).postNeuron = syn.postNeuron := by
    intro syn
    unfold Synapse.hebbianUpdate
    split_ifs <;> exact ⟨rfl, rfl⟩
  refine ⟨s1, s3, hspk, ?_, ?_, ?_, ?_⟩
  · apply List.ext_getElem?
    intro j
    have hd : (d.step inputNeurons).weights = Dense.hebbian d (d.step inputNeurons).spikes := rfl
    have hg : (g.step inputNeurons).synapses
        = g.synapses.map (fun syn => syn.hebbianUpdate (g.step inputNeurons).neurons g.eta) := rfl
    rw [hd, Dense.hebbian_getElem?, hg, hPre, hPost, hW, hNum]
    simp only [List.getElem?_map]
    cases hj : g.synapses[j]? with
    | none =>
      simp
    | some syn =>
      have hlt : j < g.synapses.length := by
        rcases List.getElem?_eq_some_iff.mp hj with ⟨hlt, _⟩
        exact hlt
      have hle : syn.weight ≤ 1 := hw syn (List.getElem?_mem hj)
      simp only [Option.map_some', hlt, true_and, hspk, Bool.and_eq_true]
      unfold Synapse.hebbianUpdate
      by_cases hc : spikeAt (g.step inputNeurons).neurons syn.preNeuron = true ∧
          spikeAt (g.step inputNeurons).neurons syn.postNeuron = true
      · simp only [hc, and_self, if_true, Bool.and_self, Dense.bump_eq_min, hEta]
      · have hc2 : ¬ ((spikeAt (g.step inputNeurons).neurons syn.preNeuron
            && spikeAt (g.step inputNeurons).neurons syn.postNeuron) = true) := by
          rw [Bool.and_eq_true]
          exact hc
        simp only [hc, hc2, if_false, Bool.false_eq_true, min_eq_left hle]
  · show d.numNeurons = (g.step inputNeurons).neurons.length
    rw [s4]
    exact hN
  · show d.pre = _
    rw [hPre]
    have hg : (g.step inputNeurons).synapses
        = g.synapses.map (fun syn => syn.hebbianUpdate (g.step inputNeurons).neurons g.eta) := rfl
    rw [hg, List.map_map]
    apply List.map_congr_left
    intro syn _
    exact ((hends syn).1).symm
  · show d.post = _
    rw [hPost]
    have hg : (g.step inputNeurons).synapses
        = g.synapses.map (fun syn => syn.hebbianUpdate (g.step inputNeurons).neurons g.eta) := rfl
    rw [hg, List.map_map]
    apply List.map_congr_left
    intro syn _
    exact ((hends syn).2).symm

end Graph

namespace Graph

theorem sample_agree : Agree sampleGraph sampleDense := by
  refine ⟨rfl, rfl, rfl, ?_, rfl, rfl, rfl, rfl, rfl, rfl, by decide, ?_⟩
  · intro i
    match i with
    | 0 => rfl
    | 1 => rfl
    | (k + 2) => rfl
  · intro n hn
    simp only [sampleGraph, List.mem_cons, List.mem_singleton, List.not_mem_nil, or_false,
      or_self] at hn
    rw [hn]
    exact ⟨rfl, rfl⟩

/-- Witness of C18 on the two sample networks, injecting neuron 0 and the out-of-range
index 7. -/
theorem C18_dense_simulates_graph_witness :
    (Agree sampleGraph sampleDense ∧ ∀ syn ∈ sampleGraph.synapses, syn.weight ≤ 1) ∧
    (sampleDense.step [0, 7]).potentials
      = (sampleGraph.step [0, 7]).neurons.map Neuron.potential ∧
    (sampleDense.step [0, 7]).weights
      = (sampleGraph.step [0, 7]).synapses.map (fun syn => min syn.weight 1) :=
  have hw : ∀ syn ∈ sampleGraph.synapses, syn.weight ≤ 1 := by
    intro syn hsyn
    simp only [sampleGraph, List.mem_singleton] at hsyn
    rw [hsyn]
    norm_num
  ⟨⟨sample_agree, hw⟩,
    (C18_dense_simulates_graph sampleGraph sampleDense [0, 7] sample_agree hw).1,
    (C18_dense_simulates_graph sampleGraph sampleDense [0, 7] sample_agree hw).2.2.2.1⟩

end Graph

/-! ## The dense engine: the rejection loop of the constructor -/

namespace Dense

theorem floor_draw_zero (r : ℚ) (n : ℕ) (hr : 0 ≤ r ∧ r < 1) (hn : n ≤ 1) :
    ⌊r * (n : ℚ)⌋ = 0 := by
  rw [Int.floor_eq_zero_iff]
  have hcases : n = 0 ∨ n = 1 := by omega
  rcases hcases with h | h
  · subst h
    simp
  · subst h
    simp only [Nat.cast_one, mul_one, Set.mem_Ico]
    exact hr

theorem floor_draw_bounds (r : ℚ) (n : ℕ) (hr : 0 ≤ r ∧ r < 1) (hn : 0 < n) :
    0 ≤ ⌊r * (n : ℚ)⌋ ∧ ⌊r * (n : ℚ)⌋ < (n : ℤ) := by
  have hn0 : (0 : ℚ) < (n : ℚ) := Nat.cast_pos.mpr hn
  constructor
  · rw [Int.floor_nonneg]
    exact mul_nonneg hr.1 (le_of_lt hn0)
  · rw [Int.floor_lt]
    have : r * (n : ℚ) < 1 * (n : ℚ) := mul_lt_mul_of_pos_right hr.2 hn0
    simpa using this

/-- When every draw floors to 0 the rejection loop uses up any fuel. -/
theorem drawPair_none (rand : ℕ → ℚ) (n : ℕ) (h : ∀ k, ⌊rand k * (n : ℚ)⌋ = 0) :
    ∀ fuel k, drawPair rand n fuel k = none := by
  intro fuel
  induction fuel with
  | zero => intro k; rfl
  | succ fuel ih =>
    intro k
    simp only [drawPair, h, if_true]
    exact ih (k + 2)

/-- The rejection loop exits at the first round whose two draws differ, given fuel for
that many rounds. -/
theorem drawPair_first (rand : ℕ → ℚ) (n : ℕ) (m : ℕ) :
    ∀ fuel k, m < fuel →
      (∀ r, r < m → ⌊rand (k + 2 * r) * (n : ℚ)⌋ = ⌊rand (k + 2 * r + 1) * (n : ℚ)⌋) →
      ⌊rand (k + 2 * m) * (n : ℚ)⌋ ≠ ⌊rand (k + 2 * m + 1) * (n : ℚ)⌋ →
      drawPair rand n fuel k
        = some (toUint32 ⌊rand (k + 2 * m) * (n : ℚ)⌋,
            toUint32 ⌊rand (k + 2 * m + 1) * (n : ℚ)⌋, k + 2 * m + 2) := by
  induction m with
  | zero =>
    intro fuel k hf _ hne
    cases fuel with
    | zero => omega
    | succ fuel =>
      simp only [Nat.mul_zero, Nat.add_zero] at hne ⊢
      simp only [drawPair, hne, if_false]
  | succ m ih =>
    intro fuel k hf heq hne
    cases fuel with
    | zero => omega
    | succ fuel =>
      have h0 := heq 0 (Nat.succ_pos m)
      simp only [Nat.mul_zero, Nat.add_zero] at h0
      simp only [drawPair, h0, if_true]
      have hrec := ih fuel (k + 2) (by omega)
        (fun r hr => by
          have := heq (r + 1) (by omega)
          have e1 : k + 2 * (r + 1) = k + 2 + 2 * r := by ring
          rw [e1] at this
          exact this)
        (by
          have e1 : k + 2 * (m + 1) = k + 2 + 2 * m := by ring
          rw [e1] at hne
          exact hne)
      rw [hrec]
      have e1 : k + 2 * (m + 1) = k + 2 + 2 * m := by ring
      rw [e1]

/-- A pair accepted by the rejection loop comes from two draws with different floors. -/
theorem drawPair_distinct (rand : ℕ → ℚ) (n : ℕ) :
    ∀ fuel k a b k1, drawPair rand n fuel k = some (a, b, k1) →
      ∃ j j1, a = toUint32 ⌊rand j * (n : ℚ)⌋ ∧ b = toUint32 ⌊rand j1 * (n : ℚ)⌋ ∧
        ⌊rand j * (n : ℚ)⌋ ≠ ⌊rand j1 * (n : ℚ)⌋ := by
  intro fuel
  induction fuel with
  | zero =>
    intro k a b k1 h
    simp [drawPair] at h
  | succ fuel ih =>
    intro k a b k1 h
    simp only [drawPair] at h
    by_cases he : ⌊rand k * (n : ℚ)⌋ = ⌊rand (k + 1) * (n : ℚ)⌋
    · rw [if_pos he] at h
      exact ih (k + 2) a b k1 h
    · rw [if_neg he] at h
      simp only [Option.some.injEq, Prod.mk.injEq] at h
      exact ⟨k, k + 1, h.1.symm, h.2.1.symm, he⟩

theorem toUint32_ne (x y : ℤ) (hx : 0 ≤ x ∧ x < 2 ^ 32) (hy : 0 ≤ y ∧ y < 2 ^ 32)
    (h : x ≠ y) : toUint32 x ≠ toUint32 y := by
  unfold toUint32
  rw [Int.emod_eq_of_lt hx.1 hx.2, Int.emod_eq_of_lt hy.1 hy.2]
  intro he
  apply h
  have h1 := Int.toNat_of_nonneg hx.1
  have h2 := Int.toNat_of_nonneg hy.1
  rw [← h1, ← h2, he]

/-- The pairs stored by the synapse loop have different entries. -/
theorem drawSynapses_distinct (rand : ℕ → ℚ) (n fuel : ℕ)
    (hrand : ∀ k, 0 ≤ rand k ∧ rand k < 1) (hn : n ≤ 2 ^ 32) (m : ℕ) :
    ∀ (k : ℕ) (pre post : List ℕ) (ws : List ℚ),
      drawSynapses rand n fuel m k = some (pre, post, ws) →
        pre.length = m ∧ post.length = m ∧
          ∀ (i p q : ℕ), pre[i]? = some p → post[i]? = some q → p ≠ q := by
  induction m with
  | zero =>
    intro k pre post ws h
    simp only [drawSynapses, Option.some.injEq, Prod.mk.injEq] at h
    obtain ⟨rfl, rfl, _⟩ := h
    exact ⟨rfl, rfl, fun i p q hp _ => by simp at hp⟩
  | succ m ih =>
    intro k pre post ws h
    simp only [drawSynapses] at h
    cases hp : drawPair rand n fuel k with
    | none => simp [hp] at h
    | some r =>
      obtain ⟨a, b, k1⟩ := r
      simp only [hp] at h
      cases hd : drawSynapses rand n fuel m (k1 + 1) with
      | none => simp [hd] at h
      | some r2 =>
        obtain ⟨pre2, post2, ws2⟩ := r2
        simp only [hd, Option.some.injEq, Prod.mk.injEq] at h
        obtain ⟨rfl, rfl, _⟩ := h
        obtain ⟨g1, g2, g3⟩ := ih (k1 + 1) pre2 post2 ws2 hd
        refine ⟨by simp [g1], by simp [g2], ?_⟩
        intro i p q hpi hqi
        cases i with
        | zero =>
          simp only [List.getElem?_cons_zero, Option.some.injEq] at hpi hqi
          subst hpi
          subst hqi
          obtain ⟨j, j1, ha, hb, hne⟩ := drawPair_distinct rand n fuel k a b k1 hp
          have hpos : 0 < n := by
            by_contra hcon
            have h0 : n = 0 := by omega
            apply hne
            rw [h0]
            simp
          have bj := floor_draw_bounds (rand j) n (hrand j) hpos
          have bj1 := floor_draw_bounds (rand j1) n (hrand j1) hpos
          have hn2 : (n : ℤ) ≤ 2 ^ 32 := by exact_mod_cast hn
          rw [ha, hb]
          exact toUint32_ne _ _ ⟨bj.1, lt_of_lt_of_le bj.2 hn2⟩
            ⟨bj1.1, lt_of_lt_of_le bj1.2 hn2⟩ hne
        | succ i =>
          simp only [List.getElem?_cons_succ] at hpi hqi
          exact g3 i p q hpi hqi

end Dense

namespace Dense

theorem sampleRand_range : ∀ k, 0 ≤ sampleRand k ∧ sampleRand k < 1 := by
  intro k
  unfold sampleRand
  split_ifs <;> norm_num

/-- C19: with `Math.random` in `[0, 1)`, the rejection loop of the `OptimizedNetwork`
constructor behaves as follows.  For `numNeurons` 0 or 1 every draw floors to 0, so
`preIdx = postIdx = 0` in every round, the loop returns for no amount of fuel, and with
`numSynapses ≥ 1` neither does the constructor.  For `numNeurons ≥ 2` the loop exits at
the first round whose two draws differ (given fuel for that many rounds), returning
that pair; and every network the constructor returns (indices fitting 32 bits) has
`pre[i] ≠ post[i]` for every stored synapse. -/
theorem C19_rejection_loop (rand : ℕ → ℚ) (fuel numNeurons numSynapses : ℕ) (eta : ℚ)
    (hrand : ∀ k, 0 ≤ rand k ∧ rand k < 1) :
    (numNeurons ≤ 1 →
      (∀ k, ⌊rand k * (numNeurons : ℚ)⌋ = 0) ∧
      (∀ k, drawPair rand numNeurons fuel k = none) ∧
      (1 ≤ numSynapses →
        OptimizedNetwork.new rand fuel numNeurons numSynapses eta = none)) ∧
    (2 ≤ numNeurons → ∀ k m, m < fuel →
      (∀ r, r < m → ⌊rand (k + 2 * r) * (numNeurons : ℚ)⌋
        = ⌊rand (k + 2 * r + 1) * (numNeurons : ℚ)⌋) →
      ⌊rand (k + 2 * m) * (numNeurons : ℚ)⌋ ≠ ⌊rand (k + 2 * m + 1) * (numNeurons : ℚ)⌋ →
      drawPair rand numNeurons fuel k
        = some (toUint32 ⌊rand (k + 2 * m) * (numNeurons : ℚ)⌋,
            toUint32 ⌊rand (k + 2 * m + 1) * (numNeurons : ℚ)⌋, k + 2 * m + 2)) ∧
    (2 ≤ numNeurons → numNeurons ≤ 2 ^ 32 → ∀ net,
      OptimizedNetwork.new rand fuel numNeurons numSynapses eta = some net →
        net.pre.length = numSynapses ∧ net.post.length = numSynapses ∧
        ∀ (i p q : ℕ), net.pre[i]? = some p → net.post[i]? = some q → p ≠ q) := by
  refine ⟨?_, ?_, ?_⟩
  · intro hn
    have hz : ∀ k, ⌊rand k * (numNeurons : ℚ)⌋ = 0 :=
      fun k => floor_draw_zero (rand k) numNeurons (hrand k) hn
    refine ⟨hz, fun k => drawPair_none rand numNeurons hz fuel k, ?_⟩
    intro hs
    obtain ⟨m, rfl⟩ : ∃ m, numSynapses = m + 1 := ⟨numSynapses - 1, by omega⟩
    simp only [OptimizedNetwork.new, drawSynapses, drawPair_none rand numNeurons hz fuel 0]
  · intro _ k m hm heq hne
    exact drawPair_first rand numNeurons m fuel k hm heq hne
  · intro _ hle net hnew
    unfold OptimizedNetwork.new at hnew
    cases hd : drawSynapses rand numNeurons fuel numSynapses 0 with
    | none => simp [hd] at hnew
    | some r =>
      obtain ⟨pre, post, ws⟩ := r
      simp only [hd, Option.some.injEq] at hnew
      subst hnew
      exact drawSynapses_distinct rand numNeurons fuel hrand hle numSynapses 0 pre post ws hd

/-- Witness of C19 with `sampleRand`: construction with one neuron and one synapse does
not return within 7 rounds, and the network built with two neurons has `pre ≠ post`. -/
theorem C19_rejection_loop_witness :
    (∀ k, 0 ≤ sampleRand k ∧ sampleRand k < 1) ∧
    OptimizedNetwork.new sampleRand 7 1 1 (1 / 10) = none ∧
    OptimizedNetwork.new sampleRand 1 2 1 (1 / 10) = some drawnNet ∧
    (∀ (i p q : ℕ), drawnNet.pre[i]? = some p → drawnNet.post[i]? = some q → p ≠ q) :=
  ⟨sampleRand_range,
    ((C19_rejection_loop sampleRand 7 1 1 (1 / 10) sampleRand_range).1 (le_refl 1)).2.2
      (le_refl 1),
    new_sampleRand,
    ((C19_rejection_loop sampleRand 1 2 1 (1 / 10) sampleRand_range).2.2 (le_refl 2)
      (by norm_num) drawnNet new_sampleRand).2.2⟩

end Dense
